import Mathlib

/-!
A verification development for the `celltree` data structure
(a uint64 radix/prefix tree with sorted-run leaves).

The Go source (`celltree.go`) is embedded shallowly:
  * machine integers (`uint64`) become `Nat`, with explicit `% 2^64`
    where the Go arithmetic can wrap;
  * `interface{}` payloads become `Data := Option Nat` (`none` is Go's `nil`);
  * in-place mutation becomes explicit state passing (`Node → Node × ...`);
  * user callbacks (`iter`, `cond`) are total Lean functions; a possibly-nil
    Go callback is an `Option` of a function, and *calling* a `nil` Go
    function is a runtime panic, modelled by an `Option.none` result;
  * iterator-visiting operations additionally return the trace of callback
    invocations, so that claims about "which items are visited" can be stated.

Backing-array *capacity* is not modelled: the Go shrink/realloc code paths
(`cap`-based) produce exactly the same logical item sequence as the
keep-the-array paths, so both collapse to one definition here; each such
spot is marked with a comment.
-/

namespace Celltree

/-- Go: `numBits = 7` (bits consumed per branch level). -/
def numBits : Nat := 7

/-- Go: `numNodes = 128` (fanout, `2^numBits`). -/
def numNodes : Nat := 128

/-- Go: `maxItems = 256` (max items in a non-max-depth leaf). -/
def maxItems : Nat := 256

/-- Go: `minItems = maxItems * 40 / 100` (branch compaction threshold). -/
def minItems : Nat := maxItems * 40 / 100

/-- Payloads: Go `interface{}` values; `none` models Go `nil`. -/
abbrev Data := Option Nat

/-- Go: `type item struct { cell uint64; data interface{} }`. -/
structure Item where
  cell : Nat
  data : Data
deriving DecidableEq, Repr

instance : Inhabited Item := ⟨⟨0, none⟩⟩

/-- Go: `type node struct { branch bool; items []item; nodes []node; count int }`.
`count` is Go `int`, modelled as `Int`. -/
inductive Node : Type where
  | mk (branch : Bool) (items : List Item) (nodes : List Node) (count : Int)

/-- Field accessor for `branch`. -/
def Node.branch : Node → Bool
  | .mk b _ _ _ => b

/-- Field accessor for `items`. -/
def Node.items : Node → List Item
  | .mk _ its _ _ => its

/-- Field accessor for `nodes`. -/
def Node.nodes : Node → List Node
  | .mk _ _ nds _ => nds

/-- Field accessor for `count`. -/
def Node.count : Node → Int
  | .mk _ _ _ c => c

/-- A zero-valued node (Go `node{}` / a fresh `new(node)`). -/
def zeroNode : Node := .mk false [] [] 0

instance : Inhabited Node := ⟨zeroNode⟩

/-- Go: `type Tree struct { count int; root *node }`. -/
structure Tree where
  count : Int
  root : Option Node

/-- A zero-valued tree (Go `var tr Tree`). -/
def emptyTree : Tree := ⟨0, none⟩

/-- Go: `func (tr *Tree) Count() int`. -/
def Tree.Count (tr : Tree) : Int := tr.count

/-- Go: `cellIndex(cell, bits) = int(cell >> bits & uint64(numNodes-1))`
(`& 127` is `% 128` on naturals). -/
def cellIndex (cell : Nat) (bits : Nat) : Nat :=
  (cell >>> bits) % numNodes

/-- Go: `maxDepth(bits) = bits < numBits`. -/
def maxDepth (bits : Nat) : Bool := bits < numBits

/-! ## Semantic denotation: the items stored beneath a node

These two functions are the specification-side meaning of a node: the
concatenated item runs of its leaves, children in index order.  (They do
not come from the Go source; the source's own `flatten` is translated
separately below because it consults the cached `count` fields.) -/

mutual

/-- All items stored at or beneath a node, leaves left to right. -/
def Node.contents : Node → List Item
  | .mk false its _ _ => its
  | .mk true _ nds _ => contentsL nds

/-- Concatenated contents of a list of nodes. -/
def contentsL : List Node → List Item
  | [] => []
  | c :: rest => c.contents ++ contentsL rest

end

/-! ## findLeafItem (binary search) -/

/-- The loop of Go `findLeafItem`: binary search over `items[i..j)` for
the first position whose cell is strictly greater than `cell`.  `fuel`
only bounds the iteration count so the recursion is structural (the Go
loop needs no bound: `j - i` shrinks every pass, and the callers pass
`fuel = j - i`, which the loop can never exhaust). -/
def findLoop (items : List Item) (cell : Nat) : Nat → Nat → Nat → Nat
  | 0, i, _ => i
  | fuel + 1, i, j =>
    if i < j then
      let m := i + (j - i) / 2
      if (items.getD m default).cell ≤ cell then
        -- Go: `cell >= items[h].cell` → `i = h + 1`
        findLoop items cell fuel (m + 1) j
      else
        findLoop items cell fuel i m
    else i

/-- Go: `func (n *node) findLeafItem(cell uint64) int`. -/
def Node.findLeafItem (n : Node) (cell : Nat) : Nat :=
  findLoop n.items cell n.items.length 0 n.items.length

/-! ## Insert -/

/-- Go `insert` lines 116-129: walk backward from `j-1` over duplicate
cells, asking `cond`; returns the position whose payload is to be replaced
together with the replacement value, if any.  The argument `j` plays Go's
`i + 1`, making the downward loop a structural recursion. -/
def condWalk (f : Data → Data × Bool) (items : List Item) (cell : Nat) :
    Nat → Option (Nat × Data)
  | 0 => none
  | j + 1 =>
    match items.get? j with
    | none => none
    | some it =>
      if it.cell ≠ cell then none  -- did not find a duplicate
      else
        let r := f it.data
        if r.2 then some (j, r.1) else condWalk f items cell j

/-- The branch case of Go `insert` (lines 145-156), with `ins` standing
for `insert` one level down (at `bits - numBits`). -/
def branchInsertG
    (ins : Nat → Data → Option (Data → Data × Bool) → Node → Node × Bool)
    (bits : Nat) (cell : Nat) (data : Data)
    (cond : Option (Data → Data × Bool)) (n : Node) : Node × Bool :=
  -- locate the index of the child node
  let index := cellIndex cell bits
  match n.nodes.get? index with
  | none => (n, false)  -- unreachable: a well-formed branch has 128 children
  | some child =>
    let r := ins cell data cond child
    if r.2 then
      (.mk n.branch n.items (n.nodes.set index r.1) (n.count + 1), true)
    else
      (.mk n.branch n.items (n.nodes.set index r.1) n.count, false)

/-- The reinsertion loop of Go `splitLeaf` (lines 74-76); `bi` is the
branch case of `insert` with a nil `cond`. -/
def splitItemsG (bi : Nat → Data → Node → Node × Bool) :
    List Item → Node → Node
  | [], b => b
  | it :: rest, b => splitItemsG bi rest (bi it.cell it.data b).1

/-- Go: `func (n *node) splitLeaf(bits uint)`: become a branch with 128
fresh children, reinsert every former leaf item (each reinsertion takes
the branch case of `insert`, abstracted as `bi`), then drop the items. -/
def splitLeafG (bi : Nat → Data → Node → Node × Bool) (n : Node) : Node :=
  let b0 : Node := .mk true n.items (List.replicate numNodes zeroNode) 0
  let b1 := splitItemsG bi n.items b0
  .mk true [] b1.nodes b1.count

/-- Go `insert` lines 93-100 plus the shared count bump of line 155:
split a full leaf, re-enter with the node now a branch (line 97 is the
branch case of `insert` with nil `cond`, abstracted as `bi`), and adjust
the count (`n.count--` of line 100, then `n.count++` of line 155). -/
def splitInsertPathG (bi : Nat → Data → Node → Node × Bool)
    (cell : Nat) (data : Data) (n : Node) : Node × Bool :=
  let b := splitLeafG bi n
  let b1 := (bi cell data b).1
  (.mk b1.branch b1.items b1.nodes (b1.count - 1 + 1), true)

/-- The leaf case of Go `insert` (lines 89-144 plus line 155); `split` is
the at-capacity continuation (lines 93-100, also the target of the two
`cond = nil; goto insertAgain` jumps at lines 107 and 133), never invoked
when `atcap` is false. -/
def leafInsert (cell : Nat) (data : Data)
    (cond : Option (Data → Data × Bool)) (atcap : Bool)
    (split : Unit → Node × Bool)
    (items : List Item) (nds : List Node) (cnt : Int) : Node × Bool :=
  if atcap && cond.isNone then
    -- split leaf. it's at capacity (Go lines 93-100)
    split ()
  else
    let appendPath : Bool :=
      match items.getLast? with
      | none => true                        -- len(items) == 0
      | some lastIt => decide (lastIt.cell < cell)
    if appendPath then
      if atcap then split ()  -- `cond = nil; goto insertAgain`
      else
        -- append, plus the shared count bump of line 155
        (.mk false (items ++ [⟨cell, data⟩]) nds (cnt + 1), true)
    else
      let index := Node.findLeafItem (.mk false items nds cnt) cell
      match cond with
      | some f =>
        match condWalk f items cell index with
        | some r =>
          -- replace the payload instead of inserting; the walk guarantees
          -- `items[r.1].cell = cell`, so only the payload changes.
          -- Go returns false before the count bump.
          (.mk false (items.set r.1 ⟨cell, r.2⟩) nds cnt, false)
        | none =>
          if atcap then split ()  -- `cond = nil; goto insertAgain`
          else
            -- make room and place the new cell at `index` (lines 138-142)
            (.mk false (items.take index ++ ⟨cell, data⟩ :: items.drop index)
              nds (cnt + 1), true)
      | none =>
        (.mk false (items.take index ++ ⟨cell, data⟩ :: items.drop index)
          nds (cnt + 1), true)

/-- Go: `func (n *node) insert(cell, data, bits, cond) (inserted bool)`.
The recursion is structural on `bits`: every descent is at
`bits - numBits`, and splits happen only above max depth, so only the
`bits + 7` patterns recurse (`numBits = 7`).  A *branch* at max depth is
unreachable (there Go would wrap its unsigned shift); it is a no-op
here. -/
def Node.insert (cell : Nat) (data : Data) :
    (bits : Nat) → Option (Data → Data × Bool) → Node → Node × Bool
  | bits + 7, cond, .mk false items nds cnt =>
    leafInsert cell data cond
      (!(maxDepth (bits + 7)) && decide (maxItems ≤ items.length))
      (fun _ =>
        splitInsertPathG
          (fun c d b =>
            branchInsertG (fun c2 d2 cd2 n2 => Node.insert c2 d2 bits cd2 n2)
              (bits + 7) c d none b)
          cell data (.mk false items nds cnt))
      items nds cnt
  | bits + 7, cond, .mk true items nds cnt =>
    branchInsertG (fun c2 d2 cd2 n2 => Node.insert c2 d2 bits cd2 n2)
      (bits + 7) cell data cond (.mk true items nds cnt)
  | bits, cond, .mk false items nds cnt =>
    -- max depth (`bits < 7`): `atcap` is false, the split path is dead code
    leafInsert cell data cond
      (!(maxDepth bits) && decide (maxItems ≤ items.length))
      (fun _ => (zeroNode, false))
      items nds cnt
  | _, _, .mk true items nds cnt =>
    (.mk true items nds cnt, false)  -- unreachable: branch at max depth

/-- Go: `func (tr *Tree) InsertOrReplace(cell, data, cond)`. -/
def Tree.InsertOrReplace (cell : Nat) (data : Data)
    (cond : Option (Data → Data × Bool)) (tr : Tree) : Tree :=
  -- Go: `if tr.root == nil { tr.root = new(node) }`
  let root := tr.root.getD zeroNode
  let r := Node.insert cell data (64 - numBits) cond root
  if r.2 then ⟨tr.count + 1, some r.1⟩ else ⟨tr.count, some r.1⟩

/-- Go: `func (tr *Tree) Insert(cell, data)`. -/
def Tree.Insert (cell : Nat) (data : Data) (tr : Tree) : Tree :=
  Tree.InsertOrReplace cell data none tr

/-! ## Delete -/

/-- Go `nodeDelete` lines 189-221 (the backward candidate walk): walk down
from position `j-1` while cells equal `cell`, testing payload equality
(`cond = nil`) or the predicate; `j` plays Go's `i + 1`.  Returns the
position to remove, if any, together with the trace of `cond` invocations. -/
def delWalk (cell : Nat) (data : Data) (cond : Option (Data → Bool))
    (items : List Item) : Nat → Option Nat × List Data
  | 0 => (none, [])
  | j + 1 =>
    match items.get? j with
    | none => (none, [])
    | some it =>
      if it.cell ≠ cell then (none, [])  -- did not find
      else
        match cond with
        | none =>
          if it.data == data then (some j, [])
          else delWalk cell data cond items j
        | some f =>
          if f it.data then (some j, [it.data])
          else
            let r := delWalk cell data cond items j
            (r.1, it.data :: r.2)

mutual

/-- Go: `func (n *node) flatten(items []item) []item` (the accumulator is
returned rather than threaded). -/
def Node.flatten : Node → List Item
  | .mk false its _ _ => its
  | .mk true _ nds _ => flattenL nds

/-- The child loop of Go `flatten`: children in order, skipping those whose
subtree count is zero. -/
def flattenL : List Node → List Item
  | [] => []
  | c :: rest => (if 0 < c.count then c.flatten else []) ++ flattenL rest

end

/-- Go: `func (n *node) compactBranch()`. -/
def Node.compactBranch (n : Node) : Node :=
  let its := n.flatten
  .mk false its [] (its.length : Int)

mutual

/-- Go: `func (n *node) nodeDelete(cell, data, bits, cond) (deleted bool)`,
instrumented with the trace of `cond` invocations.  The two Go paths that
remove `items[i]` (shrink-and-realloc vs shift-in-place, lines 200-217)
produce the same `items.eraseIdx i`; capacity is not modelled.  Go's
unsigned `bits - numBits` is Nat subtraction (a branch at max depth is
unreachable). -/
def Node.nodeDelete (cell : Nat) (data : Data) (bits : Nat)
    (cond : Option (Data → Bool)) : Node → Node × Bool × List Data
  | .mk false items nds cnt =>
    -- leaf node: `i := n.findLeafItem(cell) - 1` and walk down
    let w := delWalk cell data cond items
      (Node.findLeafItem (.mk false items nds cnt) cell)
    match w.1 with
    | some i =>
      -- found the cell; remove it, and apply the shared `n.count--`
      (.mk false (items.eraseIdx i) nds (cnt - 1), true, w.2)
    | none => (.mk false items nds cnt, false, w.2)
  | .mk true items nds cnt =>
    -- branch node: `n.nodes[index].nodeDelete(cell, data, bits-numBits, cond)`
    match nodeDeleteL cell data (bits - numBits) cond nds (cellIndex cell bits) with
    | none => (.mk true items nds cnt, false, [])  -- unreachable: 128 children
    | some (nds2, true, tr) =>
      -- `n.count--`, then compact once the branch falls to minItems
      let n1 : Node := .mk true items nds2 (cnt - 1)
      if cnt - 1 ≤ (minItems : Int) then (n1.compactBranch, true, tr)
      else (n1, true, tr)
    | some (nds2, false, tr) => (.mk true items nds2 cnt, false, tr)

/-- Go's `n.nodes[index].nodeDelete(...)` (the indexed in-place update of
the child array), as a structural walk to position `index`; `none` only
when the index is out of range. -/
def nodeDeleteL (cell : Nat) (data : Data) (bits : Nat)
    (cond : Option (Data → Bool)) :
    List Node → Nat → Option (List Node × Bool × List Data)
  | [], _ => none
  | c :: rest, 0 =>
    let r := c.nodeDelete cell data bits cond
    some (r.1 :: rest, r.2)
  | c :: rest, k + 1 =>
    (nodeDeleteL cell data bits cond rest k).map fun r => (c :: r.1, r.2)

end

/-- Go: `func (tr *Tree) Delete(cell, data)`. -/
def Tree.Delete (cell : Nat) (data : Data) (tr : Tree) : Tree :=
  match tr.root with
  | none => tr
  | some root =>
    let r := root.nodeDelete cell data (64 - numBits) none
    if r.2.1 then ⟨tr.count - 1, some r.1⟩ else ⟨tr.count, some r.1⟩

/-- Go: `func (tr *Tree) DeleteWhen(cell, cond)`, instrumented with the
trace of `cond` invocations.  Go passes `data = nil` to `nodeDelete`. -/
def Tree.DeleteWhen (cell : Nat) (cond : Option (Data → Bool)) (tr : Tree) :
    Tree × List Data :=
  match tr.root with
  | none => (tr, [])
  | some root =>
    let r := root.nodeDelete cell none (64 - numBits) cond
    (if r.2.1 then ⟨tr.count - 1, some r.1⟩ else ⟨tr.count, some r.1⟩, r.2.2)

/-! ## Scan -/

/-- Callback type of scan/range: Go `func(cell uint64, data interface{}) bool`. -/
abbrev Iter1 := Nat → Data → Bool

mutual

/-- Go: `func (n *node) scan(iter) bool`, instrumented: the result is the
trace of callback invocations plus the boolean the Go code returns, and is
`none` when the nil callback gets invoked (Go panics on a nil function
call). -/
def Node.scan (iter : Option Iter1) : Node → Option (List (Nat × Data) × Bool)
  | .mk false items _ _ => scanItems iter items
  | .mk true _ nds _ => scanNodes iter nds

/-- The leaf loop of Go `scan`. -/
def scanItems (iter : Option Iter1) :
    List Item → Option (List (Nat × Data) × Bool)
  | [] => some ([], true)
  | it :: rest =>
    match iter with
    | none => none  -- Go: calling a nil func value panics
    | some f =>
      if f it.cell it.data then
        (scanItems iter rest).map fun r => ((it.cell, it.data) :: r.1, r.2)
      else some ([(it.cell, it.data)], false)

/-- The child loop of Go `scan` (children with zero count are skipped). -/
def scanNodes (iter : Option Iter1) :
    List Node → Option (List (Nat × Data) × Bool)
  | [] => some ([], true)
  | c :: rest =>
    if 0 < c.count then
      match c.scan iter with
      | none => none
      | some (tr, false) => some (tr, false)
      | some (tr, true) => (scanNodes iter rest).map fun r => (tr ++ r.1, r.2)
    else scanNodes iter rest

end

/-- Go: `func (tr *Tree) Scan(iter)`, instrumented like `Node.scan`. -/
def Tree.Scan (iter : Option Iter1) (tr : Tree) :
    Option (List (Nat × Data) × Bool) :=
  match tr.root with
  | none => some ([], true)
  | some root => root.scan iter

/-! ## Range -/

mutual

/-- Go: `func (n *node) nodeRange(pivot, bits, hit, iter) (hitout, ok)`,
instrumented with the trace of calls; `none` models the nil-callback
panic.  Result: `(trace, hitout, ok)`. -/
def Node.nodeRange (pivot : Nat) (bits : Nat) (hit : Bool)
    (iter : Option Iter1) : Node → Option (List (Nat × Data) × Bool × Bool)
  | .mk false items _ _ => rangeItems pivot iter items
  | .mk true _ nds _ =>
    -- Go: `if hit { index = 0 } else { index = cellIndex(pivot, bits) }`:
    -- children before the start index are never examined
    rangeNodes pivot bits hit iter (if hit then 0 else cellIndex pivot bits) nds

/-- The leaf loop of Go `nodeRange` (items below the pivot are skipped
without invoking the callback). -/
def rangeItems (pivot : Nat) (iter : Option Iter1) :
    List Item → Option (List (Nat × Data) × Bool × Bool)
  | [] => some ([], true, true)
  | it :: rest =>
    if it.cell < pivot then rangeItems pivot iter rest
    else
      match iter with
      | none => none  -- Go: calling a nil func value panics
      | some f =>
        if f it.cell it.data then
          (rangeItems pivot iter rest).map
            fun r => ((it.cell, it.data) :: r.1, r.2)
        else some ([(it.cell, it.data)], false, false)

/-- The child loop of Go `nodeRange`; `skip` counts the children before
the loop's start index, which the Go `for` never touches. -/
def rangeNodes (pivot bits : Nat) (hit : Bool) (iter : Option Iter1) :
    Nat → List Node → Option (List (Nat × Data) × Bool × Bool)
  | _, [] => some ([], hit, true)
  | skip + 1, _c :: rest => rangeNodes pivot bits hit iter skip rest
  | 0, c :: rest =>
    if c.count == 0 then rangeNodes pivot bits true iter 0 rest
    else
      match c.nodeRange pivot (bits - numBits) hit iter with
      | none => none
      | some (tr, hit2, ok) =>
        if ok then
          (rangeNodes pivot bits hit2 iter 0 rest).map fun r => (tr ++ r.1, r.2)
        else some (tr, false, false)  -- Go: `return false, false`

end

/-- Go: `func (tr *Tree) Range(pivot, iter)`, instrumented; the result is
the invocation trace plus the `ok` flag. -/
def Tree.Range (pivot : Nat) (iter : Option Iter1) (tr : Tree) :
    Option (List (Nat × Data) × Bool) :=
  match tr.root with
  | none => some ([], true)
  | some root =>
    (root.nodeRange pivot (64 - numBits) false iter).map fun r => (r.1, r.2.2)

/-! ## RangeDelete -/

/-- Callback type of RangeDelete:
Go `func(cell, data) (shouldDelete, ok bool)`. -/
abbrev Iter2 := Nat → Data → Bool × Bool

/-- Two to the sixty-fourth, the modulus of Go `uint64` arithmetic. -/
def w64 : Nat := 2 ^ 64

/-- Go `nodeRangeDelete` line 452:
`cellStart := (base + uint64(index)) << bits` (uint64 arithmetic). -/
def cellStartCode (base index bits : Nat) : Nat :=
  ((base + index) <<< bits) % w64

/-- Go `nodeRangeDelete` line 453:
`cellEnd := ((base + uint64(index+1)) << bits) - 1` (uint64 arithmetic;
the `- 1` wraps when the shift is an exact multiple of `2^64`). -/
def cellEndCode (base index bits : Nat) : Nat :=
  (((base + (index + 1)) <<< bits) % w64 + (w64 - 1)) % w64

/-- Result of the leaf loop of `nodeRangeDelete`: the (same-length) items
array after the in-place moves, the number of deleted slots, the stop
flag, and the `iter` invocation trace. -/
structure RdLeafRes where
  arr : List Item
  deleted : Nat
  ok : Bool
  trace : List (Nat × Data)

/-- The leaf loop of Go `nodeRangeDelete` (lines 370-410), as the in-place
array machine the source is: `arr` is the current items array (its length
never changes inside the loop), `i` the loop index, `deleted` the count of
vacated slots, `ok` the stop flag, `trace` the `iter` invocations so far.
`iter = none` marks in-range items for deletion without invoking anything.
`fuel` only makes the recursion structural; the caller passes the array
length, which the loop (whose index grows every pass over an array of
constant length) can never exhaust. -/
def rdLeafLoop (start endc : Nat) (iter : Option Iter2) :
    Nat → List Item → Nat → Nat → Bool → List (Nat × Data) → RdLeafRes
  | 0, arr, _, deleted, ok, trace => ⟨arr, deleted, ok, trace⟩
  | fuel + 1, arr, i, deleted, ok, trace =>
    if h : i < arr.length then
      let it := arr.get ⟨i, h⟩
      if it.cell < start then
        rdLeafLoop start endc iter fuel arr (i + 1) deleted ok trace
      else
        -- shouldDelete / updated ok / updated trace for this item (374-393)
        let sot : Bool × Bool × List (Nat × Data) :=
          if ok then
            if endc < it.cell then (false, false, trace)  -- past the end
            else
              match iter with
              | none => (true, ok, trace)
              | some f =>
                let r := f it.cell it.data
                (r.1, r.2, trace ++ [(it.cell, it.data)])
          else (false, ok, trace)  -- a previous call requested a stop
        if sot.1 then
          -- should delete: increment the delete counter
          rdLeafLoop start endc iter fuel arr (i + 1) (deleted + 1) sot.2.1 sot.2.2
        else if 0 < deleted then
          -- keep: move the item into a vacated slot, nil the old payload
          -- (Go: `n.items[i-deleted] = n.items[i]; n.items[i].data = nil`)
          rdLeafLoop start endc iter fuel
            ((arr.set (i - deleted) it).set i ⟨it.cell, none⟩)
            (i + 1) deleted sot.2.1 sot.2.2
        else if sot.2.1 = false then
          -- stop requested and nothing deleted: break immediately
          ⟨arr, deleted, sot.2.1, sot.2.2⟩
        else rdLeafLoop start endc iter fuel arr (i + 1) deleted sot.2.1 sot.2.2
    else ⟨arr, deleted, ok, trace⟩

/-- The nil-iter fast path test of `nodeRangeDelete` (Go lines 362-368):
with no callback, a leaf whose first and last items both lie inside the
window is cleared wholesale. -/
def rdFast (start endc : Nat) (iter : Option Iter2)
    (items : List Item) : Bool :=
  match iter, items.head?, items.getLast? with
  | none, some fst, some lst =>
    decide (start ≤ fst.cell) && decide (lst.cell ≤ endc)
  | _, _, _ => false

/-- Result of `nodeRangeDelete` (Go `(hitout, deleted, ok)` plus the new
node value and the `iter` trace). -/
structure RdRes where
  node : Node
  hit : Bool
  deleted : Nat
  ok : Bool
  trace : List (Nat × Data)

/-- Intermediate result of the child loop of `nodeRangeDelete`. -/
structure RdChildrenRes where
  nodes : List Node
  hit : Bool
  deleted : Nat
  ok : Bool
  trace : List (Nat × Data)

mutual

/-- Go: `func (n *node) nodeRangeDelete(start, end, bits, base, hit, iter)
(hitout, deleted, ok)`, instrumented with the trace of `iter` calls.
The shrink/realloc of a leaf's backing array (lines 417-431) does not
change the item sequence and is not modelled.  As elsewhere, Go's unsigned
`bits - numBits` is Nat subtraction. -/
def Node.nodeRangeDelete (start endc bits base : Nat) (hit : Bool)
    (iter : Option Iter2) : Node → RdRes
  | .mk false items nds cnt =>
    -- leaf node; `ok = true` (line 360)
    let res : RdLeafRes :=
      if rdFast start endc iter items
      then ⟨items, items.length, true, []⟩  -- clear the entire leaf
      else rdLeafLoop start endc iter items.length items 0 0 true []
    -- lines 411-432: truncate by `deleted` (shrinking changes no contents),
    -- and the shared `n.count -= deleted` of lines 478-481
    if 0 < res.deleted then
      ⟨.mk false (res.arr.take (res.arr.length - res.deleted)) nds
          (cnt - (res.deleted : Int)),
        true, res.deleted, res.ok, res.trace⟩
    else ⟨.mk false res.arr nds cnt, true, res.deleted, res.ok, res.trace⟩
  | .mk true items nds cnt =>
    -- branch node; Go `index := 0` when hit else `cellIndex(start, bits)`,
    -- and children before that start index are never examined
    let r := rdChildren start endc bits base iter
      (if hit then 0 else cellIndex start bits) 0 hit 0 false [] nds
    -- lines 478-486: `n.count -= deleted`, compact at minItems
    if 0 < r.deleted then
      let n2 : Node := .mk true items r.nodes (cnt - (r.deleted : Int))
      if cnt - (r.deleted : Int) ≤ (minItems : Int) then
        ⟨n2.compactBranch, r.hit, r.deleted, r.ok, r.trace⟩
      else ⟨n2, r.hit, r.deleted, r.ok, r.trace⟩
    else ⟨.mk true items r.nodes cnt, r.hit, r.deleted, r.ok, r.trace⟩

/-- The child loop of Go `nodeRangeDelete` (lines 446-476).  `skip` counts
the children before the loop's start index (untouched by the Go `for`);
`index` is the absolute child index of the head of the list; `deleted`,
`ok` and `trace` are the running values of the named returns (`ok` starts
out `false`, Go's zero value — faithfully kept, including the consequence
that a child whose processing performs only whole-subtree drops reports
`ok = false`). -/
def rdChildren (start endc bits base : Nat) (iter : Option Iter2) :
    Nat → Nat → Bool → Nat → Bool → List (Nat × Data) →
    List Node → RdChildrenRes
  | _, _, hit, deleted, ok, trace, [] => ⟨[], hit, deleted, ok, trace⟩
  | skip + 1, index, hit, deleted, ok, trace, c :: rest =>
    let r := rdChildren start endc bits base iter skip (index + 1) hit
      deleted ok trace rest
    ⟨c :: r.nodes, r.hit, r.deleted, r.ok, r.trace⟩
  | 0, index, hit, deleted, ok, trace, c :: rest =>
    if c.count == 0 then
      let r := rdChildren start endc bits base iter 0 (index + 1) true
        deleted ok trace rest
      ⟨c :: r.nodes, r.hit, r.deleted, r.ok, r.trace⟩
    else if hit && iter.isNone
        && decide (start ≤ cellStartCode base index bits)
        && decide (cellEndCode base index bits ≤ endc) then
      -- drop the node altogether (lines 457-462); `count.toNat` models the
      -- Go `int` add of a (non-negative, by the count invariant) count
      let r := rdChildren start endc bits base iter 0 (index + 1) hit
        (deleted + c.count.toNat) ok trace rest
      ⟨zeroNode :: r.nodes, r.hit, r.deleted, r.ok, r.trace⟩
    else
      let q := c.nodeRangeDelete start endc (bits - numBits)
        (((base <<< numBits) + index) % w64) hit iter
      if q.ok then
        let r := rdChildren start endc bits base iter 0 (index + 1) q.hit
          (deleted + q.deleted) q.ok (trace ++ q.trace) rest
        ⟨q.node :: r.nodes, r.hit, r.deleted, r.ok, r.trace⟩
      else  -- `if !ok { break }`: the remaining children are untouched
        ⟨q.node :: rest, q.hit, deleted + q.deleted, q.ok, trace ++ q.trace⟩

end

/-- Go: `func (tr *Tree) RangeDelete(start, end, iter)`, instrumented with
the `iter` trace and the final `ok` flag. -/
def Tree.RangeDelete (start endc : Nat) (iter : Option Iter2) (tr : Tree) :
    Tree × List (Nat × Data) × Bool :=
  match tr.root with
  | none => (tr, [], true)
  | some root =>
    let r := root.nodeRangeDelete start endc (64 - numBits) 0 false iter
    (⟨tr.count - (r.deleted : Int), some r.node⟩, r.trace, r.ok)

/-! ## Well-formedness

`nodeWF n bits base` says that `n` is a plausible node sitting at shift
`bits` with accumulated prefix `base` (the root sits at `64 - numBits` and
`0`): cached counts are consistent, leaf runs are sorted and lie inside
their key block, and branches sit above max depth with exactly 128
children, each well-formed one level down.  Every tree reachable through
the public operations satisfies it (proved below). -/

/-- The run is non-decreasing by cell. -/
def cellsSorted : List Item → Bool
  | [] => true
  | [_] => true
  | a :: b :: rest => decide (a.cell ≤ b.cell) && cellsSorted (b :: rest)

/-- Every cell of the run lies in key block `base` at shift `bits`:
`cell >>> (bits + numBits) = base`.  (At the root this says `cell < 2^64`.) -/
def coveredBy (bits base : Nat) (items : List Item) : Bool :=
  items.all fun it => it.cell >>> (bits + numBits) == base

mutual

/-- Node well-formedness at a position (see the section header). -/
def nodeWF : Node → Nat → Nat → Bool
  | .mk false items _nds cnt, bits, base =>
    (cnt == (items.length : Int)) && cellsSorted items && coveredBy bits base items
  | .mk true _items nds cnt, bits, base =>
    decide (numBits ≤ bits) && (nds.length == numNodes)
      && (cnt == ((contentsL nds).length : Int))
      && childrenWF nds bits (base * numNodes)

/-- The children of a branch at shift `bits`; the child at offset `i` in
the list is well-formed at `bits - numBits` with prefix `b + i`. -/
def childrenWF : List Node → Nat → Nat → Bool
  | [], _, _ => true
  | c :: rest, bits, b =>
    nodeWF c (bits - numBits) b && childrenWF rest bits (b + 1)

end

/-- Tree-level well-formedness: the root (if present) is well-formed at the
root position, and the cached tree count agrees with the root count. -/
def treeWF : Tree → Bool
  | ⟨cnt, none⟩ => cnt == 0
  | ⟨cnt, some root⟩ => nodeWF root (64 - numBits) 0 && (cnt == root.count)

mutual

/-- Count consistency alone (claim C7): every node's cached `count` equals
the number of items stored beneath it. -/
def countOk : Node → Bool
  | .mk false items _ cnt => cnt == (items.length : Int)
  | .mk true _ nds cnt => (cnt == ((contentsL nds).length : Int)) && countOkL nds

/-- `countOk` for every node of a list of subtrees. -/
def countOkL : List Node → Bool
  | [] => true
  | c :: rest => countOk c && countOkL rest

end

/-- Count consistency at the tree level (claim C7): every node's count is
consistent and `Tree.count` equals the root count (0 when absent). -/
def treeCountOk : Tree → Bool
  | ⟨cnt, none⟩ => cnt == 0
  | ⟨cnt, some root⟩ => countOk root && (cnt == root.count)

/-! ## Specification-side models

The functions below are *not* translations of Go code; they restate, over
the flat list of stored items, what the claims say the operations do.  The
theorems connect the translated code to these models. -/

/-- Insertion at the upper bound: the new item goes after every item whose
cell is `≤ cell` (what a sorted insert at `findLeafItem`'s index does). -/
def upperInsert (items : List Item) (cell : Nat) (data : Data) : List Item :=
  items.takeWhile (fun it => decide (it.cell ≤ cell))
    ++ ⟨cell, data⟩ :: items.dropWhile (fun it => decide (it.cell ≤ cell))

/-- The `insert_or_replace` duplicate walk, over the reversed prefix of
items with cell `≤ cell`: examine items while their cell equals `cell`;
on the first `replace = true` answer, overwrite that item's payload.
Returns the rewritten (still reversed) prefix, or `none` if no
duplicate asked for replacement. -/
def walkModel (f : Data → Data × Bool) (cell : Nat) :
    List Item → Option (List Item)
  | [] => none
  | it :: rest =>
    if it.cell ≠ cell then none
    else
      let r := f it.data
      if r.2 then some (⟨cell, r.1⟩ :: rest)
      else (walkModel f cell rest).map (it :: ·)

/-- What `insert`/`insert_or_replace` does to the stored item sequence:
either some duplicate accepts replacement (payload overwritten in place,
nothing inserted) or the new item is placed at its upper bound.  Returns
the new sequence and the `inserted` flag. -/
def insModel (cell : Nat) (data : Data)
    (cond : Option (Data → Data × Bool)) (items : List Item) :
    List Item × Bool :=
  match cond with
  | none => (upperInsert items cell data, true)
  | some f =>
    let pre := items.takeWhile (fun it => decide (it.cell ≤ cell))
    let post := items.dropWhile (fun it => decide (it.cell ≤ cell))
    match walkModel f cell pre.reverse with
    | some pre2 => (pre2.reverse ++ post, false)
    | none => (upperInsert items cell data, true)

/-- The delete candidate walk, over the reversed prefix of items with cell
`≤ cell`: examine items while their cell equals `cell`; remove the first
one accepted by `p`.  Returns the walked prefix without that item (still
reversed), or `none` when nothing matched. -/
def delModel (p : Item → Bool) (cell : Nat) :
    List Item → Option (List Item)
  | [] => none
  | it :: rest =>
    if it.cell ≠ cell then none
    else if p it then some rest
    else (delModel p cell rest).map (it :: ·)

/-- The data values handed to `delete_when`'s predicate: each examined
item's payload, in examination (reverse sorted) order, up to and including
the first accepted one. -/
def delTraceModel (p : Item → Bool) (cell : Nat) : List Item → List Data
  | [] => []
  | it :: rest =>
    if it.cell ≠ cell then []
    else if p it then [it.data]
    else it.data :: delTraceModel p cell rest

/-- The deletion predicate of `nodeDelete`: payload equality when `cond`
is nil, the user predicate otherwise. -/
def delPred (data : Data) (cond : Option (Data → Bool)) : Item → Bool :=
  fun it =>
    match cond with
    | none => it.data == data
    | some f => f it.data

/-- What `delete`/`delete_when` does to the stored item sequence: remove
the first accepted candidate of the reversed `≤ cell` prefix, if any. -/
def deleteModel (data : Data) (cond : Option (Data → Bool)) (cell : Nat)
    (items : List Item) : List Item × Bool :=
  let pre := items.takeWhile (fun it => decide (it.cell ≤ cell))
  let post := items.dropWhile (fun it => decide (it.cell ≤ cell))
  match delModel (delPred data cond) cell pre.reverse with
  | some pre2 => (pre2.reverse ++ post, true)
  | none => (items, false)

/-- Run a scan/range callback over a list of (cell, data) pairs: the trace
of invocations (each visited pair, in order, up to and including the one
that answers `false`) together with the completion flag. -/
def runIter (f : Iter1) : List (Nat × Data) → List (Nat × Data) × Bool
  | [] => ([], true)
  | p :: rest =>
    if f p.1 p.2 then
      let r := runIter f rest
      (p :: r.1, r.2)
    else ([p], false)

/-- The pairs of an item list. -/
def pairsOf (items : List Item) : List (Nat × Data) :=
  items.map fun it => (it.cell, it.data)

/-- What `range_delete(start, end, some f)` does to the stored item
sequence, processed in ascending order.  State `ok`: once false, every
further item is kept and nothing further is invoked.  Returns
`(kept, deletedCount, ok, trace)`. -/
def rdModel (start endc : Nat) (f : Iter2) :
    List Item → Bool → List Item × Nat × Bool × List (Nat × Data)
  | [], ok => ([], 0, ok, [])
  | it :: rest, ok =>
    if it.cell < start then
      let r := rdModel start endc f rest ok
      (it :: r.1, r.2)
    else if ok then
      if endc < it.cell then
        let r := rdModel start endc f rest false
        (it :: r.1, r.2)
      else
        let q := f it.cell it.data
        let r := rdModel start endc f rest q.2
        if q.1 then (r.1, r.2.1 + 1, r.2.2.1, (it.cell, it.data) :: r.2.2.2)
        else (it :: r.1, r.2.1, r.2.2.1, (it.cell, it.data) :: r.2.2.2)
    else
      let r := rdModel start endc f rest false
      (it :: r.1, r.2)

/-- The items stored in a tree (empty when the root is absent). -/
def treeContents (tr : Tree) : List Item :=
  match tr.root with
  | none => []
  | some root => root.contents

/-! ## Operation sequences (for the count-consistency claim) -/

/-- A public mutating operation. -/
inductive Op : Type where
  | insert (cell : Nat) (data : Data)
  | insertOrReplace (cell : Nat) (data : Data)
      (cond : Option (Data → Data × Bool))
  | delete (cell : Nat) (data : Data)
  | deleteWhen (cell : Nat) (cond : Option (Data → Bool))
  | rangeDelete (start endc : Nat) (iter : Option Iter2)

/-- Apply one public operation. -/
def applyOp (tr : Tree) : Op → Tree
  | .insert c d => tr.Insert c d
  | .insertOrReplace c d f => tr.InsertOrReplace c d f
  | .delete c d => tr.Delete c d
  | .deleteWhen c f => (tr.DeleteWhen c f).1
  | .rangeDelete s e it => (tr.RangeDelete s e it).1

/-- Apply a sequence of public operations to the empty tree. -/
def applyOps (ops : List Op) : Tree :=
  ops.foldl applyOp emptyTree

/-- An operation is valid when the cells it stores fit in a `uint64`
(automatic in Go from the argument type). -/
def opValid : Op → Bool
  | .insert c _ => decide (c < w64)
  | .insertOrReplace c _ _ => decide (c < w64)
  | .delete c _ => decide (c < w64)
  | .deleteWhen c _ => decide (c < w64)
  | .rangeDelete _ _ _ => true

/-! ## The failing input for the range-delete drop-bounds bug

`bugTree` below is precisely the tree produced by
`(List.range 257).map (fun j => 2^57 + (j / 3) * 2^50 + (j % 3) + 1)`
inserted in order into an empty tree (the 257th insert splits the root
leaf, and all 257 cells share the top 7 bits, so the new root's child 1
immediately splits again into the depth-2 branch below; the resulting
value was checked against the fold of `Tree.Insert` by evaluation).  It is
written as a literal so that the kernel can evaluate `RangeDelete` on it
cheaply. -/

/-- Leaf number `q` of the failing tree: cells `2^57 + q*2^50 + r`. -/
def bugLeaf (q : Nat) (rs : List Nat) : Node :=
  let its : List Item := rs.map fun r => ⟨2 ^ 57 + q * 2 ^ 50 + r, none⟩
  .mk false its [] (its.length : Int)

/-- Child 1 of the failing tree's root: a branch at shift 50 holding all
257 items in its first 86 children. -/
def bugChild1 : Node :=
  .mk true []
    (((List.range 85).map fun q => bugLeaf q [1, 2, 3])
      ++ bugLeaf 85 [1, 2] :: List.replicate 42 zeroNode) 257

/-- The failing tree's root: a branch at shift 57 whose child 1 holds
everything. -/
def bugRoot : Node :=
  .mk true [] (zeroNode :: bugChild1 :: List.replicate 126 zeroNode) 257

/-- The failing input: see the section comment. -/
def bugTree : Tree := ⟨257, some bugRoot⟩

/-- What `range(pivot, f)` does: the callback runner over the stored
items at or above the pivot. -/
def rangeModel (pivot : Nat) (f : Iter1) (l : List Item) :
    List (Nat × Data) × Bool :=
  runIter f (pairsOf (l.filter (fun it => decide (pivot ≤ it.cell))))

/-- The full invocation trace of `delete`/`delete_when` over a stored
run: nothing for a nil `cond`, otherwise the candidate walk over the
reversed `≤ cell` prefix. -/
def delTraceOf (data : Data) (cond : Option (Data → Bool)) (cell : Nat)
    (items : List Item) : List Data :=
  match cond with
  | none => []
  | some _ =>
    delTraceModel (delPred data cond) cell
      ((items.takeWhile (fun it => decide (it.cell ≤ cell))).reverse)

/-- The per-item decision of the `nodeRangeDelete` leaf loop (Go lines
370-410), as a sequential model over the item run with the running `ok`
flag: items below `start` are kept; past `end` the run stops (keeping
the item); otherwise a nil `iter` deletes unconditionally while a live
one is asked, its `shouldDelete` honoured even on the stopping call.
Returns `(kept, deletedCount, ok, trace)`. -/
def rdGen (start endc : Nat) (iter : Option Iter2) :
    List Item → Bool → List Item × Nat × Bool × List (Nat × Data)
  | [], ok => ([], 0, ok, [])
  | it :: rest, ok =>
    if it.cell < start then
      let r := rdGen start endc iter rest ok
      (it :: r.1, r.2)
    else if ok then
      if endc < it.cell then
        let r := rdGen start endc iter rest false
        (it :: r.1, r.2)
      else
        match iter with
        | none =>
          let r := rdGen start endc iter rest ok
          (r.1, r.2.1 + 1, r.2.2.1, r.2.2.2)
        | some f =>
          let q := f it.cell it.data
          let r := rdGen start endc iter rest q.2
          if q.1 then
            (r.1, r.2.1 + 1, r.2.2.1, (it.cell, it.data) :: r.2.2.2)
          else
            (it :: r.1, r.2.1, r.2.2.1, (it.cell, it.data) :: r.2.2.2)
    else
      let r := rdGen start endc iter rest false
      (it :: r.1, r.2)

/-! # Theorems -/

/-! ## A mutual induction principle for the nested `Node` type -/

/-- Sizes are positive. -/
theorem sizeOf_node_pos (n : Node) : 0 < sizeOf n := by
  cases n; simp only [Node.mk.sizeOf_spec]; omega

/-- Mutual structural induction for `Node` and `List Node`. -/
theorem node_mutual_ind (P : Node → Prop) (Q : List Node → Prop)
    (hmk : ∀ b its nds cnt, Q nds → P (.mk b its nds cnt))
    (hnil : Q [])
    (hcons : ∀ c rest, P c → Q rest → Q (c :: rest)) :
    (∀ n, P n) ∧ (∀ l, Q l) := by
  have key : ∀ k, (∀ n : Node, sizeOf n ≤ k → P n) ∧
      (∀ l : List Node, sizeOf l ≤ k → Q l) := by
    intro k
    induction k with
    | zero =>
      constructor
      · intro n hn; exact absurd hn (by have := sizeOf_node_pos n; omega)
      · intro l hl
        cases l with
        | nil => exact hnil
        | cons c rest =>
          exfalso; have := sizeOf_node_pos c
          simp only [List.cons.sizeOf_spec] at hl; omega
    | succ k ih =>
      constructor
      · intro n hn
        cases n with
        | mk b its nds cnt =>
          refine hmk b its nds cnt (ih.2 nds ?_)
          simp only [Node.mk.sizeOf_spec] at hn
          have : 0 < sizeOf b := by cases b <;> simp
          omega
      · intro l hl
        cases l with
        | nil => exact hnil
        | cons c rest =>
          simp only [List.cons.sizeOf_spec] at hl
          exact hcons c rest (ih.1 c (by omega)) (ih.2 rest (by omega))
  exact ⟨fun n => (key (sizeOf n)).1 n (Nat.le_refl _),
    fun l => (key (sizeOf l)).2 l (Nat.le_refl _)⟩

/-! ## Sortedness and coverage as propositions -/

/-- `cellsSorted` is pairwise `≤` on cells. -/
theorem cellsSorted_iff (l : List Item) :
    cellsSorted l = true ↔ l.Pairwise (fun a b => a.cell ≤ b.cell) := by
  induction l with
  | nil => simp [cellsSorted]
  | cons a t ih =>
    cases t with
    | nil => simp [cellsSorted]
    | cons b t2 =>
      simp only [cellsSorted, Bool.and_eq_true, decide_eq_true_eq, ih,
        List.pairwise_cons]
      constructor
      · rintro ⟨hab, hb, hp⟩
        refine ⟨?_, hb, hp⟩
        intro x hx
        rcases List.mem_cons.1 hx with rfl | hx
        · exact hab
        · exact le_trans hab (hb x hx)
      · rintro ⟨ha, hb, hp⟩
        exact ⟨ha b (List.mem_cons_self b t2), hb, hp⟩

/-- `coveredBy` as a proposition. -/
theorem coveredBy_iff (bits base : Nat) (l : List Item) :
    coveredBy bits base l = true ↔
      ∀ it ∈ l, it.cell >>> (bits + numBits) = base := by
  simp [coveredBy, List.all_eq_true]

/-! ## Arithmetic of shifts and child indices -/

/-- Division characterized by bounds. -/
theorem div_eq_iff_bounds {a b c : Nat} (hb : 0 < b) :
    a / b = c ↔ c * b ≤ a ∧ a < (c + 1) * b := by
  constructor
  · rintro rfl
    refine ⟨Nat.div_mul_le_self a b, ?_⟩
    have h1 := Nat.div_add_mod a b
    have h2 := Nat.mod_lt a hb
    calc a < b * (a / b) + b := by omega
      _ = (a / b + 1) * b := by ring
  · rintro ⟨h1, h2⟩
    exact Nat.div_eq_of_lt_le h1 h2

/-- A cell lies in block `v` at shift `s` iff it lies in the interval
`[v * 2^s, (v+1) * 2^s)`. -/
theorem shiftRight_eq_iff (c s v : Nat) :
    c >>> s = v ↔ v * 2 ^ s ≤ c ∧ c < (v + 1) * 2 ^ s := by
  rw [Nat.shiftRight_eq_div_pow]
  exact div_eq_iff_bounds (Nat.pos_pow_of_pos s (by omega))

/-- Decompose one radix step: if a cell lies in block `base` at shift
`bits + 7`, its block at shift `bits` is `base * 128 + cellIndex`. -/
theorem shiftRight_decompose (c bits base : Nat)
    (h : c >>> (bits + numBits) = base) :
    c >>> bits = base * numNodes + cellIndex c bits := by
  rw [Nat.shiftRight_add, Nat.shiftRight_eq_div_pow] at h
  simp only [cellIndex, numNodes, numBits] at h ⊢
  norm_num at h
  omega

/-- The reverse: a block value at shift `bits` determines the block above
and the child index. -/
theorem shiftRight_compose (c bits base i : Nat) (hi : i < numNodes)
    (h : c >>> bits = base * numNodes + i) :
    c >>> (bits + numBits) = base ∧ cellIndex c bits = i := by
  rw [Nat.shiftRight_add, Nat.shiftRight_eq_div_pow]
  simp only [cellIndex, numNodes, numBits] at h hi ⊢
  norm_num
  omega

/-- Cells in a lower block are smaller than cells in a higher block. -/
theorem block_lt_of_lt {s v1 v2 c1 c2 : Nat} (hv : v1 < v2)
    (h1 : c1 >>> s = v1) (h2 : c2 >>> s = v2) : c1 < c2 := by
  have b1 := (shiftRight_eq_iff c1 s v1).1 h1
  have b2 := (shiftRight_eq_iff c2 s v2).1 h2
  have : (v1 + 1) * 2 ^ s ≤ v2 * 2 ^ s := Nat.mul_le_mul_right _ (by omega)
  omega

/-! ## The binary search -/

/-- The `findLoop` invariant: with fuel at least `j - i`, on a sorted run
with everything below `i` at most `cell` and everything at or above `j`
greater than `cell`, the loop returns the exact upper bound of `cell`. -/
theorem findLoop_spec (items : List Item) (cell : Nat)
    (hs : items.Pairwise (fun a b => a.cell ≤ b.cell)) :
    ∀ fuel i j, j - i ≤ fuel → i ≤ j → j ≤ items.length →
    (∀ k (hk : k < items.length), k < i → (items.get ⟨k, hk⟩).cell ≤ cell) →
    (∀ k (hk : k < items.length), j ≤ k → cell < (items.get ⟨k, hk⟩).cell) →
    (∀ k (hk : k < items.length),
      (k < findLoop items cell fuel i j → (items.get ⟨k, hk⟩).cell ≤ cell) ∧
      (findLoop items cell fuel i j ≤ k → cell < (items.get ⟨k, hk⟩).cell))
      ∧ findLoop items cell fuel i j ≤ items.length := by
  have hpair := List.pairwise_iff_get.1 hs
  intro fuel
  induction fuel with
  | zero =>
    intro i j hf hij hj hlo hhi
    have : i = j := by omega
    subst this
    simp only [findLoop]
    exact ⟨fun k hk => ⟨hlo k hk, hhi k hk⟩, by omega⟩
  | succ fuel ih =>
    intro i j hf hij hj hlo hhi
    simp only [findLoop]
    by_cases hij2 : i < j
    · simp only [if_pos hij2]
      have hm : i + (j - i) / 2 < items.length := by omega
      have hgetD : (items.getD (i + (j - i) / 2) default)
          = items.get ⟨i + (j - i) / 2, hm⟩ := by
        rw [List.getD_eq_getElem?_getD, List.getElem?_eq_getElem hm]
        rfl
      rw [hgetD]
      by_cases hcmp : (items.get ⟨i + (j - i) / 2, hm⟩).cell ≤ cell
      · simp only [if_pos hcmp]
        refine ih (i + (j - i) / 2 + 1) j (by omega) (by omega) hj ?_ hhi
        intro k hk hklt
        have hkm : k ≤ i + (j - i) / 2 := by omega
        rcases Nat.eq_or_lt_of_le hkm with heq | hlt
        · subst heq; exact hcmp
        · exact le_trans (hpair ⟨k, hk⟩ ⟨_, hm⟩ hlt) hcmp
      · simp only [if_neg hcmp]
        refine ih i (i + (j - i) / 2) (by omega) (by omega) (by omega) hlo ?_
        intro k hk hkge
        rcases Nat.eq_or_lt_of_le hkge with heq | hlt
        · subst heq
          exact Nat.lt_of_not_le hcmp
        · exact lt_of_lt_of_le (Nat.lt_of_not_le hcmp)
            (hpair ⟨_, hm⟩ ⟨k, hk⟩ hlt)
    · simp only [if_neg hij2]
      have : i = j := by omega
      subst this
      exact ⟨fun k hk => ⟨hlo k hk, hhi k hk⟩, by omega⟩

set_option maxRecDepth 40000 in
/-- C1: evidence of a bug in the code.  `bugTree` is well-formed (it is
exactly the tree built by inserting 257 cells through the public API, see
its definition) and every one of its 257 cells lies strictly above
`2^57`; yet `RangeDelete(0, 2^57, nil)`, whose window contains none of
the stored cells, empties the entire tree instead of removing nothing.
The whole-subtree drop test of `nodeRangeDelete` computes a child's span
as `(base + index) << bits`, but the cells actually stored under that
child satisfy `cell >> bits = base * 128 + index`, so for `base ≥ 1` the
test can cover (and here drops) subtrees whose cells are outside
`[start, end]`. -/
theorem c1_rangeDelete_drop_outside_window :
    treeWF bugTree = true ∧
    bugTree.count = 257 ∧
    bugRoot.contents.all (fun it => decide (2 ^ 57 < it.cell)) = true ∧
    (bugTree.RangeDelete 0 (2 ^ 57) none).1.count = 0 ∧
    ((bugTree.RangeDelete 0 (2 ^ 57) none).1.root.getD zeroNode).contents
      = [] := by
  refine ⟨by decide, by decide, by decide, by decide, by decide⟩

set_option maxRecDepth 40000 in
/-- C4: evidence of a bug in the code.  In a well-formed tree,
`range_delete` reaches `bugRoot`'s child 1 (a branch at shift 50) with
accumulated prefix `base = (0 << numBits) | 1 = 1`, and that branch's
child 0 stores cells (for example `2^57 + 1`) that lie strictly *above*
the interval `[(base + 0) << 50, (base + 0 + 1) << 50 - 1]` the drop
test uses there — the claimed containment fails.  Indeed the whole
interval sits inside `[0, 2^57]`, so `RangeDelete(0, 2^57, nil)` drops
that child even though none of its cells lie in the window (see the C1
theorem). -/
theorem c4_drop_interval_not_covering :
    treeWF bugTree = true ∧
    ((0 <<< numBits) + 1) % w64 = 1 ∧
    (bugRoot.nodes.getD 1 zeroNode).branch = true ∧
    ((bugRoot.nodes.getD 1 zeroNode).nodes.getD 0 zeroNode).contents ≠ [] ∧
    ((bugRoot.nodes.getD 1 zeroNode).nodes.getD 0 zeroNode).contents.all
      (fun it => decide (cellEndCode 1 0 50 < it.cell)) = true ∧
    cellStartCode 1 0 50 = 2 ^ 50 ∧
    cellEndCode 1 0 50 = 2 ^ 51 - 1 := by
  refine ⟨by decide, by decide, by decide, by decide, by decide, by decide,
    by decide⟩

/-- C2, counterexample: with a singleton well-formed tree and an iterator
answering `(shouldDelete = true, ok = false)` at its first invocation
(`k = 1`), the k-th item *is* deleted (count drops to 0 and the tree is
emptied), contrary to the claim that the k-th item is not deleted: the
code honours `shouldDelete` even when the same invocation returns
`ok = false`. -/
theorem c2_kth_item_deleted_on_stop :
    treeWF (emptyTree.Insert 5 none) = true ∧
    ((emptyTree.Insert 5 none).RangeDelete 0 10
        (some fun _ _ => (true, false))).2.1 = [(5, none)] ∧
    ((emptyTree.Insert 5 none).RangeDelete 0 10
        (some fun _ _ => (true, false))).1.count = 0 ∧
    (((emptyTree.Insert 5 none).RangeDelete 0 10
        (some fun _ _ => (true, false))).1.root.getD zeroNode).contents
      = [] := by
  refine ⟨by decide, by decide, by decide, by decide⟩

/-- C3, counterexample: on a (well-formed) non-empty tree, `Scan` with a
nil callback invokes the nil function — a Go runtime panic, modelled by
the `none` result — instead of being a no-op, and so does `Range` with a
pivot at or below a stored cell. -/
theorem c3_nil_callback_panics_on_nonempty :
    treeWF (emptyTree.Insert 5 none) = true ∧
    (emptyTree.Insert 5 none).Scan none = none ∧
    (emptyTree.Insert 5 none).Range 0 none = none := by
  refine ⟨by decide, by decide, by decide⟩

/-- C10: `DeleteWhen(cell, nil)` passes `data = nil` and `cond = nil` to
`nodeDelete`, exactly as `Delete(cell, nil)` does, so the two are the
same tree transformation — in particular `DeleteWhen(cell, nil)` is not a
no-op: on a tree holding an item `(5, nil)` it removes it,
decrementing the count. -/
theorem c10_deleteWhen_nil_eq_delete_nil :
    (∀ (tr : Tree) (cell : Nat),
      (tr.DeleteWhen cell none).1 = tr.Delete cell none) ∧
    ((emptyTree.Insert 5 none).DeleteWhen 5 none).1.count = 0 ∧
    (((emptyTree.Insert 5 none).DeleteWhen 5 none).1.root.getD
        zeroNode).contents = [] := by
  refine ⟨?_, by decide, by decide⟩
  intro tr cell
  cases htr : tr.root with
  | none => simp [Tree.DeleteWhen, Tree.Delete, htr]
  | some root => simp [Tree.DeleteWhen, Tree.Delete, htr]


/-- A positional characterization pins down the `takeWhile` length. -/
theorem takeWhile_length_eq (p : Item → Bool) :
    ∀ (l : List Item) (r : Nat), r ≤ l.length →
    (∀ k (hk : k < l.length), k < r → p (l.get ⟨k, hk⟩) = true) →
    (∀ k (hk : k < l.length), r ≤ k → p (l.get ⟨k, hk⟩) = false) →
    (l.takeWhile p).length = r := by
  intro l
  induction l with
  | nil => intro r hr _ _; simp at hr ⊢; omega
  | cons a t ih =>
    intro r hr h1 h2
    cases r with
    | zero =>
      have := h2 0 (by simp) (by omega)
      simp only [List.get] at this
      simp [List.takeWhile_cons, this]
    | succ r =>
      have ha := h1 0 (by simp) (by omega)
      simp only [List.get] at ha
      have ihr := ih r (by simp at hr; omega)
        (fun k hk hkr => h1 (k + 1) (by simp; omega) (by omega))
        (fun k hk hkr => h2 (k + 1) (by simp; omega) (by omega))
      simp [List.takeWhile_cons, ha, ihr]

/-- On a sorted leaf, `findLeafItem` returns the length of the `≤ cell`
prefix of the run. -/
theorem findLeafItem_eq (items : List Item) (cell : Nat)
    (nds : List Node) (cnt : Int)
    (hs : cellsSorted items = true) :
    Node.findLeafItem (.mk false items nds cnt) cell
      = (items.takeWhile (fun it => decide (it.cell ≤ cell))).length := by
  have hp := (cellsSorted_iff items).1 hs
  have hspec := findLoop_spec items cell hp items.length 0 items.length
    (by omega) (by omega) (by omega)
    (fun k hk h => absurd h (by omega))
    (fun k hk h => absurd hk (by omega))
  have := takeWhile_length_eq (fun it => decide (it.cell ≤ cell)) items
    (findLoop items cell items.length 0 items.length) hspec.2
    (fun k hk hkr => by simpa using (hspec.1 k hk).1 hkr)
    (fun k hk hkr => by simpa using Nat.not_le.2 ((hspec.1 k hk).2 hkr))
  simp only [Node.findLeafItem, Node.items]
  omega

/-- In a sorted run, everything past the `≤ cell` prefix is above
`cell`. -/
theorem dropWhile_gt (cell : Nat) :
    ∀ (l : List Item), l.Pairwise (fun a b => a.cell ≤ b.cell) →
    ∀ x ∈ l.dropWhile (fun it => decide (it.cell ≤ cell)), cell < x.cell := by
  intro l
  induction l with
  | nil => intro _ x hx; simp at hx
  | cons a t ih =>
    intro hs x hx
    rcases List.pairwise_cons.1 hs with ⟨ha, ht⟩
    by_cases hac : a.cell ≤ cell
    · rw [List.dropWhile_cons_of_pos (by simpa using hac)] at hx
      exact ih ht x hx
    · rw [List.dropWhile_cons_of_neg (by simpa using hac)] at hx
      rcases List.mem_cons.1 hx with rfl | hx
      · omega
      · exact lt_of_lt_of_le (by omega) (ha x hx)

/-- Everything in the `≤ cell` prefix is at most `cell`. -/
theorem takeWhile_le (cell : Nat) (l : List Item) :
    ∀ x ∈ l.takeWhile (fun it => decide (it.cell ≤ cell)), x.cell ≤ cell := by
  intro x hx
  simpa using List.mem_takeWhile_imp hx

/-! ## The backward duplicate walks and their models -/

/-- Surgery at the right end: overwriting the last element. -/
theorem set_at_end (l1 : List Item) (a x : Item) :
    (l1 ++ [a]).set l1.length x = l1 ++ [x] := by
  rw [List.set_append_right _ _ (Nat.le_refl _)]
  simp

/-- Surgery at the right end: erasing the last element. -/
theorem eraseIdx_at_end (l1 : List Item) (a : Item) :
    (l1 ++ [a]).eraseIdx l1.length = l1 := by
  rw [List.eraseIdx_append_of_length_le (Nat.le_refl _)]
  simp

/-- Fetching just past a left part. -/
theorem get?_at_end (l1 l2 : List Item) (x : Item) :
    (l1 ++ x :: l2).get? l1.length = some x := by
  rw [List.get?_eq_getElem?, List.getElem?_append_right (Nat.le_refl _)]
  simp

/-- `condWalk` from the end of `l1` agrees with `walkModel` on the
reversed `l1` (any continuation `l2` is ignored): same failure, and on
success the returned position/payload rewrite `l1` exactly as the model
rewrites its reversal; the returned position is inside `l1`. -/
theorem condWalk_model (f : Data → Data × Bool) (cell : Nat)
    (l1 : List Item) : ∀ l2 : List Item,
    walkModel f cell l1.reverse
      = (condWalk f (l1 ++ l2) cell l1.length).map
          (fun r => (l1.set r.1 ⟨cell, r.2⟩).reverse) ∧
    (∀ r ∈ condWalk f (l1 ++ l2) cell l1.length, r.1 < l1.length) := by
  induction l1 using List.reverseRecOn with
  | nil => intro l2; simp [walkModel, condWalk]
  | append_singleton l1 a ih =>
    intro l2
    have hlen : (l1 ++ [a]).length = l1.length + 1 := by simp
    have hrev : (l1 ++ [a]).reverse = a :: l1.reverse := by simp
    rw [hlen, hrev]
    simp only [condWalk, List.append_assoc, List.singleton_append,
      get?_at_end l1 l2 a]
    by_cases hc : a.cell = cell
    · simp only [walkModel, hc, ne_eq, not_true_eq_false, if_false,
        ite_false]
      by_cases hrep : (f a.data).2
      · simp only [hrep, if_true]
        constructor
        · rw [Option.map_some', set_at_end]
          simp
        · intro r hr
          simp only [Option.mem_def, Option.some_inj] at hr
          subst hr
          omega
      · simp only [hrep, Bool.false_eq_true, if_false, ite_false]
        rcases ih (a :: l2) with ⟨h1, h2⟩
        constructor
        · rw [h1, Option.map_map]
          rcases hcw : condWalk f (l1 ++ a :: l2) cell l1.length
            with _ | ⟨k, nd⟩
          · simp
          · have hk : k < l1.length := h2 (k, nd) (by simp [hcw])
            simp only [Option.map_some', Function.comp]
            rw [List.set_append_left _ _ hk]
            simp
        · intro r hr
          have := h2 r hr
          omega
    · simp only [walkModel, hc, ne_eq, not_false_eq_true, if_true, ite_true]
      simp [hc]
  
/-- `delWalk` from the end of `l1` agrees with `delModel`/`delTraceModel`
on the reversed `l1` (any continuation `l2` is ignored): same failure; on
success the returned position erases from `l1` exactly what the model
erases from its reversal; the `cond` trace matches the model trace; the
returned position is inside `l1`. -/
theorem delWalk_model (cell : Nat) (data : Data)
    (cond : Option (Data → Bool)) (l1 : List Item) : ∀ l2 : List Item,
    delModel (delPred data cond) cell l1.reverse
      = (delWalk cell data cond (l1 ++ l2) l1.length).1.map
          (fun k => (l1.eraseIdx k).reverse) ∧
    ((delWalk cell data cond (l1 ++ l2) l1.length).2
      = match cond with
        | none => []
        | some _ => delTraceModel (delPred data cond) cell l1.reverse) ∧
    (∀ k ∈ (delWalk cell data cond (l1 ++ l2) l1.length).1,
      k < l1.length) := by
  induction l1 using List.reverseRecOn with
  | nil =>
    intro l2
    cases cond <;> simp [delModel, delWalk, delTraceModel]
  | append_singleton l1 a ih =>
    intro l2
    have hlen : (l1 ++ [a]).length = l1.length + 1 := by simp
    have hrev : (l1 ++ [a]).reverse = a :: l1.reverse := by simp
    rw [hlen, hrev]
    simp only [delWalk, List.append_assoc, List.singleton_append,
      get?_at_end l1 l2 a]
    by_cases hc : a.cell = cell
    · simp only [delModel, delTraceModel, hc, ne_eq, not_true_eq_false,
        if_false, ite_false]
      rcases ih (a :: l2) with ⟨h1, h2, h3⟩
      cases cond with
      | none =>
        by_cases hd : a.data == data
        · simp only [delPred, hd, if_true]
          refine ⟨?_, by trivial, ?_⟩
          · rw [Option.map_some', eraseIdx_at_end]
          · intro k hk
            simp only [Option.mem_def, Option.some_inj] at hk
            omega
        · simp only [delPred, hd, Bool.false_eq_true, if_false, ite_false]
          refine ⟨?_, ?_, ?_⟩
          · rw [h1, Option.map_map]
            rcases hcw : (delWalk cell data none (l1 ++ a :: l2)
                l1.length).1 with _ | k
            · simp
            · have hk : k < l1.length := h3 k (by simp [hcw])
              simp only [Option.map_some', Function.comp]
              rw [List.eraseIdx_append_of_lt_length hk]
              simp
          · exact h2
          · intro k hk
            have := h3 k hk
            omega
      | some f =>
        by_cases hf : f a.data
        · simp only [delPred, hf, if_true]
          refine ⟨?_, by trivial, ?_⟩
          · rw [Option.map_some', eraseIdx_at_end]
          · intro k hk
            simp only [Option.mem_def, Option.some_inj] at hk
            omega
        · simp only [delPred, hf, Bool.false_eq_true, if_false, ite_false]
          refine ⟨?_, ?_, ?_⟩
          · rw [h1, Option.map_map]
            rcases hcw : (delWalk cell data (some f) (l1 ++ a :: l2)
                l1.length).1 with _ | k
            · simp
            · have hk : k < l1.length := h3 k (by simp [hcw])
              simp only [Option.map_some', Function.comp]
              rw [List.eraseIdx_append_of_lt_length hk]
              simp
          · simp only [h2]
          · intro k hk
            have := h3 k hk
            omega
    · simp only [delModel, delTraceModel, hc, ne_eq, not_false_eq_true,
        if_true, ite_true]
      cases cond <;> simp [hc]

/-! ## Structure of contents and children -/

/-- Contents distribute over child-list concatenation. -/
theorem contentsL_append : ∀ l1 l2 : List Node,
    contentsL (l1 ++ l2) = contentsL l1 ++ contentsL l2 := by
  intro l1 l2
  induction l1 with
  | nil => simp [contentsL]
  | cons c rest ih => simp [contentsL, ih]

/-- Fresh children store nothing. -/
theorem contentsL_replicate_zero (k : Nat) :
    contentsL (List.replicate k zeroNode) = [] := by
  induction k with
  | zero => simp [contentsL]
  | succ k ih =>
    rw [List.replicate_succ]
    show Node.contents zeroNode ++ contentsL (List.replicate k zeroNode) = []
    rw [ih]
    rfl

/-- `childrenWF` positionally. -/
theorem childrenWF_iff (bits : Nat) : ∀ (l : List Node) (b : Nat),
    childrenWF l bits b = true ↔
    ∀ k (hk : k < l.length),
      nodeWF (l.get ⟨k, hk⟩) (bits - numBits) (b + k) = true := by
  intro l
  induction l with
  | nil => intro b; simp [childrenWF]
  | cons c rest ih =>
    intro b
    simp only [childrenWF, Bool.and_eq_true, ih (b + 1)]
    constructor
    · rintro ⟨hc, hrest⟩ k hk
      cases k with
      | zero => simpa using hc
      | succ k =>
        have := hrest k (by simpa using Nat.lt_of_succ_lt_succ hk)
        simpa [Nat.add_assoc, Nat.add_comm 1 k] using this
    · intro h
      refine ⟨by simpa using h 0 (by simp), fun k hk => ?_⟩
      have := h (k + 1) (by simpa using Nat.succ_lt_succ hk)
      simpa [Nat.add_assoc, Nat.add_comm 1 k] using this

/-- All-fresh children are well-formed anywhere. -/
theorem childrenWF_replicate (bits : Nat) : ∀ (k : Nat) (b : Nat),
    childrenWF (List.replicate k zeroNode) bits b = true := by
  intro k
  induction k with
  | zero => intro b; simp [childrenWF]
  | succ k ih =>
    intro b
    simp only [List.replicate_succ, childrenWF, Bool.and_eq_true]
    exact ⟨by simp [zeroNode, nodeWF, cellsSorted, coveredBy], ih (b + 1)⟩

/-- Splitting a child list at a valid index. -/
theorem list_decompose_at {α : Type} (l : List α) (k : Nat)
    (hk : k < l.length) :
    l = l.take k ++ l.get ⟨k, hk⟩ :: l.drop (k + 1) := by
  conv_lhs => rw [← List.take_append_drop k l]
  congr 1
  rw [List.get_eq_getElem]
  exact List.drop_eq_getElem_cons hk

/-- Setting a child at a valid index, as surgery. -/
theorem list_set_decompose {α : Type} (l : List α) (k : Nat) (c : α)
    (hk : k < l.length) :
    l.set k c = l.take k ++ c :: l.drop (k + 1) := by
  rw [List.set_eq_take_append_cons_drop, if_pos hk]

/-- Well-formed nodes have sorted contents inside their key block, and a
consistent count; well-formed child lists additionally bound the block of
every stored cell. -/
theorem wf_contents_and_count :
    (∀ n : Node, ∀ bits base, nodeWF n bits base = true →
      cellsSorted n.contents = true ∧
      (∀ it ∈ n.contents, it.cell >>> (bits + numBits) = base) ∧
      n.count = (n.contents.length : Int)) ∧
    (∀ l : List Node, ∀ bits b, numBits ≤ bits →
      childrenWF l bits b = true →
      cellsSorted (contentsL l) = true ∧
      (∀ it ∈ contentsL l,
        b ≤ it.cell >>> bits ∧ it.cell >>> bits < b + l.length)) := by
  apply node_mutual_ind
  · intro b its nds cnt hQ bits base hwf
    cases b with
    | false =>
      simp only [nodeWF, Bool.and_eq_true, beq_iff_eq] at hwf
      obtain ⟨⟨hcnt, hsorted⟩, hcov⟩ := hwf
      refine ⟨hsorted, ?_, by simpa [Node.contents, Node.count] using hcnt⟩
      intro it hit
      have := (coveredBy_iff bits base its).1 (by
        simpa [coveredBy] using hcov) it hit
      exact this
    | true =>
      simp only [nodeWF, Bool.and_eq_true, beq_iff_eq,
        decide_eq_true_eq] at hwf
      rcases hwf with ⟨⟨⟨hbits, hlen⟩, hcnt⟩, hcwf⟩
      rcases hQ bits (base * numNodes) hbits hcwf with ⟨hsorted, hbounds⟩
      refine ⟨hsorted, ?_, by simpa [Node.contents, Node.count] using hcnt⟩
      intro it hit
      rcases hbounds it hit with ⟨hlo, hhi⟩
      rw [hlen] at hhi
      have : it.cell >>> bits = base * numNodes
          + (it.cell >>> bits - base * numNodes) := by omega
      exact (shiftRight_compose it.cell bits base _ (by omega) this).1
  · intro bits b _ _
    refine ⟨by simp [contentsL, cellsSorted], ?_⟩
    intro it hit
    simp [contentsL] at hit
  · intro c rest Pc Qrest bits b hbits hcwf
    simp only [childrenWF, Bool.and_eq_true] at hcwf
    rcases hcwf with ⟨hc, hrest⟩
    rcases Pc (bits - numBits) b hc with ⟨hsc, hcov, _⟩
    rcases Qrest bits (b + 1) hbits hrest with ⟨hsr, hbr⟩
    have hbl : bits - numBits + numBits = bits := by omega
    have hcov2 : ∀ it ∈ c.contents, it.cell >>> bits = b := by
      intro it hit
      have := hcov it hit
      rwa [hbl] at this
    have hL : contentsL (c :: rest) = c.contents ++ contentsL rest := rfl
    constructor
    · rw [hL, cellsSorted_iff, List.pairwise_append]
      refine ⟨(cellsSorted_iff _).1 hsc, (cellsSorted_iff _).1 hsr, ?_⟩
      intro x hx y hy
      have hxb := hcov2 x hx
      have hyb := (hbr y hy).1
      exact le_of_lt (block_lt_of_lt (by omega) hxb rfl)
    · intro it hit
      rw [hL] at hit
      rcases List.mem_append.1 hit with hit | hit
      · rw [hcov2 it hit]
        simp
      · rcases hbr it hit with ⟨hlo, hhi⟩
        simp only [List.length_cons]
        omega

/-- Well-formedness implies count consistency (claim C7's invariant). -/
theorem wf_countOk :
    (∀ n : Node, ∀ bits base, nodeWF n bits base = true →
      countOk n = true) ∧
    (∀ l : List Node, ∀ bits b, childrenWF l bits b = true →
      countOkL l = true) := by
  apply node_mutual_ind
    (fun n => ∀ bits base, nodeWF n bits base = true → countOk n = true)
    (fun l => ∀ bits b, childrenWF l bits b = true → countOkL l = true)
  · intro b its nds cnt hQ bits base hwf
    cases b with
    | false =>
      simp only [nodeWF, Bool.and_eq_true, beq_iff_eq] at hwf
      simp [countOk, hwf.1.1]
    | true =>
      simp only [nodeWF, Bool.and_eq_true, beq_iff_eq,
        decide_eq_true_eq] at hwf
      rcases hwf with ⟨⟨⟨hbits, hlen⟩, hcnt⟩, hcwf⟩
      simp only [countOk, Bool.and_eq_true, beq_iff_eq]
      exact ⟨hcnt, hQ bits _ hcwf⟩
  · intro _ _ _
    simp [countOkL]
  · intro c rest Pc Qrest bits b hcwf
    simp only [childrenWF, Bool.and_eq_true] at hcwf
    simp only [countOkL, Bool.and_eq_true]
    exact ⟨Pc _ _ hcwf.1, Qrest bits (b + 1) hcwf.2⟩

/-! ## Algebra of the insert/delete models -/

/-- A predicate that holds on all of a list takes/drops trivially. -/
theorem takeWhile_all_pass {p : Item → Bool} : ∀ {l : List Item},
    (∀ x ∈ l, p x = true) → l.takeWhile p = l ∧ l.dropWhile p = [] := by
  intro l
  induction l with
  | nil => intro _; simp
  | cons a t ih =>
    intro h
    have ha := h a (by simp)
    have ht := ih fun x hx => h x (by simp [hx])
    simp [List.takeWhile_cons, List.dropWhile_cons, ha, ht.1, ht.2]

/-- A predicate failing on all of a list takes/drops trivially. -/
theorem takeWhile_all_fail {p : Item → Bool} : ∀ {l : List Item},
    (∀ x ∈ l, p x = false) → l.takeWhile p = [] ∧ l.dropWhile p = l := by
  intro l
  cases l with
  | nil => intro _; simp
  | cons a t =>
    intro h
    have ha := h a (by simp)
    simp [List.takeWhile_cons, List.dropWhile_cons, ha]

/-- `takeWhile` over an all-passing left part. -/
theorem takeWhile_append_pass {p : Item → Bool} : ∀ {l1 l2 : List Item},
    (∀ x ∈ l1, p x = true) →
    (l1 ++ l2).takeWhile p = l1 ++ l2.takeWhile p ∧
    (l1 ++ l2).dropWhile p = l2.dropWhile p := by
  intro l1
  induction l1 with
  | nil => intro l2 _; simp
  | cons a t ih =>
    intro l2 h
    have ha := h a (by simp)
    have ht := @ih l2 fun x hx => h x (by simp [hx])
    simp [List.takeWhile_cons, List.dropWhile_cons, ha, ht.1, ht.2]

/-- `takeWhile` over an all-failing right part. -/
theorem takeWhile_append_fail {p : Item → Bool} : ∀ {l1 l2 : List Item},
    (∀ x ∈ l2, p x = false) →
    (l1 ++ l2).takeWhile p = l1.takeWhile p ∧
    (l1 ++ l2).dropWhile p = l1.dropWhile p ++ l2 := by
  intro l1
  induction l1 with
  | nil =>
    intro l2 h
    have := takeWhile_all_fail h
    simp [this.1, this.2]
  | cons a t ih =>
    intro l2 h
    have ht := @ih l2 h
    by_cases ha : p a = true
    · simp [List.takeWhile_cons, List.dropWhile_cons, ha, ht.1, ht.2]
    · simp only [Bool.not_eq_true] at ha
      simp [List.takeWhile_cons, List.dropWhile_cons, ha]

/-- When every cell is at most `cell`, the upper-bound insert appends. -/
theorem upperInsert_all_le (cell : Nat) (data : Data) (l : List Item)
    (h : ∀ x ∈ l, x.cell ≤ cell) :
    upperInsert l cell data = l ++ [⟨cell, data⟩] := by
  have := @takeWhile_all_pass (fun it => decide (it.cell ≤ cell)) l
    (fun x hx => by simpa using h x hx)
  simp [upperInsert, this.1, this.2]

/-- `walkModel` never looks past an item with a different cell. -/
theorem walkModel_append_ne (f : Data → Data × Bool) (cell : Nat) :
    ∀ (A B : List Item), (∀ x ∈ B, x.cell ≠ cell) →
    walkModel f cell (A ++ B) = (walkModel f cell A).map (· ++ B) := by
  intro A
  induction A with
  | nil =>
    intro B hB
    cases B with
    | nil => simp [walkModel]
    | cons b t => simp [walkModel, hB b (by simp)]
  | cons a A ih =>
    intro B hB
    by_cases hc : a.cell = cell
    · simp only [List.cons_append, walkModel, hc, ne_eq, not_true_eq_false,
        if_false, ite_false]
      by_cases hr : (f a.data).2
      · simp [hr]
      · have hih := ih B hB
        simp only [hr, Bool.false_eq_true, if_false, ite_false,
          List.append_eq, hih]
        rcases walkModel f cell A with _ | A2 <;> simp
    · simp [walkModel, hc]

/-- `walkModel` only rewrites a payload: the cell sequence is unchanged. -/
theorem walkModel_cells (f : Data → Data × Bool) (cell : Nat) :
    ∀ (l l2 : List Item), walkModel f cell l = some l2 →
    l2.map Item.cell = l.map Item.cell := by
  intro l
  induction l with
  | nil => intro l2 h; simp [walkModel] at h
  | cons a t ih =>
    intro l2 h
    by_cases hc : a.cell = cell
    · simp only [walkModel, hc, ne_eq, not_true_eq_false, if_false,
        ite_false] at h
      by_cases hr : (f a.data).2
      · simp only [hr, if_true] at h
        cases h
        simp [hc]
      · simp only [hr, Bool.false_eq_true, if_false, ite_false] at h
        rcases hw : walkModel f cell t with _ | t2
        · rw [hw] at h; simp at h
        · rw [hw] at h
          simp only [Option.map_some', Option.some_inj] at h
          subst h
          simp [ih t2 hw]
    · simp [walkModel, hc] at h

/-- Sortedness and coverage only look at cells. -/
theorem cellsSorted_map_iff (m : List Item) :
    cellsSorted m = true ↔
      (m.map Item.cell).Pairwise (fun a b => a ≤ b) := by
  rw [cellsSorted_iff]
  exact (List.pairwise_map).symm

theorem cells_transfer (l l2 : List Item)
    (h : l2.map Item.cell = l.map Item.cell) :
    cellsSorted l2 = cellsSorted l ∧
    ∀ bits base, coveredBy bits base l2 = coveredBy bits base l := by
  constructor
  · have h2 := cellsSorted_map_iff l2
    have h1 := cellsSorted_map_iff l
    rw [h] at h2
    have hiff := h2.trans h1.symm
    cases hcl : cellsSorted l <;> cases hcl2 : cellsSorted l2 <;> simp_all
  · intro bits base
    have key : ∀ m : List Item, coveredBy bits base m
        = (m.map Item.cell).all fun c => c >>> (bits + numBits) == base := by
      intro m
      induction m with
      | nil => rfl
      | cons a t iht =>
        simp only [coveredBy, List.map_cons, List.all_cons] at iht ⊢
        rw [iht]
    rw [key, key, h]

/-- `delModel` never looks past an item with a different cell. -/
theorem delModel_append_ne (p : Item → Bool) (cell : Nat) :
    ∀ (A B : List Item), (∀ x ∈ B, x.cell ≠ cell) →
    delModel p cell (A ++ B) = (delModel p cell A).map (· ++ B) ∧
    delTraceModel p cell (A ++ B) = delTraceModel p cell A := by
  intro A
  induction A with
  | nil =>
    intro B hB
    cases B with
    | nil => simp [delModel, delTraceModel]
    | cons b t => simp [delModel, delTraceModel, hB b (by simp)]
  | cons a A ih =>
    intro B hB
    by_cases hc : a.cell = cell
    · simp only [List.cons_append, delModel, delTraceModel, hc, ne_eq,
        not_true_eq_false, if_false, ite_false]
      by_cases hp : p a
      · simp [hp]
      · rcases ih B hB with ⟨ih1, ih2⟩
        simp only [hp, Bool.false_eq_true, if_false, ite_false,
          List.append_eq, ih1, ih2, true_and]
        rcases delModel p cell A with _ | A2 <;> simp
    · simp [delModel, delTraceModel, hc]

/-- The insert model glues over a bounded context. -/
theorem insModel_append (cell : Nat) (data : Data)
    (cond : Option (Data → Data × Bool)) (l1 lc l2 : List Item)
    (h1 : ∀ x ∈ l1, x.cell < cell) (h2 : ∀ x ∈ l2, cell < x.cell) :
    insModel cell data cond (l1 ++ (lc ++ l2))
      = (l1 ++ (insModel cell data cond lc).1 ++ l2,
         (insModel cell data cond lc).2) := by
  have hp1 : ∀ x ∈ l1, (fun it => decide (it.cell ≤ cell)) x = true :=
    fun x hx => by simpa using le_of_lt (h1 x hx)
  have hp2 : ∀ x ∈ l2, (fun it => decide (it.cell ≤ cell)) x = false :=
    fun x hx => by simpa using h2 x hx
  have htk1 := @takeWhile_append_pass _ _ (lc ++ l2) hp1
  have htk2 := @takeWhile_append_fail _ lc _ hp2
  have htake : (l1 ++ (lc ++ l2)).takeWhile (fun it => decide (it.cell ≤ cell))
      = l1 ++ lc.takeWhile (fun it => decide (it.cell ≤ cell)) := by
    rw [htk1.1, htk2.1]
  have hdrop : (l1 ++ (lc ++ l2)).dropWhile (fun it => decide (it.cell ≤ cell))
      = lc.dropWhile (fun it => decide (it.cell ≤ cell)) ++ l2 := by
    rw [htk1.2, htk2.2]
  have hupper : upperInsert (l1 ++ (lc ++ l2)) cell data
      = l1 ++ upperInsert lc cell data ++ l2 := by
    simp only [upperInsert, htake, hdrop]
    simp
  cases cond with
  | none => simp only [insModel, hupper]
  | some f =>
    have hwne : ∀ x ∈ l1.reverse, x.cell ≠ cell := by
      intro x hx
      have := h1 x (List.mem_reverse.1 hx)
      omega
    rcases hw : walkModel f cell
        ((lc.takeWhile (fun it => decide (it.cell ≤ cell))).reverse)
      with _ | pre2
    · have hbig : walkModel f cell
          (((l1 ++ (lc ++ l2)).takeWhile
            (fun it => decide (it.cell ≤ cell))).reverse) = none := by
        rw [htake, List.reverse_append, walkModel_append_ne f cell _ _ hwne,
          hw]
        rfl
      simp only [insModel, hw, hbig, hupper]
    · have hbig : walkModel f cell
          (((l1 ++ (lc ++ l2)).takeWhile
            (fun it => decide (it.cell ≤ cell))).reverse)
          = some (pre2 ++ l1.reverse) := by
        rw [htake, List.reverse_append, walkModel_append_ne f cell _ _ hwne,
          hw]
        rfl
      simp only [insModel, hw, hbig, hdrop]
      simp [List.reverse_append, List.append_assoc]

/-- The insert model preserves sortedness, coverage, and accounts for the
length according to the inserted flag. -/
theorem insModel_shape (cell : Nat) (data : Data)
    (cond : Option (Data → Data × Bool)) (l : List Item) (bits base : Nat)
    (hs : cellsSorted l = true) (hcov : coveredBy bits base l = true)
    (hc : cell >>> (bits + numBits) = base) :
    cellsSorted (insModel cell data cond l).1 = true ∧
    coveredBy bits base (insModel cell data cond l).1 = true ∧
    ((insModel cell data cond l).1.length : Int)
      = l.length + (if (insModel cell data cond l).2 then 1 else 0) := by
  have hpair := (cellsSorted_iff l).1 hs
  have hcov2 := (coveredBy_iff bits base l).1 hcov
  have hsplit : l.takeWhile (fun it => decide (it.cell ≤ cell))
      ++ l.dropWhile (fun it => decide (it.cell ≤ cell)) = l :=
    List.takeWhile_append_dropWhile _ _
  have hpre_le := takeWhile_le cell l
  have hpost_gt := dropWhile_gt cell l hpair
  have hmem_take : ∀ x ∈ l.takeWhile (fun it => decide (it.cell ≤ cell)),
      x ∈ l := fun x hx =>
    (List.takeWhile_sublist _).subset hx
  have hmem_drop : ∀ x ∈ l.dropWhile (fun it => decide (it.cell ≤ cell)),
      x ∈ l := fun x hx =>
    (List.dropWhile_sublist _).subset hx
  have hupper : cellsSorted (upperInsert l cell data) = true ∧
      coveredBy bits base (upperInsert l cell data) = true ∧
      (upperInsert l cell data).length = l.length + 1 := by
    refine ⟨?_, ?_, ?_⟩
    · rw [cellsSorted_iff]
      unfold upperInsert
      rw [List.pairwise_append]
      refine ⟨hpair.sublist (List.takeWhile_sublist _), ?_, ?_⟩
      · rw [List.pairwise_cons]
        exact ⟨fun y hy => le_of_lt (hpost_gt y hy),
          hpair.sublist (List.dropWhile_sublist _)⟩
      · intro x hx y hy
        rcases List.mem_cons.1 hy with rfl | hy
        · exact hpre_le x hx
        · exact le_of_lt (lt_of_le_of_lt (hpre_le x hx) (hpost_gt y hy))
    · rw [coveredBy_iff]
      unfold upperInsert
      intro it hit
      rcases List.mem_append.1 hit with hit | hit
      · exact hcov2 it (hmem_take it hit)
      · rcases List.mem_cons.1 hit with rfl | hit
        · exact hc
        · exact hcov2 it (hmem_drop it hit)
    · unfold upperInsert
      have hlen := congrArg List.length hsplit
      simp only [List.length_append] at hlen
      simp only [List.length_append, List.length_cons]
      omega
  cases cond with
  | none =>
    simp only [insModel]
    exact ⟨hupper.1, hupper.2.1, by rw [hupper.2.2]; simp⟩
  | some f =>
    rcases hw : walkModel f cell
        ((l.takeWhile (fun it => decide (it.cell ≤ cell))).reverse)
      with _ | pre2
    · simp only [insModel, hw]
      exact ⟨hupper.1, hupper.2.1, by rw [hupper.2.2]; simp⟩
    · simp only [insModel, hw]
      have hcells := walkModel_cells f cell _ _ hw
      have hcells2 : (pre2.reverse
            ++ l.dropWhile (fun it => decide (it.cell ≤ cell))).map Item.cell
          = l.map Item.cell := by
        have hr : pre2.reverse.map Item.cell
            = (l.takeWhile (fun it => decide (it.cell ≤ cell))).map
                Item.cell := by
          rw [List.map_reverse, hcells, List.map_reverse,
            List.reverse_reverse]
        rw [List.map_append, hr, ← List.map_append, hsplit]
      rcases cells_transfer l _ hcells2 with ⟨ht1, ht2⟩
      refine ⟨by rw [ht1]; exact hs, by rw [ht2 bits base]; exact hcov, ?_⟩
      have hlen := congrArg List.length hcells2
      simp only [List.length_map] at hlen
      simp [hlen]

/-- In a sorted run, the last element is maximal. -/
theorem getLast_max (l : List Item) (a : Item)
    (hs : l.Pairwise (fun a b => a.cell ≤ b.cell))
    (hl : l.getLast? = some a) : ∀ x ∈ l, x.cell ≤ a.cell := by
  induction l with
  | nil => simp at hl
  | cons b t ih =>
    rcases List.pairwise_cons.1 hs with ⟨hb, ht⟩
    cases t with
    | nil =>
      simp at hl
      subst hl
      intro x hx
      simp at hx
      subst hx
      exact Nat.le_refl _
    | cons c t2 =>
      rw [List.getLast?_cons_cons] at hl
      have hmem : a ∈ c :: t2 := List.mem_of_mem_getLast? hl
      intro x hx
      rcases List.mem_cons.1 hx with rfl | hx
      · exact hb a hmem
      · exact ih ht hl x hx

/-- `walkModel` on a run without the cell fails immediately. -/
theorem walkModel_all_ne (f : Data → Data × Bool) (cell : Nat)
    (A : List Item) (h : ∀ x ∈ A, x.cell ≠ cell) :
    walkModel f cell A = none := by
  have := walkModel_append_ne f cell [] A h
  simpa [walkModel] using this

/-- What the leaf case of `insert` does, given a specification for the
split continuation: the result satisfies the insert model and stays
well-formed. -/
theorem leafInsert_spec
    (cell : Nat) (data : Data) (cond : Option (Data → Data × Bool))
    (atcap : Bool) (split : Unit → Node × Bool)
    (items : List Item) (nds : List Node) (cnt : Int)
    (bits base : Nat)
    (hcnt : cnt = (items.length : Int))
    (hs : cellsSorted items = true)
    (hcov : coveredBy bits base items = true)
    (hc : cell >>> (bits + numBits) = base)
    (hsplit : atcap = true →
      nodeWF (split ()).1 bits base = true ∧
      ((split ()).1.contents, (split ()).2)
        = (upperInsert items cell data, true)) :
    nodeWF (leafInsert cell data cond atcap split items nds cnt).1 bits base
      = true ∧
    ((leafInsert cell data cond atcap split items nds cnt).1.contents,
      (leafInsert cell data cond atcap split items nds cnt).2)
      = insModel cell data cond items := by
  have hshape := insModel_shape cell data cond items bits base hs hcov hc
  have hpair := (cellsSorted_iff items).1 hs
  have hleafwf : ∀ c : Int,
      c = ((insModel cell data cond items).1.length : Int) →
      nodeWF (.mk false (insModel cell data cond items).1 nds c) bits base
        = true := by
    intro c hcn
    simp only [nodeWF, Bool.and_eq_true, beq_iff_eq]
    exact ⟨⟨hcn, hshape.1⟩, hshape.2.1⟩
  have htpd : items.takeWhile (fun it => decide (it.cell ≤ cell))
      ++ items.dropWhile (fun it => decide (it.cell ≤ cell)) = items :=
    List.takeWhile_append_dropWhile _ _
  have htake : items.take
      (items.takeWhile (fun it => decide (it.cell ≤ cell))).length
      = items.takeWhile (fun it => decide (it.cell ≤ cell)) := by
    have h := List.take_left
      (items.takeWhile (fun it => decide (it.cell ≤ cell)))
      (items.dropWhile (fun it => decide (it.cell ≤ cell)))
    rwa [htpd] at h
  have hdrop : items.drop
      (items.takeWhile (fun it => decide (it.cell ≤ cell))).length
      = items.dropWhile (fun it => decide (it.cell ≤ cell)) := by
    have h := List.drop_left
      (items.takeWhile (fun it => decide (it.cell ≤ cell)))
      (items.dropWhile (fun it => decide (it.cell ≤ cell)))
    rwa [htpd] at h
  have hupper_def : upperInsert items cell data
      = items.takeWhile (fun it => decide (it.cell ≤ cell))
        ++ ⟨cell, data⟩
          :: items.dropWhile (fun it => decide (it.cell ≤ cell)) := rfl
  have hulen : (upperInsert items cell data).length = items.length + 1 := by
    have h := congrArg List.length htpd
    rw [hupper_def]
    rw [List.length_append] at h ⊢
    rw [List.length_cons]
    omega
  have hfind := findLeafItem_eq items cell nds cnt hs
  have happ : ((match items.getLast? with
      | none => true
      | some lastIt => decide (lastIt.cell < cell)) = true) →
      upperInsert items cell data = items ++ [⟨cell, data⟩] ∧
      insModel cell data cond items = (items ++ [⟨cell, data⟩], true) := by
    intro hap
    have hbelow : ∀ x ∈ items, x.cell < cell := by
      rcases hlast : items.getLast? with _ | lastIt
      · intro x hx
        rw [List.getLast?_eq_none_iff] at hlast
        subst hlast
        simp at hx
      · rw [hlast] at hap
        simp only [decide_eq_true_eq] at hap
        intro x hx
        exact lt_of_le_of_lt (getLast_max items lastIt hpair hlast x hx) hap
    have hupper_eq : upperInsert items cell data = items ++ [⟨cell, data⟩] :=
      upperInsert_all_le cell data items fun x hx => le_of_lt (hbelow x hx)
    refine ⟨hupper_eq, ?_⟩
    cases cond with
    | none => simp [insModel, hupper_eq]
    | some f =>
      have hwm : walkModel f cell
          ((items.takeWhile (fun it => decide (it.cell ≤ cell))).reverse)
          = none := by
        apply walkModel_all_ne
        intro x hx
        have hxm : x ∈ items :=
          (List.takeWhile_sublist _).subset (List.mem_reverse.1 hx)
        have := hbelow x hxm
        omega
      simp [insModel, hwm, hupper_eq]
  cases cond with
  | none =>
    simp only [leafInsert, Option.isNone_none, Bool.and_true]
    by_cases hat : atcap = true
    · rw [if_pos hat]
      rcases hsplit hat with ⟨hw, hp⟩
      refine ⟨hw, ?_⟩
      rw [hp]
      simp [insModel]
    · rw [if_neg hat]
      by_cases hap : (match items.getLast? with
          | none => true
          | some lastIt => decide (lastIt.cell < cell)) = true
      · rw [if_pos hap, if_neg hat]
        rcases happ hap with ⟨hupper_eq, hmodel_eq⟩
        refine ⟨?_, ?_⟩
        · have hwf := hleafwf (cnt + 1) (by rw [hmodel_eq]; simp; omega)
          rw [hmodel_eq] at hwf
          simpa using hwf
        · rw [hmodel_eq]
          simp [Node.contents]
      · rw [if_neg hap, hfind]
        refine ⟨?_, ?_⟩
        · have hwf := hleafwf (cnt + 1) (by simp [insModel, hulen]; omega)
          simp only [insModel] at hwf
          rw [hupper_def] at hwf
          rw [htake, hdrop]
          simpa using hwf
        · rw [htake, hdrop]
          simp [insModel, Node.contents, hupper_def]
  | some f =>
    simp only [leafInsert]
    have hcapf : ¬((atcap && (some f : Option (Data → Data × Bool)).isNone)
        = true) := by simp
    rw [if_neg hcapf]
    by_cases hap : (match items.getLast? with
        | none => true
        | some lastIt => decide (lastIt.cell < cell)) = true
    · rw [if_pos hap]
      rcases happ hap with ⟨hupper_eq, hmodel_eq⟩
      by_cases hat : atcap = true
      · rw [if_pos hat]
        rcases hsplit hat with ⟨hw, hp⟩
        refine ⟨hw, ?_⟩
        rw [hp, hmodel_eq, hupper_eq]
      · rw [if_neg hat]
        refine ⟨?_, ?_⟩
        · have hwf := hleafwf (cnt + 1) (by rw [hmodel_eq]; simp; omega)
          rw [hmodel_eq] at hwf
          simpa using hwf
        · rw [hmodel_eq]
          simp [Node.contents]
    · rw [if_neg hap, hfind]
      have hcw := condWalk_model f cell
        (items.takeWhile (fun it => decide (it.cell ≤ cell)))
        (items.dropWhile (fun it => decide (it.cell ≤ cell)))
      rw [htpd] at hcw
      rcases hcw with ⟨hcw1, hcw2⟩
      rcases hwcw : condWalk f items cell
          (items.takeWhile (fun it => decide (it.cell ≤ cell))).length
        with _ | r
      · -- no stored duplicate accepted a replacement: plain insert
        rw [hwcw]
        simp only []
        rw [hwcw] at hcw1
        simp only [Option.map_none'] at hcw1
        have hmodel_eq : insModel cell data (some f) items
            = (upperInsert items cell data, true) := by
          simp only [insModel, hcw1]
        by_cases hat : atcap = true
        · rw [if_pos hat]
          rcases hsplit hat with ⟨hw, hp⟩
          refine ⟨hw, ?_⟩
          rw [hp, hmodel_eq]
        · rw [if_neg hat]
          refine ⟨?_, ?_⟩
          · have hwf := hleafwf (cnt + 1) (by
              rw [hmodel_eq]
              show cnt + 1 = ((upperInsert items cell data).length : Int)
              rw [hulen]
              omega)
            rw [hmodel_eq] at hwf
            rw [hupper_def] at hwf
            rw [htake, hdrop]
            simpa using hwf
          · rw [htake, hdrop, hmodel_eq, hupper_def]
            simp [Node.contents]
      · -- a duplicate accepted the replacement at position r.1
        rw [hwcw]
        simp only []
        rw [hwcw] at hcw1 hcw2
        have hk : r.1 < (items.takeWhile
            (fun it => decide (it.cell ≤ cell))).length :=
          hcw2 r (by simp)
        simp only [Option.map_some'] at hcw1
        have hset : items.set r.1 ⟨cell, r.2⟩
            = (items.takeWhile (fun it => decide (it.cell ≤ cell))).set
                r.1 ⟨cell, r.2⟩
              ++ items.dropWhile (fun it => decide (it.cell ≤ cell)) := by
          conv_lhs => rw [← htpd]
          exact List.set_append_left _ _ hk
        have hmodel_eq : insModel cell data (some f) items
            = ((items.takeWhile (fun it => decide (it.cell ≤ cell))).set
                  r.1 ⟨cell, r.2⟩
                ++ items.dropWhile (fun it => decide (it.cell ≤ cell)),
                false) := by
          simp only [insModel, hcw1]
          simp
        have hlen2 := congrArg List.length htpd
        refine ⟨?_, ?_⟩
        · have hwf := hleafwf cnt (by
            rw [hmodel_eq]
            show cnt = ((((items.takeWhile
                (fun it => decide (it.cell ≤ cell))).set r.1 ⟨cell, r.2⟩)
              ++ items.dropWhile (fun it => decide (it.cell ≤ cell))).length
              : Int)
            rw [List.length_append, List.length_set]
            rw [List.length_append] at hlen2
            omega)
          rw [hmodel_eq] at hwf
          rw [hset]
          simpa using hwf
        · rw [hset, hmodel_eq]
          simp [Node.contents]

/-- A prefix of a well-formed child list is well-formed. -/
theorem childrenWF_take (l : List Node) (bits b k : Nat)
    (h : childrenWF l bits b = true) :
    childrenWF (l.take k) bits b = true := by
  rw [childrenWF_iff] at h ⊢
  intro j hj
  have hj2 : j < l.length := by simp at hj; omega
  have hh := h j hj2
  simp only [List.get_eq_getElem] at hh ⊢
  rw [List.getElem_take l]
  exact hh

/-- A suffix of a well-formed child list is well-formed at the shifted
base. -/
theorem childrenWF_drop (l : List Node) (bits b k : Nat)
    (h : childrenWF l bits b = true) :
    childrenWF (l.drop k) bits (b + k) = true := by
  rw [childrenWF_iff] at h ⊢
  intro j hj
  have hj2 : k + j < l.length := by simp at hj; omega
  have hh := h (k + j) hj2
  simp only [List.get_eq_getElem] at hh ⊢
  rw [List.getElem_drop l]
  have harith : b + (k + j) = b + k + j := by omega
  rw [harith] at hh
  exact hh

/-- Replacing one child by a node well-formed for its slot keeps the
child list well-formed. -/
theorem childrenWF_set (l : List Node) (bits b k : Nat) (c : Node)
    (h : childrenWF l bits b = true)
    (hc : nodeWF c (bits - numBits) (b + k) = true) :
    childrenWF (l.set k c) bits b = true := by
  rw [childrenWF_iff] at h ⊢
  intro j hj
  have hj2 : j < l.length := by simp at hj; omega
  by_cases hkj : k = j
  · subst hkj
    simp only [List.get_eq_getElem, List.getElem_set, if_pos rfl]
    exact hc
  · have hh := h j hj2
    simp only [List.get_eq_getElem] at hh ⊢
    rw [List.getElem_set, if_neg hkj]
    exact hh

/-- The branch case of insert: with a specification for the one-level-down
insert at the target child, the whole branch satisfies the insert model
over its concatenated contents and stays well-formed; the bookkeeping
fields behave as in the source. -/
theorem branchInsertG_spec
    (ins : Nat → Data → Option (Data → Data × Bool) → Node → Node × Bool)
    (bits cell : Nat) (data : Data) (cond : Option (Data → Data × Bool))
    (items : List Item) (nds : List Node) (cnt : Int) (base : Nat)
    (hwf : nodeWF (.mk true items nds cnt) bits base = true)
    (hc : cell >>> (bits + numBits) = base)
    (hins : ∀ child : Node,
      nodeWF child (bits - numBits) (base * numNodes + cellIndex cell bits)
        = true →
      nodeWF (ins cell data cond child).1 (bits - numBits)
          (base * numNodes + cellIndex cell bits) = true ∧
      ((ins cell data cond child).1.contents,
        (ins cell data cond child).2)
        = insModel cell data cond child.contents) :
    nodeWF (branchInsertG ins bits cell data cond
        (.mk true items nds cnt)).1 bits base = true ∧
    ((branchInsertG ins bits cell data cond
        (.mk true items nds cnt)).1.contents,
      (branchInsertG ins bits cell data cond (.mk true items nds cnt)).2)
      = insModel cell data cond (contentsL nds) ∧
    (branchInsertG ins bits cell data cond
        (.mk true items nds cnt)).1.branch = true ∧
    (branchInsertG ins bits cell data cond
        (.mk true items nds cnt)).1.items = items ∧
    (branchInsertG ins bits cell data cond (.mk true items nds cnt)).1.count
      = cnt + (if (branchInsertG ins bits cell data cond
          (.mk true items nds cnt)).2 then 1 else 0) := by
  have hwf' := hwf
  simp only [nodeWF, Bool.and_eq_true, beq_iff_eq, decide_eq_true_eq] at hwf'
  rcases hwf' with ⟨⟨⟨hbits, hlen⟩, hcnt⟩, hcwf⟩
  have hidxlt : cellIndex cell bits < numNodes := by
    simp only [cellIndex]
    exact Nat.mod_lt _ (by norm_num [numNodes])
  have hidxlt' : cellIndex cell bits < nds.length := by
    rw [hlen]; exact hidxlt
  have hchild : nodeWF (nds.get ⟨cellIndex cell bits, hidxlt'⟩)
      (bits - numBits) (base * numNodes + cellIndex cell bits) = true :=
    (childrenWF_iff bits nds (base * numNodes)).1 hcwf
      (cellIndex cell bits) hidxlt'
  rcases hins (nds.get ⟨cellIndex cell bits, hidxlt'⟩) hchild
    with ⟨hwfc, hpairc⟩
  have hcont_c : (ins cell data cond
        (nds.get ⟨cellIndex cell bits, hidxlt'⟩)).1.contents
      = (insModel cell data cond
          (nds.get ⟨cellIndex cell bits, hidxlt'⟩).contents).1 :=
    congrArg Prod.fst hpairc
  have hflag_c : (ins cell data cond
        (nds.get ⟨cellIndex cell bits, hidxlt'⟩)).2
      = (insModel cell data cond
          (nds.get ⟨cellIndex cell bits, hidxlt'⟩).contents).2 :=
    congrArg Prod.snd hpairc
  have hdecomp : contentsL nds
      = contentsL (nds.take (cellIndex cell bits))
        ++ ((nds.get ⟨cellIndex cell bits, hidxlt'⟩).contents
          ++ contentsL (nds.drop (cellIndex cell bits + 1))) := by
    conv_lhs => rw [list_decompose_at nds (cellIndex cell bits) hidxlt']
    rw [contentsL_append]
    rfl
  have hcb : cell >>> bits = base * numNodes + cellIndex cell bits :=
    shiftRight_decompose cell bits base hc
  have h1 : ∀ x ∈ contentsL (nds.take (cellIndex cell bits)),
      x.cell < cell := by
    have hcw := childrenWF_take nds bits (base * numNodes)
      (cellIndex cell bits) hcwf
    intro x hx
    have hb := ((wf_contents_and_count.2) (nds.take (cellIndex cell bits))
      bits (base * numNodes) hbits hcw).2 x hx
    refine @block_lt_of_lt bits (x.cell >>> bits) (cell >>> bits)
      x.cell cell ?_ rfl rfl
    rw [hcb]
    have hlen2 : (nds.take (cellIndex cell bits)).length
        = cellIndex cell bits := by
      rw [List.length_take]
      omega
    rw [hlen2] at hb
    exact hb.2
  have h2 : ∀ x ∈ contentsL (nds.drop (cellIndex cell bits + 1)),
      cell < x.cell := by
    have hcw := childrenWF_drop nds bits (base * numNodes)
      (cellIndex cell bits + 1) hcwf
    intro x hx
    have hb := (((wf_contents_and_count.2)
      (nds.drop (cellIndex cell bits + 1)) bits
      (base * numNodes + (cellIndex cell bits + 1)) hbits hcw).2 x hx).1
    refine @block_lt_of_lt bits (cell >>> bits) (x.cell >>> bits)
      cell x.cell ?_ rfl rfl
    rw [hcb]
    omega
  have hmodel := insModel_append cell data cond
    (contentsL (nds.take (cellIndex cell bits)))
    ((nds.get ⟨cellIndex cell bits, hidxlt'⟩).contents)
    (contentsL (nds.drop (cellIndex cell bits + 1))) h1 h2
  have hsetc : contentsL (nds.set (cellIndex cell bits)
        (ins cell data cond (nds.get ⟨cellIndex cell bits, hidxlt'⟩)).1)
      = contentsL (nds.take (cellIndex cell bits))
        ++ ((ins cell data cond
              (nds.get ⟨cellIndex cell bits, hidxlt'⟩)).1.contents
          ++ contentsL (nds.drop (cellIndex cell bits + 1))) := by
    rw [list_set_decompose nds (cellIndex cell bits) _ hidxlt',
      contentsL_append]
    rfl
  have hchildinfo := wf_contents_and_count.1 _ _ _ hchild
  have hsub : bits - numBits + numBits = bits := Nat.sub_add_cancel hbits
  have hc' : cell >>> ((bits - numBits) + numBits)
      = base * numNodes + cellIndex cell bits := by
    rw [hsub]; exact hcb
  have hshape := insModel_shape cell data cond
    (nds.get ⟨cellIndex cell bits, hidxlt'⟩).contents
    (bits - numBits) (base * numNodes + cellIndex cell bits)
    hchildinfo.1
    ((coveredBy_iff _ _ _).2 hchildinfo.2.1) hc'
  have hlensum := congrArg List.length hdecomp
  simp only [List.length_append] at hlensum
  have hcwfset := childrenWF_set nds bits (base * numNodes)
    (cellIndex cell bits)
    (ins cell data cond (nds.get ⟨cellIndex cell bits, hidxlt'⟩)).1
    hcwf hwfc
  simp only [branchInsertG, Node.nodes, Node.items, Node.branch, Node.count]
  rw [List.get?_eq_get hidxlt']
  simp only []
  by_cases hfl : (ins cell data cond
      (nds.get ⟨cellIndex cell bits, hidxlt'⟩)).2 = true
  · simp only [if_pos hfl]
    have hf2 : (insModel cell data cond
        (nds.get ⟨cellIndex cell bits, hidxlt'⟩).contents).2 = true := by
      rw [← hflag_c]; exact hfl
    refine ⟨?_, ?_, trivial, trivial, by norm_num⟩
    · simp only [nodeWF, Bool.and_eq_true, beq_iff_eq, decide_eq_true_eq]
      refine ⟨⟨⟨hbits, by rw [List.length_set]; exact hlen⟩, ?_⟩, hcwfset⟩
      rw [hsetc, hcont_c]
      simp only [List.length_append]
      have h4 : ((insModel cell data cond
            (nds.get ⟨cellIndex cell bits, hidxlt'⟩).contents).1.length : Int)
          = ((nds.get ⟨cellIndex cell bits, hidxlt'⟩).contents.length : Int)
            + 1 := by
        rw [hshape.2.2, hf2]
        norm_num
      omega
    · simp only [Node.contents]
      rw [hsetc, hcont_c, hdecomp, hmodel]
      simp [List.append_assoc, hf2]
      simpa using hf2
  · simp only [if_neg hfl]
    have hfl2 : (ins cell data cond
        (nds.get ⟨cellIndex cell bits, hidxlt'⟩)).2 = false :=
      Bool.eq_false_iff.mpr hfl
    have hf2 : (insModel cell data cond
        (nds.get ⟨cellIndex cell bits, hidxlt'⟩).contents).2 = false := by
      rw [← hflag_c]; exact hfl2
    refine ⟨?_, ?_, trivial, trivial, by norm_num⟩
    · simp only [nodeWF, Bool.and_eq_true, beq_iff_eq, decide_eq_true_eq]
      refine ⟨⟨⟨hbits, by rw [List.length_set]; exact hlen⟩, ?_⟩, hcwfset⟩
      rw [hsetc, hcont_c]
      simp only [List.length_append]
      have h4 : ((insModel cell data cond
            (nds.get ⟨cellIndex cell bits, hidxlt'⟩).contents).1.length : Int)
          = ((nds.get ⟨cellIndex cell bits, hidxlt'⟩).contents.length : Int)
          := by
        rw [hshape.2.2, hf2]
        norm_num
      omega
    · simp only [Node.contents]
      rw [hsetc, hcont_c, hdecomp, hmodel]
      simp [List.append_assoc, hf2]
      simpa using hf2

/-- The reinsertion fold of `splitLeaf`: reinserting a sorted run of
items, all at or above everything already stored, appends them one by one
to the branch. -/
theorem splitItemsG_spec (bi : Nat → Data → Node → Node × Bool)
    (L base : Nat)
    (hbi : ∀ c d b, b.branch = true → nodeWF b L base = true →
      c >>> (L + numBits) = base →
      nodeWF (bi c d b).1 L base = true ∧
      ((bi c d b).1.contents, (bi c d b).2) = insModel c d none b.contents ∧
      (bi c d b).1.branch = b.branch ∧ (bi c d b).1.items = b.items ∧
      (bi c d b).1.count = b.count + (if (bi c d b).2 then 1 else 0)) :
    ∀ (l : List Item) (b : Node),
      b.branch = true →
      nodeWF b L base = true →
      l.Pairwise (fun a a2 => a.cell ≤ a2.cell) →
      (∀ x ∈ l, x.cell >>> (L + numBits) = base) →
      (∀ x ∈ b.contents, ∀ y ∈ l, x.cell ≤ y.cell) →
      nodeWF (splitItemsG bi l b) L base = true ∧
      (splitItemsG bi l b).contents = b.contents ++ l ∧
      (splitItemsG bi l b).branch = true ∧
      (splitItemsG bi l b).items = b.items ∧
      (splitItemsG bi l b).count = b.count + l.length := by
  intro l
  induction l with
  | nil =>
    intro b hbr hwf _ _ _
    simp only [splitItemsG]
    exact ⟨hwf, by simp, hbr, trivial, by simp⟩
  | cons it rest ih =>
    intro b hbr hwf hsorted hcov hle
    simp only [splitItemsG]
    rcases hbi it.cell it.data b hbr hwf (hcov it (by simp))
      with ⟨hwf1, hpair1, hbr1, hits1, hcnt1⟩
    have hflag1 : (bi it.cell it.data b).2 = true := by
      have h := congrArg Prod.snd hpair1
      simpa [insModel] using h
    have hcont1 : (bi it.cell it.data b).1.contents
        = b.contents ++ [it] := by
      have h := congrArg Prod.fst hpair1
      simp only at h
      rw [h]
      show (insModel it.cell it.data none b.contents).1 = _
      simp only [insModel]
      rw [upperInsert_all_le it.cell it.data b.contents
        (fun x hx => hle x hx it (by simp))]
    rcases List.pairwise_cons.1 hsorted with ⟨hhd, htl⟩
    have hres := ih (bi it.cell it.data b).1 (by rw [hbr1]; exact hbr)
      hwf1 htl (fun x hx => hcov x (by simp [hx]))
      (fun x hx y hy => by
        rw [hcont1] at hx
        rcases List.mem_append.1 hx with hx | hx
        · exact hle x hx y (by simp [hy])
        · simp at hx
          subst hx
          exact hhd y hy)
    refine ⟨hres.1, ?_, hres.2.2.1, ?_, ?_⟩
    · rw [hres.2.1, hcont1]
      simp
    · rw [hres.2.2.2.1, hits1]
    · rw [hres.2.2.2.2, hcnt1]
      simp only [hflag1]
      rw [List.length_cons]
      push_cast
      ring

/-- Go `splitLeaf`: the node becomes a branch storing the same items,
with a consistent count. -/
theorem splitLeafG_spec (bi : Nat → Data → Node → Node × Bool)
    (L base : Nat) (hL : numBits ≤ L)
    (hbi : ∀ c d b, b.branch = true → nodeWF b L base = true →
      c >>> (L + numBits) = base →
      nodeWF (bi c d b).1 L base = true ∧
      ((bi c d b).1.contents, (bi c d b).2) = insModel c d none b.contents ∧
      (bi c d b).1.branch = b.branch ∧ (bi c d b).1.items = b.items ∧
      (bi c d b).1.count = b.count + (if (bi c d b).2 then 1 else 0))
    (items : List Item) (nds : List Node) (cnt : Int)
    (hwf : nodeWF (.mk false items nds cnt) L base = true) :
    nodeWF (splitLeafG bi (.mk false items nds cnt)) L base = true ∧
    (splitLeafG bi (.mk false items nds cnt)).contents = items ∧
    (splitLeafG bi (.mk false items nds cnt)).branch = true ∧
    (splitLeafG bi (.mk false items nds cnt)).count
      = (items.length : Int) := by
  have hwf' := hwf
  simp only [nodeWF, Bool.and_eq_true, beq_iff_eq] at hwf'
  rcases hwf' with ⟨⟨hcnt, hsorted⟩, hcov⟩
  have hwf0 : nodeWF
      (.mk true items (List.replicate numNodes zeroNode) 0) L base = true := by
    simp only [nodeWF, Bool.and_eq_true, beq_iff_eq, decide_eq_true_eq]
    refine ⟨⟨⟨hL, by simp⟩, ?_⟩, childrenWF_replicate L numNodes
      (base * numNodes)⟩
    rw [contentsL_replicate_zero]
    simp
  have hcont0 : (Node.mk true items
      (List.replicate numNodes zeroNode) 0).contents = [] := by
    simp only [Node.contents]
    exact contentsL_replicate_zero numNodes
  have hres := splitItemsG_spec bi L base hbi items
    (.mk true items (List.replicate numNodes zeroNode) 0) rfl hwf0
    ((cellsSorted_iff items).1 hsorted)
    ((coveredBy_iff L base items).1 hcov)
    (fun x hx => by rw [hcont0] at hx; cases hx)
  rcases hseq : splitItemsG bi items
      (.mk true items (List.replicate numNodes zeroNode) 0)
    with ⟨sb, sit, snds, scnt⟩
  rw [hseq] at hres
  rcases hres with ⟨hwfS, hcontS, hbrS, hitsS, hcntS⟩
  simp only [Node.branch] at hbrS
  subst hbrS
  simp only [splitLeafG, Node.items, Node.nodes, Node.count]
  rw [hseq]
  simp only [Node.nodes, Node.count, Node.branch, Node.contents]
  rw [hcont0] at hcontS
  simp only [List.nil_append] at hcontS
  rw [hcont0] at *
  refine ⟨?_, ?_, trivial, ?_⟩
  · have hbridge : nodeWF (.mk true [] snds scnt) L base
        = nodeWF (.mk true sit snds scnt) L base := rfl
    rw [hbridge]
    exact hwfS
  · simpa only [Node.contents] using hcontS
  · simp only [Node.count] at hcntS
    rw [hcntS]
    simp

/-- Go `insert` lines 93-100: splitting a full leaf and re-entering
places the new item at its upper bound, with `inserted = true`. -/
theorem splitInsertPathG_spec (bi : Nat → Data → Node → Node × Bool)
    (L base : Nat) (hL : numBits ≤ L)
    (hbi : ∀ c d b, b.branch = true → nodeWF b L base = true →
      c >>> (L + numBits) = base →
      nodeWF (bi c d b).1 L base = true ∧
      ((bi c d b).1.contents, (bi c d b).2) = insModel c d none b.contents ∧
      (bi c d b).1.branch = b.branch ∧ (bi c d b).1.items = b.items ∧
      (bi c d b).1.count = b.count + (if (bi c d b).2 then 1 else 0))
    (cell : Nat) (data : Data)
    (items : List Item) (nds : List Node) (cnt : Int)
    (hwf : nodeWF (.mk false items nds cnt) L base = true)
    (hc : cell >>> (L + numBits) = base) :
    nodeWF (splitInsertPathG bi cell data (.mk false items nds cnt)).1
      L base = true ∧
    ((splitInsertPathG bi cell data (.mk false items nds cnt)).1.contents,
      (splitInsertPathG bi cell data (.mk false items nds cnt)).2)
      = (upperInsert items cell data, true) := by
  rcases splitLeafG_spec bi L base hL hbi items nds cnt hwf
    with ⟨hwfB, hcontB, hbrB, hcntB⟩
  rcases hbi cell data (splitLeafG bi (.mk false items nds cnt)) hbrB hwfB hc
    with ⟨hwf1, hpair1, hbr1, hits1, hcnt1⟩
  have hcont1 : (bi cell data
        (splitLeafG bi (.mk false items nds cnt))).1.contents
      = upperInsert items cell data := by
    have h := congrArg Prod.fst hpair1
    simp only at h
    rw [h, hcontB]
    simp [insModel]
  simp only [splitInsertPathG]
  rcases hbeq : (bi cell data (splitLeafG bi (.mk false items nds cnt))).1
    with ⟨b1b, b1i, b1n, b1c⟩
  rw [hbeq] at hwf1 hcont1
  simp only [Node.branch, Node.items, Node.nodes, Node.count]
  have hnode : (Node.mk b1b b1i b1n (b1c - 1 + 1)) = .mk b1b b1i b1n b1c := by
    rw [Int.sub_add_cancel]
  rw [hnode]
  exact ⟨hwf1, by rw [hcont1]⟩

/-- Go `insert`: on a well-formed node whose key block contains the cell,
it implements the insert model over the stored items and preserves
well-formedness. -/
theorem insert_spec (bits : Nat) :
    ∀ (cell : Nat) (data : Data) (cond : Option (Data → Data × Bool))
      (n : Node) (base : Nat),
    nodeWF n bits base = true →
    cell >>> (bits + numBits) = base →
    nodeWF (Node.insert cell data bits cond n).1 bits base = true ∧
    ((Node.insert cell data bits cond n).1.contents,
      (Node.insert cell data bits cond n).2)
      = insModel cell data cond n.contents := by
  induction bits using Nat.strong_induction_on with
  | _ bits ih =>
  intro cell data cond n base hwf hc
  rcases n with ⟨br, items, nds, cnt⟩
  rcases Nat.lt_or_ge bits 7 with hlt | hge
  · cases br
    · have hwf' := hwf
      simp only [nodeWF, Bool.and_eq_true, beq_iff_eq] at hwf'
      interval_cases bits <;>
      · simp only [Node.insert, Node.contents]
        exact leafInsert_spec cell data cond _ _ items nds cnt _ base
          hwf'.1.1 hwf'.1.2 hwf'.2 hc
          (fun hat => by simp [maxDepth, numBits, maxItems] at hat)
    · have hwf' := hwf
      simp only [nodeWF, Bool.and_eq_true, decide_eq_true_eq] at hwf'
      have h7 := hwf'.1.1.1
      simp only [numBits] at h7
      omega
  · obtain ⟨b', rfl⟩ : ∃ b', bits = b' + 7 := ⟨bits - 7, by omega⟩
    have hihb : b' < b' + 7 := by omega
    have hbi : ∀ (c : Nat) (d : Data) (b : Node), b.branch = true →
        nodeWF b (b' + 7) base = true →
        c >>> ((b' + 7) + numBits) = base →
        nodeWF (branchInsertG
            (fun c2 d2 cd2 n2 => Node.insert c2 d2 b' cd2 n2)
            (b' + 7) c d none b).1 (b' + 7) base = true ∧
        ((branchInsertG (fun c2 d2 cd2 n2 => Node.insert c2 d2 b' cd2 n2)
            (b' + 7) c d none b).1.contents,
          (branchInsertG (fun c2 d2 cd2 n2 => Node.insert c2 d2 b' cd2 n2)
            (b' + 7) c d none b).2) = insModel c d none b.contents ∧
        (branchInsertG (fun c2 d2 cd2 n2 => Node.insert c2 d2 b' cd2 n2)
            (b' + 7) c d none b).1.branch = b.branch ∧
        (branchInsertG (fun c2 d2 cd2 n2 => Node.insert c2 d2 b' cd2 n2)
            (b' + 7) c d none b).1.items = b.items ∧
        (branchInsertG (fun c2 d2 cd2 n2 => Node.insert c2 d2 b' cd2 n2)
            (b' + 7) c d none b).1.count = b.count
          + (if (branchInsertG
              (fun c2 d2 cd2 n2 => Node.insert c2 d2 b' cd2 n2)
              (b' + 7) c d none b).2 then 1 else 0) := by
      intro c d b hbr hbwf hcc
      rcases b with ⟨bb, its2, bnds, bcnt⟩
      simp only [Node.branch] at hbr
      subst hbr
      exact branchInsertG_spec _ (b' + 7) c d none its2 bnds bcnt base
        hbwf hcc (fun child hch => ih b' hihb c d none child
          (base * numNodes + cellIndex c (b' + 7)) hch
          (shiftRight_decompose c (b' + 7) base hcc))
    cases br
    · simp only [Node.insert, Node.contents]
      have hwf' := hwf
      simp only [nodeWF, Bool.and_eq_true, beq_iff_eq] at hwf'
      refine leafInsert_spec cell data cond _ _ items nds cnt (b' + 7) base
        hwf'.1.1 hwf'.1.2 hwf'.2 hc ?_
      intro hat
      exact splitInsertPathG_spec _ (b' + 7) base
        (by simp only [numBits]; omega) hbi cell data items nds cnt hwf hc
    · simp only [Node.insert, Node.contents]
      have hspec := branchInsertG_spec
        (fun c2 d2 cd2 n2 => Node.insert c2 d2 b' cd2 n2)
        (b' + 7) cell data cond items nds cnt base hwf hc
        (fun child hch => ih b' hihb cell data cond child
          (base * numNodes + cellIndex cell (b' + 7)) hch
          (shiftRight_decompose cell (b' + 7) base hc))
      exact ⟨hspec.1, hspec.2.1⟩

/-- Cells below `2^64` (every Go `uint64`) lie in the root's key block. -/
theorem root_block (cell : Nat) (hcell : cell < w64) :
    cell >>> ((64 - numBits) + numBits) = 0 := by
  rw [shiftRight_eq_iff]
  refine ⟨by omega, ?_⟩
  simp only [numBits, w64] at *
  norm_num
  exact hcell

/-- The effective root node of a tree (a fresh node when absent). -/
theorem root_facts (tr : Tree) (hwf : treeWF tr = true) :
    nodeWF (tr.root.getD zeroNode) (64 - numBits) 0 = true ∧
    treeContents tr = (tr.root.getD zeroNode).contents ∧
    tr.count = ((tr.root.getD zeroNode).contents.length : Int) := by
  rcases tr with ⟨cnt, root⟩
  cases root with
  | none =>
    simp only [treeWF, beq_iff_eq] at hwf
    subst hwf
    refine ⟨by simp [zeroNode, nodeWF, cellsSorted, coveredBy], ?_, ?_⟩
    · simp [treeContents, Option.getD, zeroNode, Node.contents]
    · simp [Option.getD, zeroNode, Node.contents]
  | some root =>
    simp only [treeWF, Bool.and_eq_true, beq_iff_eq] at hwf
    refine ⟨hwf.1, by simp [treeContents, Option.getD], ?_⟩
    have hcount := (wf_contents_and_count.1 root _ _ hwf.1).2.2
    simp only [Option.getD]
    rw [← hcount]
    exact hwf.2

/-- Tree-level insert-or-replace: well-formedness is preserved, the stored
items follow the insert model, and the cached count tracks the `inserted`
flag. -/
theorem insertOrReplace_spec (cell : Nat) (data : Data)
    (cond : Option (Data → Data × Bool)) (tr : Tree)
    (hwf : treeWF tr = true) (hcell : cell < w64) :
    treeWF (Tree.InsertOrReplace cell data cond tr) = true ∧
    treeContents (Tree.InsertOrReplace cell data cond tr)
      = (insModel cell data cond (treeContents tr)).1 ∧
    (Tree.InsertOrReplace cell data cond tr).count = tr.count
      + (if (insModel cell data cond (treeContents tr)).2
          then 1 else 0) := by
  have hc := root_block cell hcell
  rcases root_facts tr hwf with ⟨hN, hTC, hcnt⟩
  have hspec := insert_spec (64 - numBits) cell data cond
    (tr.root.getD zeroNode) 0 hN hc
  have hrwf := hspec.1
  have hrcont : (Node.insert cell data (64 - numBits) cond
        (tr.root.getD zeroNode)).1.contents
      = (insModel cell data cond (tr.root.getD zeroNode).contents).1 :=
    congrArg Prod.fst hspec.2
  have hrflag : (Node.insert cell data (64 - numBits) cond
        (tr.root.getD zeroNode)).2
      = (insModel cell data cond (tr.root.getD zeroNode).contents).2 :=
    congrArg Prod.snd hspec.2
  have hrcount := (wf_contents_and_count.1 _ _ _ hrwf).2.2
  have hshape := insModel_shape cell data cond
    (tr.root.getD zeroNode).contents (64 - numBits) 0
    (wf_contents_and_count.1 _ _ _ hN).1
    ((coveredBy_iff _ _ _).2 (wf_contents_and_count.1 _ _ _ hN).2.1) hc
  simp only [Tree.InsertOrReplace]
  by_cases hfl : (Node.insert cell data (64 - numBits) cond
      (tr.root.getD zeroNode)).2 = true
  · simp only [if_pos hfl]
    have hf2 : (insModel cell data cond
        (tr.root.getD zeroNode).contents).2 = true := by
      rw [← hrflag]; exact hfl
    have hlen : ((insModel cell data cond
          (tr.root.getD zeroNode).contents).1.length : Int)
        = ((tr.root.getD zeroNode).contents.length : Int) + 1 := by
      rw [hshape.2.2, hf2]
      norm_num
    refine ⟨?_, ?_, ?_⟩
    · simp only [treeWF, Bool.and_eq_true, beq_iff_eq]
      refine ⟨hrwf, ?_⟩
      rw [hrcount, hrcont, hlen, hcnt]
    · rw [hTC]
      simp only [treeContents]
      rw [hrcont]
    · rw [hTC, hf2]
      norm_num
  · simp only [if_neg hfl]
    have hfl2 : (Node.insert cell data (64 - numBits) cond
        (tr.root.getD zeroNode)).2 = false := Bool.eq_false_iff.mpr hfl
    have hf2 : (insModel cell data cond
        (tr.root.getD zeroNode).contents).2 = false := by
      rw [← hrflag]; exact hfl2
    have hlen : ((insModel cell data cond
          (tr.root.getD zeroNode).contents).1.length : Int)
        = ((tr.root.getD zeroNode).contents.length : Int) := by
      rw [hshape.2.2, hf2]
      norm_num
    refine ⟨?_, ?_, ?_⟩
    · simp only [treeWF, Bool.and_eq_true, beq_iff_eq]
      refine ⟨hrwf, ?_⟩
      rw [hrcount, hrcont, hlen, hcnt]
    · rw [hTC]
      simp only [treeContents]
      rw [hrcont]
    · rw [hTC, hf2]
      norm_num

/-- Composition law for the callback runner. -/
theorem runIter_append (f : Iter1) (A B : List (Nat × Data)) :
    runIter f (A ++ B)
      = if (runIter f A).2
        then ((runIter f A).1 ++ (runIter f B).1, (runIter f B).2)
        else runIter f A := by
  induction A with
  | nil => simp [runIter]
  | cons p rest ih =>
    simp only [List.cons_append, runIter]
    by_cases hp : f p.1 p.2
    · simp only [hp, if_true, ih]
      by_cases hr : (runIter f rest).2 <;> simp [ih, hr]
    · simp [hp]

/-- A callback that always continues visits everything. -/
theorem runIter_all_true (f : Iter1) (l : List (Nat × Data))
    (h : ∀ p ∈ l, f p.1 p.2 = true) : runIter f l = (l, true) := by
  induction l with
  | nil => rfl
  | cons p rest ih =>
    have hp := h p (by simp)
    have hr := ih fun q hq => h q (by simp [hq])
    simp [runIter, hp, hr]

/-- `pairsOf` distributes over append. -/
theorem pairsOf_append (A B : List Item) :
    pairsOf (A ++ B) = pairsOf A ++ pairsOf B := by
  simp [pairsOf]

/-- The leaf loop of `scan` runs the callback over the item run. -/
theorem scanItems_eq (f : Iter1) : ∀ items : List Item,
    scanItems (some f) items = some (runIter f (pairsOf items)) := by
  intro items
  induction items with
  | nil => simp [scanItems, runIter, pairsOf]
  | cons it rest ih =>
    simp only [scanItems, pairsOf, List.map_cons]
    by_cases hp : f it.cell it.data
    · simp only [hp, if_true, ih, Option.map_some']
      simp [runIter, hp, pairsOf]
    · simp [hp, runIter]

/-- `scan` on a well-formed node is exactly the callback runner over its
stored items (counts are trusted to skip only empty subtrees). -/
theorem scan_eq_runIter :
    (∀ n : Node, ∀ bits base, nodeWF n bits base = true → ∀ f : Iter1,
      Node.scan (some f) n = some (runIter f (pairsOf n.contents))) ∧
    (∀ l : List Node, ∀ bits b, childrenWF l bits b = true → ∀ f : Iter1,
      scanNodes (some f) l = some (runIter f (pairsOf (contentsL l)))) := by
  apply node_mutual_ind
    (fun n => ∀ bits base, nodeWF n bits base = true → ∀ f : Iter1,
      Node.scan (some f) n = some (runIter f (pairsOf n.contents)))
    (fun l => ∀ bits b, childrenWF l bits b = true → ∀ f : Iter1,
      scanNodes (some f) l = some (runIter f (pairsOf (contentsL l))))
  · intro b its nds cnt hQ bits base hwf f
    cases b with
    | false =>
      simp only [Node.scan, Node.contents]
      exact scanItems_eq f its
    | true =>
      simp only [Node.scan, Node.contents]
      simp only [nodeWF, Bool.and_eq_true] at hwf
      exact hQ bits _ hwf.2 f
  · intro bits b _ f
    simp [scanNodes, contentsL, pairsOf, runIter]
  · intro c rest Pc Qrest bits b hcwf f
    simp only [childrenWF, Bool.and_eq_true] at hcwf
    have hcc := (wf_contents_and_count.1 c _ _ hcwf.1).2.2
    simp only [scanNodes]
    have hsplitc : pairsOf (contentsL (c :: rest))
        = pairsOf c.contents ++ pairsOf (contentsL rest) := by
      show pairsOf (c.contents ++ contentsL rest) = _
      exact pairsOf_append _ _
    by_cases hpos : 0 < c.count
    · rw [if_pos hpos]
      rw [Pc _ _ hcwf.1 f]
      rcases hr : runIter f (pairsOf c.contents) with ⟨tra, ok⟩
      cases ok
      · simp only []
        rw [hsplitc, runIter_append, hr]
        simp
      · simp only []
        rw [Qrest bits (b + 1) hcwf.2 f]
        simp only [Option.map_some']
        rw [hsplitc, runIter_append, hr]
        simp
    · rw [if_neg hpos]
      have hzero : c.contents = [] := by
        have hlen : (c.contents.length : Int) ≤ 0 := by omega
        have : c.contents.length = 0 := by omega
        exact List.eq_nil_of_length_eq_zero this
      rw [Qrest bits (b + 1) hcwf.2 f, hsplitc, hzero]
      simp [pairsOf]

/-- `Scan` with a live callback on a well-formed tree is the callback
runner over the stored items. -/
theorem scan_spec (f : Iter1) (tr : Tree) (hwf : treeWF tr = true) :
    Tree.Scan (some f) tr
      = some (runIter f (pairsOf (treeContents tr))) := by
  rcases tr with ⟨cnt, root⟩
  cases root with
  | none => simp [Tree.Scan, treeContents, runIter, pairsOf]
  | some root =>
    simp only [treeWF, Bool.and_eq_true, beq_iff_eq] at hwf
    simp only [Tree.Scan, treeContents]
    exact scan_eq_runIter.1 root _ _ hwf.1 f

/-- `upperInsert` is, up to order, just adding the new item. -/
theorem upperInsert_perm (l : List Item) (cell : Nat) (data : Data) :
    (upperInsert l cell data).Perm (⟨cell, data⟩ :: l) := by
  rw [upperInsert]
  have h1 : (l.takeWhile (fun it => decide (it.cell ≤ cell))
        ++ ⟨cell, data⟩ :: l.dropWhile (fun it => decide (it.cell ≤ cell))).Perm
      ((⟨cell, data⟩ : Item)
        :: (l.takeWhile (fun it => decide (it.cell ≤ cell))
          ++ l.dropWhile (fun it => decide (it.cell ≤ cell)))) :=
    List.perm_middle
  rwa [List.takeWhile_append_dropWhile] at h1

/-- Folding public inserts keeps the tree well-formed and stores exactly
the old items plus the new ones, in some order. -/
theorem insert_fold_spec (ps : List (Nat × Data)) :
    ∀ tr : Tree, treeWF tr = true → (∀ p ∈ ps, p.1 < w64) →
    treeWF (ps.foldl (fun t p => Tree.Insert p.1 p.2 t) tr) = true ∧
    (treeContents (ps.foldl (fun t p => Tree.Insert p.1 p.2 t) tr)).Perm
      (treeContents tr ++ ps.map fun p => (⟨p.1, p.2⟩ : Item)) := by
  induction ps with
  | nil =>
    intro tr h _
    refine ⟨h, ?_⟩
    simp
  | cons p rest ih =>
    intro tr h hcells
    simp only [List.foldl_cons, List.map_cons]
    have hstep := insertOrReplace_spec p.1 p.2 none tr h (hcells p (by simp))
    have hres := ih (Tree.Insert p.1 p.2 tr) hstep.1
      (fun q hq => hcells q (by simp [hq]))
    refine ⟨hres.1, ?_⟩
    have hcont : treeContents (Tree.Insert p.1 p.2 tr)
        = upperInsert (treeContents tr) p.1 p.2 := hstep.2.1
    have h2 := hres.2
    rw [hcont] at h2
    have h4 := (upperInsert_perm (treeContents tr) p.1 p.2).append_right
      (rest.map fun q => (⟨q.1, q.2⟩ : Item))
    exact h2.trans (h4.trans List.perm_middle.symm)

/-- C8: `InsertOrReplace` follows the insert model — the reversed run of
stored duplicates is offered to `cond` and the first acceptance overwrites
that item's payload in place with the count unchanged; otherwise the new
item is inserted and the count grows by exactly one.  `Insert` is the
`cond = nil` case, and a nil `cond` always inserts. -/
theorem c8_insertOrReplace_semantics (tr : Tree) (cell : Nat) (data : Data)
    (cond : Option (Data → Data × Bool))
    (hwf : treeWF tr = true) (hcell : cell < w64) :
    Tree.Insert cell data tr = Tree.InsertOrReplace cell data none tr ∧
    treeContents (Tree.InsertOrReplace cell data cond tr)
      = (insModel cell data cond (treeContents tr)).1 ∧
    (Tree.InsertOrReplace cell data cond tr).Count = tr.Count
      + (if (insModel cell data cond (treeContents tr)).2
          then 1 else 0) ∧
    (insModel cell data none (treeContents tr)).2 = true := by
  rcases insertOrReplace_spec cell data cond tr hwf hcell with ⟨_, h2, h3⟩
  exact ⟨rfl, h2, h3, rfl⟩

/-- Witness for C8 at a concrete tree and argument. -/
theorem c8_insertOrReplace_semantics_witness :
    treeWF (Tree.Insert 3 (some 7) emptyTree) = true ∧ (5 : Nat) < w64 ∧
    (Tree.Insert 5 (some 1) (Tree.Insert 3 (some 7) emptyTree)
        = Tree.InsertOrReplace 5 (some 1) none
            (Tree.Insert 3 (some 7) emptyTree) ∧
      treeContents (Tree.InsertOrReplace 5 (some 1) (some fun d => (d, true))
          (Tree.Insert 3 (some 7) emptyTree))
        = (insModel 5 (some 1) (some fun d => (d, true))
            (treeContents (Tree.Insert 3 (some 7) emptyTree))).1 ∧
      (Tree.InsertOrReplace 5 (some 1) (some fun d => (d, true))
          (Tree.Insert 3 (some 7) emptyTree)).Count
        = (Tree.Insert 3 (some 7) emptyTree).Count
          + (if (insModel 5 (some 1) (some fun d => (d, true))
              (treeContents (Tree.Insert 3 (some 7) emptyTree))).2
             then 1 else 0) ∧
      (insModel 5 (some 1) none
        (treeContents (Tree.Insert 3 (some 7) emptyTree))).2 = true) :=
  ⟨by decide, by decide,
    c8_insertOrReplace_semantics (Tree.Insert 3 (some 7) emptyTree) 5
      (some 1) (some fun d => (d, true)) (by decide) (by decide)⟩

/-- C5: inserting any sequence of pairs and then scanning with a callback
that always continues invokes the callback exactly once per inserted item
(the trace is a permutation of the inserts) and passes cells in
non-decreasing order. -/
theorem c5_insert_then_scan_sorted (ps : List (Nat × Data)) (f : Iter1)
    (hf : ∀ c d, f c d = true) (hcells : ∀ p ∈ ps, p.1 < w64) :
    ∃ tra : List (Nat × Data),
      Tree.Scan (some f)
        (ps.foldl (fun t p => Tree.Insert p.1 p.2 t) emptyTree)
        = some (tra, true) ∧
      tra.Perm ps ∧
      (tra.map Prod.fst).Pairwise (fun a b => a ≤ b) := by
  have hfold := insert_fold_spec ps emptyTree (by decide) hcells
  have hscan := scan_spec f _ hfold.1
  have hall := runIter_all_true f
    (pairsOf (treeContents
      (ps.foldl (fun t p => Tree.Insert p.1 p.2 t) emptyTree)))
    (fun p _ => hf p.1 p.2)
  refine ⟨pairsOf (treeContents
      (ps.foldl (fun t p => Tree.Insert p.1 p.2 t) emptyTree)),
    by rw [hscan, hall], ?_, ?_⟩
  · have hperm := (hfold.2).map (fun it : Item => (it.cell, it.data))
    have hempty : treeContents emptyTree = [] := rfl
    rw [hempty] at hperm
    simp only [List.nil_append, List.map_map] at hperm
    refine List.Perm.trans ?_ (hperm.trans ?_)
    · exact List.Perm.refl _
    · have : (ps.map ((fun it : Item => (it.cell, it.data))
          ∘ fun p => (⟨p.1, p.2⟩ : Item))) = ps := by
        have hid : ((fun it : Item => (it.cell, it.data))
            ∘ fun p : Nat × Data => (⟨p.1, p.2⟩ : Item))
            = fun p : Nat × Data => p := by
          funext p
          rfl
        rw [hid, List.map_id']
      rw [this]
  · rcases root_facts _ hfold.1 with ⟨hN, hTC, _⟩
    have hsorted : cellsSorted (treeContents
        (ps.foldl (fun t p => Tree.Insert p.1 p.2 t) emptyTree)) = true := by
      rw [hTC]
      exact (wf_contents_and_count.1 _ _ _ hN).1
    have hp := (cellsSorted_map_iff _).1 hsorted
    have hmm : (pairsOf (treeContents
          (ps.foldl (fun t p => Tree.Insert p.1 p.2 t) emptyTree))).map
        Prod.fst
        = (treeContents
            (ps.foldl (fun t p => Tree.Insert p.1 p.2 t) emptyTree)).map
          Item.cell := by
      simp [pairsOf, List.map_map]
    rw [hmm]
    exact hp

/-- Witness for C5 at a concrete insertion sequence. -/
theorem c5_insert_then_scan_sorted_witness :
    (∀ c d, (fun (_ : Nat) (_ : Data) => true) c d = true) ∧
    (∀ p ∈ [((9 : Nat), (some 0 : Data)), (2, none), (9, some 1), (4, none)],
      p.1 < w64) ∧
    ∃ tra : List (Nat × Data),
      Tree.Scan (some fun _ _ => true)
        ([((9 : Nat), (some 0 : Data)), (2, none), (9, some 1),
            (4, none)].foldl
          (fun t p => Tree.Insert p.1 p.2 t) emptyTree)
        = some (tra, true) ∧
      tra.Perm [((9 : Nat), (some 0 : Data)), (2, none), (9, some 1),
        (4, none)] ∧
      (tra.map Prod.fst).Pairwise (fun a b => a ≤ b) :=
  ⟨fun _ _ => rfl, by decide,
    c5_insert_then_scan_sorted
      [((9 : Nat), (some 0 : Data)), (2, none), (9, some 1), (4, none)]
      (fun _ _ => true) (fun _ _ => rfl) (by decide)⟩

/-- The leaf loop of `nodeRange` runs the callback over the items at or
above the pivot. -/
theorem rangeItems_eq (pivot : Nat) (f : Iter1) : ∀ items : List Item,
    rangeItems pivot (some f) items
      = some ((rangeModel pivot f items).1,
          (rangeModel pivot f items).2, (rangeModel pivot f items).2) := by
  intro items
  induction items with
  | nil => simp [rangeItems, rangeModel, pairsOf, runIter]
  | cons it rest ih =>
    simp only [rangeItems]
    by_cases hlt : it.cell < pivot
    · rw [if_pos hlt, ih]
      have hfil : (it :: rest).filter (fun it => decide (pivot ≤ it.cell))
          = rest.filter (fun it => decide (pivot ≤ it.cell)) := by
        rw [List.filter_cons]
        simp [Nat.not_le.2 hlt]
      simp only [rangeModel, hfil]
    · rw [if_neg hlt]
      have hge : pivot ≤ it.cell := Nat.not_lt.1 hlt
      have hfil : (it :: rest).filter (fun it => decide (pivot ≤ it.cell))
          = it :: rest.filter (fun it => decide (pivot ≤ it.cell)) := by
        rw [List.filter_cons]
        simp [hge]
      simp only [rangeModel, hfil, pairsOf, List.map_cons]
      by_cases hp : f it.cell it.data
      · simp only [hp, if_true, ih, Option.map_some']
        simp [runIter, hp, rangeModel, pairsOf]
      · simp only [hp]
        simp [runIter, hp]

/-- `nodeRange` on a well-formed node is the callback runner over the
items at or above the pivot; the child loop keeps the invariant that the
seek index points at the pivot block while no item has been hit. -/
theorem range_eq_runIter (pivot : Nat) :
    (∀ n : Node, ∀ bits base, nodeWF n bits base = true →
      ∀ (hit : Bool) (f : Iter1),
      (hit = false → pivot >>> (bits + numBits) = base) →
      n.nodeRange pivot bits hit (some f)
        = some ((rangeModel pivot f n.contents).1,
            (rangeModel pivot f n.contents).2,
            (rangeModel pivot f n.contents).2)) ∧
    (∀ l : List Node, ∀ bits b, numBits ≤ bits →
      childrenWF l bits b = true →
      ∀ (skip : Nat) (hit : Bool) (f : Iter1),
      (hit = true → skip = 0) →
      (hit = false → pivot >>> bits = b + skip) →
      ∃ H : Bool,
        rangeNodes pivot bits hit (some f) skip l
          = some ((rangeModel pivot f (contentsL l)).1, H,
              (rangeModel pivot f (contentsL l)).2) ∧
        ((rangeModel pivot f (contentsL l)).2 = true →
          (l.length ≤ skip → H = hit) ∧ (skip < l.length → H = true)) ∧
        ((rangeModel pivot f (contentsL l)).2 = false → H = false)) := by
  apply node_mutual_ind
    (fun n => ∀ bits base, nodeWF n bits base = true →
      ∀ (hit : Bool) (f : Iter1),
      (hit = false → pivot >>> (bits + numBits) = base) →
      n.nodeRange pivot bits hit (some f)
        = some ((rangeModel pivot f n.contents).1,
            (rangeModel pivot f n.contents).2,
            (rangeModel pivot f n.contents).2))
    (fun l => ∀ bits b, numBits ≤ bits →
      childrenWF l bits b = true →
      ∀ (skip : Nat) (hit : Bool) (f : Iter1),
      (hit = true → skip = 0) →
      (hit = false → pivot >>> bits = b + skip) →
      ∃ H : Bool,
        rangeNodes pivot bits hit (some f) skip l
          = some ((rangeModel pivot f (contentsL l)).1, H,
              (rangeModel pivot f (contentsL l)).2) ∧
        ((rangeModel pivot f (contentsL l)).2 = true →
          (l.length ≤ skip → H = hit) ∧ (skip < l.length → H = true)) ∧
        ((rangeModel pivot f (contentsL l)).2 = false → H = false))
  · intro b its nds cnt hQ bits base hwf hit f hseek
    cases b with
    | false =>
      simp only [Node.nodeRange, Node.contents]
      exact rangeItems_eq pivot f its
    | true =>
      have hwf' := hwf
      simp only [nodeWF, Bool.and_eq_true, beq_iff_eq,
        decide_eq_true_eq] at hwf'
      rcases hwf' with ⟨⟨⟨hbits, hlen⟩, hcnt⟩, hcwf⟩
      simp only [Node.nodeRange, Node.contents]
      have hskiplt : (if hit then 0 else cellIndex pivot bits)
          < nds.length := by
        rw [hlen]
        cases hit
        · simp only [if_neg (by simp : ¬(false = true))]
          simp only [cellIndex]
          exact Nat.mod_lt _ (by norm_num [numNodes])
        · simp [numNodes]
      rcases hQ bits (base * numNodes) hbits hcwf
          (if hit then 0 else cellIndex pivot bits) hit f
          (fun hh => by simp [hh])
          (fun hh => by
            simp only [hh, if_neg (by simp : ¬(false = true))]
            exact shiftRight_decompose pivot bits base (hseek hh))
        with ⟨H, heq, hside1, hside0⟩
      rw [heq]
      rcases hflag : (rangeModel pivot f (contentsL nds)).2 with _ | _
      · rw [hside0 hflag]
      · rw [(hside1 hflag).2 hskiplt]
  · intro bits b hbits hcwf skip hit f hh1 hh0
    refine ⟨hit, ?_, ?_, ?_⟩
    · simp [rangeNodes, rangeModel, contentsL, pairsOf, runIter]
    · intro _
      exact ⟨fun _ => rfl, fun hl => by simp at hl⟩
    · intro hfalse
      simp [rangeModel, contentsL, pairsOf, runIter] at hfalse
  · intro c rest Pc Qrest bits b hbits hcwf skip hit f hh1 hh0
    simp only [childrenWF, Bool.and_eq_true] at hcwf
    have hccnt := (wf_contents_and_count.1 c _ _ hcwf.1).2.2
    have hsub : bits - numBits + numBits = bits := Nat.sub_add_cancel hbits
    have hsplitc : (rangeModel pivot f (contentsL (c :: rest)))
        = runIter f (pairsOf ((c.contents.filter
              (fun it => decide (pivot ≤ it.cell)))
            ++ (contentsL rest).filter
              (fun it => decide (pivot ≤ it.cell)))) := by
      show rangeModel pivot f (c.contents ++ contentsL rest) = _
      rw [rangeModel, List.filter_append]
    have hsplitc2 : rangeModel pivot f (contentsL (c :: rest))
        = runIter f (pairsOf (c.contents.filter
              (fun it => decide (pivot ≤ it.cell)))
            ++ pairsOf ((contentsL rest).filter
              (fun it => decide (pivot ≤ it.cell)))) := by
      rw [hsplitc, pairsOf_append]
    cases skip with
    | succ skip =>
      have hhit : hit = false := by
        cases hit
        · rfl
        · exact absurd (hh1 rfl) (by omega)
      subst hhit
      simp only [rangeNodes]
      have hcempty : c.contents.filter
          (fun it => decide (pivot ≤ it.cell)) = [] := by
        rw [List.filter_eq_nil]
        intro x hx
        simp only [decide_eq_true_eq]
        have hcov := (wf_contents_and_count.1 c _ _ hcwf.1).2.1 x hx
        rw [hsub] at hcov
        have hlt : x.cell < pivot := by
          refine @block_lt_of_lt bits (x.cell >>> bits) (pivot >>> bits)
            x.cell pivot ?_ rfl rfl
          rw [hcov, hh0 rfl]
          omega
        omega
      rcases Qrest bits (b + 1) hbits hcwf.2 skip false f
          (fun hh => by cases hh)
          (fun _ => by rw [hh0 rfl]; omega)
        with ⟨H, heq, hside1, hside0⟩
      refine ⟨H, ?_, ?_, ?_⟩
      · rw [heq, hsplitc, hcempty, List.nil_append]
        rfl
      · intro hflag
        rw [hsplitc, hcempty, List.nil_append] at hflag
        rcases hside1 hflag with ⟨ha, hb2⟩
        exact ⟨fun hl => ha (by simpa using Nat.le_of_succ_le_succ hl),
          fun hl => hb2 (by simp at hl; omega)⟩
      · intro hflag
        rw [hsplitc, hcempty, List.nil_append] at hflag
        exact hside0 hflag
    | zero =>
      simp only [rangeNodes]
      by_cases hzero : c.count == 0
      · rw [if_pos hzero]
        have hcempty : c.contents = [] := by
          simp only [beq_iff_eq] at hzero
          rw [hzero] at hccnt
          have : c.contents.length = 0 := by omega
          exact List.eq_nil_of_length_eq_zero this
        rcases Qrest bits (b + 1) hbits hcwf.2 0 true f
            (fun _ => rfl) (fun hh => by cases hh)
          with ⟨H, heq, hside1, hside0⟩
        have hcontix : rangeModel pivot f (contentsL (c :: rest))
            = rangeModel pivot f (contentsL rest) := by
          show rangeModel pivot f (c.contents ++ contentsL rest) = _
          rw [hcempty, List.nil_append]
        refine ⟨H, ?_, ?_, ?_⟩
        · rw [heq, hcontix]
        · intro hflag
          rw [hcontix] at hflag
          refine ⟨fun hl => ?_, fun _ => ?_⟩
          · simp at hl
          · rcases Nat.eq_zero_or_pos rest.length with hr | hr
            · exact (hside1 hflag).1 (by omega)
            · exact (hside1 hflag).2 hr
        · intro hflag
          rw [hcontix] at hflag
          exact hside0 hflag
      · rw [if_neg hzero]
        have hhit0 : hit = false → pivot >>> ((bits - numBits) + numBits)
            = b := by
          intro hh
          rw [hsub]
          have := hh0 hh
          omega
        rw [Pc (bits - numBits) b hcwf.1 hit f hhit0]
        rcases hflag : (rangeModel pivot f c.contents).2 with _ | _
        all_goals have hflag' := hflag
        all_goals simp only [rangeModel] at hflag'
        · -- the child stopped early
          refine ⟨false, ?_, ?_, ?_⟩
          · rw [hsplitc2, runIter_append]
            simp [hflag, hflag', rangeModel]
          · intro hflag2
            rw [hsplitc2, runIter_append] at hflag2
            simp [hflag'] at hflag2
          · intro _
            rfl
        · -- the child finished; continue over the rest, now hit
          rcases Qrest bits (b + 1) hbits hcwf.2 0 true f
              (fun _ => rfl) (fun hh => by cases hh)
            with ⟨H, heq, hside1, hside0⟩
          simp only [hflag]
          rw [heq]
          have hcomp : rangeModel pivot f (contentsL (c :: rest))
              = ((rangeModel pivot f c.contents).1
                  ++ (rangeModel pivot f (contentsL rest)).1,
                 (rangeModel pivot f (contentsL rest)).2) := by
            rw [hsplitc2, runIter_append, hflag']
            simp [rangeModel]
          refine ⟨H, ?_, ?_, ?_⟩
          · simp [hflag, hcomp]
          · intro hflag2
            rw [hcomp] at hflag2
            simp only [] at hflag2
            refine ⟨fun hl => by simp at hl, fun _ => ?_⟩
            rcases Nat.eq_zero_or_pos rest.length with hr | hr
            · exact (hside1 hflag2).1 (by omega)
            · exact (hside1 hflag2).2 hr
          · intro hflag2
            rw [hcomp] at hflag2
            simp only [] at hflag2
            exact hside0 hflag2

/-- `Range` with a live callback on a well-formed tree is the callback
runner over the stored items at or above the pivot. -/
theorem range_spec (pivot : Nat) (f : Iter1) (tr : Tree)
    (hwf : treeWF tr = true) (hpv : pivot < w64) :
    Tree.Range pivot (some f) tr
      = some ((rangeModel pivot f (treeContents tr)).1,
          (rangeModel pivot f (treeContents tr)).2) := by
  rcases tr with ⟨cnt, root⟩
  cases root with
  | none => simp [Tree.Range, treeContents, rangeModel, pairsOf, runIter]
  | some root =>
    simp only [treeWF, Bool.and_eq_true, beq_iff_eq] at hwf
    simp only [Tree.Range, treeContents]
    rw [(range_eq_runIter pivot).1 root _ _ hwf.1 false f
      (fun _ => root_block pivot hpv)]
    simp

/-- C6: `Range(pivot, f)` invokes `f` on exactly the subsequence of the
`Scan` visit sequence whose cells are at or above the pivot, in order,
with the same early-stop behaviour (both are the callback runner, `Range`
over the filtered pair sequence). -/
theorem c6_range_eq_filtered_scan (tr : Tree) (pivot : Nat) (f : Iter1)
    (hwf : treeWF tr = true) (hpv : pivot < w64) :
    Tree.Scan (some f) tr = some (runIter f (pairsOf (treeContents tr))) ∧
    Tree.Range pivot (some f) tr
      = some (runIter f ((pairsOf (treeContents tr)).filter
          (fun q => decide (pivot ≤ q.1)))) := by
  refine ⟨scan_spec f tr hwf, ?_⟩
  rw [range_spec pivot f tr hwf hpv]
  have hfm : (pairsOf (treeContents tr)).filter
        (fun q => decide (pivot ≤ q.1))
      = pairsOf ((treeContents tr).filter
          (fun it => decide (pivot ≤ it.cell))) := by
    simp only [pairsOf]
    exact List.map_filter _ _
  rw [hfm]
  rfl

/-- Witness for C6 at a concrete tree and pivot. -/
theorem c6_range_eq_filtered_scan_witness :
    treeWF (Tree.Insert 3 none (Tree.Insert 9 none emptyTree)) = true ∧
    (5 : Nat) < w64 ∧
    (Tree.Scan (some fun _ _ => true)
        (Tree.Insert 3 none (Tree.Insert 9 none emptyTree))
      = some (runIter (fun _ _ => true) (pairsOf (treeContents
          (Tree.Insert 3 none (Tree.Insert 9 none emptyTree))))) ∧
    Tree.Range 5 (some fun _ _ => true)
        (Tree.Insert 3 none (Tree.Insert 9 none emptyTree))
      = some (runIter (fun _ _ => true)
          ((pairsOf (treeContents
            (Tree.Insert 3 none (Tree.Insert 9 none emptyTree)))).filter
            (fun q => decide (5 ≤ q.1))))) :=
  ⟨by decide, by decide,
    c6_range_eq_filtered_scan
      (Tree.Insert 3 none (Tree.Insert 9 none emptyTree)) 5
      (fun _ _ => true) (by decide) (by decide)⟩

/-- `scan` with the nil callback: completes only when there is nothing to
visit, otherwise the nil function is invoked (the Go panic, `none`). -/
theorem scan_none :
    (∀ n : Node, ∀ bits base, nodeWF n bits base = true →
      Node.scan none n
        = if n.contents = [] then some ([], true) else none) ∧
    (∀ l : List Node, ∀ bits b, childrenWF l bits b = true →
      scanNodes none l
        = if contentsL l = [] then some ([], true) else none) := by
  apply node_mutual_ind
    (fun n => ∀ bits base, nodeWF n bits base = true →
      Node.scan none n
        = if n.contents = [] then some ([], true) else none)
    (fun l => ∀ bits b, childrenWF l bits b = true →
      scanNodes none l
        = if contentsL l = [] then some ([], true) else none)
  · intro b its nds cnt hQ bits base hwf
    cases b with
    | false =>
      simp only [Node.scan, Node.contents]
      cases its with
      | nil => simp [scanItems]
      | cons it rest => simp [scanItems]
    | true =>
      simp only [Node.scan, Node.contents]
      simp only [nodeWF, Bool.and_eq_true] at hwf
      exact hQ bits _ hwf.2
  · intro bits b _
    simp [scanNodes, contentsL]
  · intro c rest Pc Qrest bits b hcwf
    simp only [childrenWF, Bool.and_eq_true] at hcwf
    have hccnt := (wf_contents_and_count.1 c _ _ hcwf.1).2.2
    simp only [scanNodes]
    have hcontc : contentsL (c :: rest) = c.contents ++ contentsL rest := rfl
    by_cases hpos : 0 < c.count
    · rw [if_pos hpos]
      have hne : c.contents ≠ [] := by
        intro h
        rw [h] at hccnt
        simp at hccnt
        omega
      rw [Pc _ _ hcwf.1, if_neg hne]
      rw [hcontc]
      rw [if_neg (by simp [hne])]
    · rw [if_neg hpos]
      have hzero : c.contents = [] := by
        have : c.contents.length = 0 := by omega
        exact List.eq_nil_of_length_eq_zero this
      rw [Qrest bits (b + 1) hcwf.2, hcontc, hzero, List.nil_append]

/-- The leaf loop of `nodeRange` with the nil callback. -/
theorem rangeItems_none (pivot : Nat) : ∀ items : List Item,
    (items.filter (fun it => decide (pivot ≤ it.cell)) ≠ [] →
      rangeItems pivot none items = none) ∧
    (items.filter (fun it => decide (pivot ≤ it.cell)) = [] →
      rangeItems pivot none items = some ([], true, true)) := by
  intro items
  induction items with
  | nil => simp [rangeItems]
  | cons it rest ih =>
    rw [List.filter_cons]
    by_cases hlt : it.cell < pivot
    · simp only [rangeItems, if_pos hlt]
      simpa [Nat.not_le.2 hlt] using ih
    · have hge : pivot ≤ it.cell := Nat.not_lt.1 hlt
      simp only [rangeItems, if_neg hlt]
      simp [hge]

/-- `nodeRange` with the nil callback: completes only when no stored item
reaches the pivot, otherwise the nil function is invoked. -/
theorem range_none (pivot : Nat) :
    (∀ n : Node, ∀ bits base, nodeWF n bits base = true →
      ∀ hit : Bool,
      (hit = false → pivot >>> (bits + numBits) = base) →
      ((n.contents.filter (fun it => decide (pivot ≤ it.cell)) ≠ [] →
        n.nodeRange pivot bits hit none = none) ∧
       (n.contents.filter (fun it => decide (pivot ≤ it.cell)) = [] →
        n.nodeRange pivot bits hit none = some ([], true, true)))) ∧
    (∀ l : List Node, ∀ bits b, numBits ≤ bits →
      childrenWF l bits b = true →
      ∀ (skip : Nat) (hit : Bool),
      (hit = true → skip = 0) →
      (hit = false → pivot >>> bits = b + skip) →
      (((contentsL l).filter (fun it => decide (pivot ≤ it.cell)) ≠ [] →
        rangeNodes pivot bits hit none skip l = none) ∧
       ((contentsL l).filter (fun it => decide (pivot ≤ it.cell)) = [] →
        ∃ H : Bool, rangeNodes pivot bits hit none skip l
            = some ([], H, true) ∧
          (skip < l.length → H = true) ∧ (l.length ≤ skip → H = hit)))) := by
  apply node_mutual_ind
    (fun n => ∀ bits base, nodeWF n bits base = true →
      ∀ hit : Bool,
      (hit = false → pivot >>> (bits + numBits) = base) →
      ((n.contents.filter (fun it => decide (pivot ≤ it.cell)) ≠ [] →
        n.nodeRange pivot bits hit none = none) ∧
       (n.contents.filter (fun it => decide (pivot ≤ it.cell)) = [] →
        n.nodeRange pivot bits hit none = some ([], true, true))))
    (fun l => ∀ bits b, numBits ≤ bits →
      childrenWF l bits b = true →
      ∀ (skip : Nat) (hit : Bool),
      (hit = true → skip = 0) →
      (hit = false → pivot >>> bits = b + skip) →
      (((contentsL l).filter (fun it => decide (pivot ≤ it.cell)) ≠ [] →
        rangeNodes pivot bits hit none skip l = none) ∧
       ((contentsL l).filter (fun it => decide (pivot ≤ it.cell)) = [] →
        ∃ H : Bool, rangeNodes pivot bits hit none skip l
            = some ([], H, true) ∧
          (skip < l.length → H = true) ∧ (l.length ≤ skip → H = hit))))
  · intro b its nds cnt hQ bits base hwf hit hseek
    cases b with
    | false =>
      simp only [Node.nodeRange, Node.contents]
      exact rangeItems_none pivot its
    | true =>
      have hwf' := hwf
      simp only [nodeWF, Bool.and_eq_true, beq_iff_eq,
        decide_eq_true_eq] at hwf'
      rcases hwf' with ⟨⟨⟨hbits, hlen⟩, hcnt⟩, hcwf⟩
      simp only [Node.nodeRange, Node.contents]
      have hskiplt : (if hit then 0 else cellIndex pivot bits)
          < nds.length := by
        rw [hlen]
        cases hit
        · simp only [if_neg (by simp : ¬(false = true))]
          simp only [cellIndex]
          exact Nat.mod_lt _ (by norm_num [numNodes])
        · simp [numNodes]
      rcases hQ bits (base * numNodes) hbits hcwf
          (if hit then 0 else cellIndex pivot bits) hit
          (fun hh => by simp [hh])
          (fun hh => by
            simp only [hh, if_neg (by simp : ¬(false = true))]
            exact shiftRight_decompose pivot bits base (hseek hh))
        with ⟨hne, hz⟩
      refine ⟨hne, fun h => ?_⟩
      rcases hz h with ⟨H, heq, hlt2, _⟩
      rw [heq, hlt2 hskiplt]
  · intro bits b hbits hcwf skip hit hh1 hh0
    constructor
    · intro hne
      simp [contentsL] at hne
    · intro _
      exact ⟨hit, by simp [rangeNodes], by simp, fun _ => rfl⟩
  · intro c rest Pc Qrest bits b hbits hcwf skip hit hh1 hh0
    simp only [childrenWF, Bool.and_eq_true] at hcwf
    have hccnt := (wf_contents_and_count.1 c _ _ hcwf.1).2.2
    have hsub : bits - numBits + numBits = bits := Nat.sub_add_cancel hbits
    have hcontc : contentsL (c :: rest) = c.contents ++ contentsL rest := rfl
    have hfsplit : (contentsL (c :: rest)).filter
        (fun it => decide (pivot ≤ it.cell))
        = c.contents.filter (fun it => decide (pivot ≤ it.cell))
          ++ (contentsL rest).filter (fun it => decide (pivot ≤ it.cell)) := by
      rw [hcontc, List.filter_append]
    cases skip with
    | succ skip =>
      have hhit : hit = false := by
        cases hit
        · rfl
        · exact absurd (hh1 rfl) (by omega)
      subst hhit
      simp only [rangeNodes]
      have hcempty : c.contents.filter
          (fun it => decide (pivot ≤ it.cell)) = [] := by
        rw [List.filter_eq_nil]
        intro x hx
        simp only [decide_eq_true_eq]
        have hcov := (wf_contents_and_count.1 c _ _ hcwf.1).2.1 x hx
        rw [hsub] at hcov
        have hlt : x.cell < pivot := by
          refine @block_lt_of_lt bits (x.cell >>> bits) (pivot >>> bits)
            x.cell pivot ?_ rfl rfl
          rw [hcov, hh0 rfl]
          omega
        omega
      rcases Qrest bits (b + 1) hbits hcwf.2 skip false
          (fun hh => by cases hh)
          (fun _ => by rw [hh0 rfl]; omega)
        with ⟨hne, hz⟩
      constructor
      · intro hne2
        rw [hfsplit, hcempty, List.nil_append] at hne2
        exact hne hne2
      · intro hz2
        rw [hfsplit, hcempty, List.nil_append] at hz2
        rcases hz hz2 with ⟨H, heq, hlt2, hge2⟩
        exact ⟨H, heq, fun hl => hlt2 (by simp at hl; omega),
          fun hl => hge2 (by simp at hl; omega)⟩
    | zero =>
      simp only [rangeNodes]
      by_cases hzero : c.count == 0
      · rw [if_pos hzero]
        have hcempty : c.contents = [] := by
          simp only [beq_iff_eq] at hzero
          rw [hzero] at hccnt
          have : c.contents.length = 0 := by omega
          exact List.eq_nil_of_length_eq_zero this
        rcases Qrest bits (b + 1) hbits hcwf.2 0 true
            (fun _ => rfl) (fun hh => by cases hh)
          with ⟨hne, hz⟩
        constructor
        · intro hne2
          rw [hfsplit, hcempty] at hne2
          simp only [List.filter_nil, List.nil_append] at hne2
          exact hne hne2
        · intro hz2
          rw [hfsplit, hcempty] at hz2
          simp only [List.filter_nil, List.nil_append] at hz2
          rcases hz hz2 with ⟨H, heq, hlt2, hge2⟩
          refine ⟨H, heq, fun _ => ?_, fun hl => by simp at hl⟩
          rcases Nat.eq_zero_or_pos rest.length with hr | hr
          · exact hge2 (by omega)
          · exact hlt2 hr
      · rw [if_neg hzero]
        have hhit0 : hit = false → pivot >>> ((bits - numBits) + numBits)
            = b := by
          intro hh
          rw [hsub]
          have := hh0 hh
          omega
        rcases Pc (bits - numBits) b hcwf.1 hit hhit0 with ⟨hPne, hPz⟩
        constructor
        · intro hne2
          rw [hfsplit] at hne2
          by_cases hcf : c.contents.filter
              (fun it => decide (pivot ≤ it.cell)) = []
          · rw [hPz hcf]
            rcases Qrest bits (b + 1) hbits hcwf.2 0 true
                (fun _ => rfl) (fun hh => by cases hh)
              with ⟨hne, _⟩
            rw [hcf, List.nil_append] at hne2
            simp only []
            rw [hne hne2]
            rfl
          · rw [hPne hcf]
        · intro hz2
          rw [hfsplit] at hz2
          rcases List.append_eq_nil.1 hz2 with ⟨hcf, hrf⟩
          rw [hPz hcf]
          rcases Qrest bits (b + 1) hbits hcwf.2 0 true
              (fun _ => rfl) (fun hh => by cases hh)
            with ⟨_, hz⟩
          rcases hz hrf with ⟨H, heq, hlt2, hge2⟩
          simp only []
          rw [heq]
          refine ⟨H, rfl, fun _ => ?_, fun hl => by simp at hl⟩
          rcases Nat.eq_zero_or_pos rest.length with hr | hr
          · exact hge2 (by omega)
          · exact hlt2 hr

/-- C3, amended: `Scan` and `Range` with a nil callback are pure queries
(the tree value is untouched), but they are no-ops only when nothing is
visited: `Scan(nil)` completes exactly on empty trees, and
`Range(pivot, nil)` completes exactly when no stored cell reaches the
pivot; otherwise the nil callback is invoked — Go's nil-function-call
panic, modelled by the `none` result. -/
theorem c3_scan_range_nil_amended (tr : Tree) (hwf : treeWF tr = true) :
    Tree.Scan none tr
      = (if treeContents tr = [] then some ([], true) else none) ∧
    ∀ pivot : Nat, pivot < w64 →
      Tree.Range pivot none tr
        = (if (treeContents tr).filter (fun it => decide (pivot ≤ it.cell))
              = [] then some ([], true) else none) := by
  constructor
  · rcases tr with ⟨cnt, root⟩
    cases root with
    | none => simp [Tree.Scan, treeContents]
    | some root =>
      simp only [treeWF, Bool.and_eq_true, beq_iff_eq] at hwf
      simp only [Tree.Scan, treeContents]
      exact scan_none.1 root _ _ hwf.1
  · intro pivot hpv
    rcases tr with ⟨cnt, root⟩
    cases root with
    | none => simp [Tree.Range, treeContents]
    | some root =>
      simp only [treeWF, Bool.and_eq_true, beq_iff_eq] at hwf
      simp only [Tree.Range, treeContents]
      rcases range_none pivot |>.1 root _ _ hwf.1 false
          (fun _ => root_block pivot hpv)
        with ⟨hne, hz⟩
      by_cases hf : root.contents.filter
          (fun it => decide (pivot ≤ it.cell)) = []
      · rw [if_pos hf, hz hf]
        rfl
      · rw [if_neg hf, hne hf]
        rfl

/-- Witness for the amended C3 at a concrete non-empty tree. -/
theorem c3_scan_range_nil_amended_witness :
    treeWF (emptyTree.Insert 5 none) = true ∧
    (Tree.Scan none (emptyTree.Insert 5 none)
      = (if treeContents (emptyTree.Insert 5 none) = []
          then some ([], true) else none) ∧
    ∀ pivot : Nat, pivot < w64 →
      Tree.Range pivot none (emptyTree.Insert 5 none)
        = (if (treeContents (emptyTree.Insert 5 none)).filter
              (fun it => decide (pivot ≤ it.cell))
              = [] then some ([], true) else none)) :=
  ⟨by decide, c3_scan_range_nil_amended (emptyTree.Insert 5 none)
    (by decide)⟩

/-- The delete candidate walk removes exactly one element. -/
theorem delModel_sublist (p : Item → Bool) (cell : Nat) :
    ∀ (l l2 : List Item), delModel p cell l = some l2 →
    l2.Sublist l ∧ l2.length + 1 = l.length := by
  intro l
  induction l with
  | nil =>
    intro l2 h
    simp [delModel] at h
  | cons it rest ih =>
    intro l2 h
    simp only [delModel] at h
    by_cases hc : it.cell = cell
    · simp only [hc, ne_eq, not_true_eq_false, if_false, ite_false] at h
      by_cases hp : p it
      · simp only [hp, if_true, Option.some.injEq] at h
        subst h
        exact ⟨List.sublist_cons_self _ _, by simp⟩
      · simp only [hp, if_false, ite_false] at h
        rcases hdm2 : delModel p cell rest with _ | r2
        · rw [hdm2] at h
          simp at h
        · rw [hdm2] at h
          simp at h
          subst h
          rcases ih r2 hdm2 with ⟨hsub, hlen⟩
          exact ⟨hsub.cons₂ it, by simp [hlen]⟩
    · simp [hc] at h

/-- The delete model only acts inside the block holding the cell. -/
theorem deleteModel_append (data : Data) (cond : Option (Data → Bool))
    (cell : Nat) (l1 lc l2 : List Item)
    (h1 : ∀ x ∈ l1, x.cell < cell) (h2 : ∀ x ∈ l2, cell < x.cell) :
    deleteModel data cond cell (l1 ++ (lc ++ l2))
      = (l1 ++ (deleteModel data cond cell lc).1 ++ l2,
         (deleteModel data cond cell lc).2) ∧
    delTraceOf data cond cell (l1 ++ (lc ++ l2))
      = delTraceOf data cond cell lc := by
  have hp1 : ∀ x ∈ l1, (fun it => decide (it.cell ≤ cell)) x = true :=
    fun x hx => by simpa using le_of_lt (h1 x hx)
  have hp2 : ∀ x ∈ l2, (fun it => decide (it.cell ≤ cell)) x = false :=
    fun x hx => by simpa using h2 x hx
  have htk1 := @takeWhile_append_pass _ _ (lc ++ l2) hp1
  have htk2 := @takeWhile_append_fail _ lc _ hp2
  have htake : (l1 ++ (lc ++ l2)).takeWhile
      (fun it => decide (it.cell ≤ cell))
      = l1 ++ lc.takeWhile (fun it => decide (it.cell ≤ cell)) := by
    rw [htk1.1, htk2.1]
  have hdrop : (l1 ++ (lc ++ l2)).dropWhile
      (fun it => decide (it.cell ≤ cell))
      = lc.dropWhile (fun it => decide (it.cell ≤ cell)) ++ l2 := by
    rw [htk1.2, htk2.2]
  have hwne : ∀ x ∈ l1.reverse, x.cell ≠ cell := by
    intro x hx
    have := h1 x (List.mem_reverse.1 hx)
    omega
  have hrev : (l1 ++ lc.takeWhile (fun it => decide (it.cell ≤ cell))).reverse
      = (lc.takeWhile (fun it => decide (it.cell ≤ cell))).reverse
        ++ l1.reverse := by
    rw [List.reverse_append]
  have happ := delModel_append_ne (delPred data cond) cell
    ((lc.takeWhile (fun it => decide (it.cell ≤ cell))).reverse)
    l1.reverse hwne
  constructor
  · rcases hdm : delModel (delPred data cond) cell
        ((lc.takeWhile (fun it => decide (it.cell ≤ cell))).reverse)
      with _ | pre2
    · have hbig : delModel (delPred data cond) cell
          (((l1 ++ (lc ++ l2)).takeWhile
            (fun it => decide (it.cell ≤ cell))).reverse) = none := by
        rw [htake, hrev, happ.1, hdm]
        rfl
      simp only [deleteModel, hbig, hdm]
      simp [List.append_assoc]
    · have hbig : delModel (delPred data cond) cell
          (((l1 ++ (lc ++ l2)).takeWhile
            (fun it => decide (it.cell ≤ cell))).reverse)
          = some (pre2 ++ l1.reverse) := by
        rw [htake, hrev, happ.1, hdm]
        rfl
      simp only [deleteModel, hbig, hdm, hdrop]
      simp [List.reverse_append, List.append_assoc]
  · cases cond with
    | none => rfl
    | some f =>
      simp only [delTraceOf]
      rw [htake, hrev, happ.2]

/-- The delete model preserves sortedness and coverage and removes one
item exactly when it reports a deletion. -/
theorem deleteModel_shape (data : Data) (cond : Option (Data → Bool))
    (cell : Nat) (l : List Item) (bits base : Nat)
    (hs : cellsSorted l = true) (hcov : coveredBy bits base l = true) :
    cellsSorted (deleteModel data cond cell l).1 = true ∧
    coveredBy bits base (deleteModel data cond cell l).1 = true ∧
    ((deleteModel data cond cell l).1.length : Int)
      = l.length - (if (deleteModel data cond cell l).2 then 1 else 0) := by
  have hpair := (cellsSorted_iff l).1 hs
  have htpd : l.takeWhile (fun it => decide (it.cell ≤ cell))
      ++ l.dropWhile (fun it => decide (it.cell ≤ cell)) = l :=
    List.takeWhile_append_dropWhile _ _
  rcases hdm : delModel (delPred data cond) cell
      ((l.takeWhile (fun it => decide (it.cell ≤ cell))).reverse)
    with _ | pre2
  · simp only [deleteModel, hdm]
    simp [hs, hcov]
  · rcases delModel_sublist (delPred data cond) cell _ _ hdm
      with ⟨hsub, hlen⟩
    have hsub2 : (pre2.reverse ++ l.dropWhile
        (fun it => decide (it.cell ≤ cell))).Sublist l := by
      conv_rhs => rw [← htpd]
      refine List.Sublist.append ?_ (List.Sublist.refl _)
      have := hsub.reverse
      simpa using this
    simp only [deleteModel, hdm]
    refine ⟨?_, ?_, ?_⟩
    · rw [cellsSorted_iff]
      exact hpair.sublist hsub2
    · rw [coveredBy_iff] at hcov ⊢
      exact fun it hit => hcov it (hsub2.subset hit)
    · have hlen2 := congrArg List.length htpd
      simp only [List.length_append] at hlen2
      simp only [List.length_append, List.length_reverse, if_true]
      have : pre2.length + 1
          = (l.takeWhile (fun it => decide (it.cell ≤ cell))).length := by
        simpa using hlen
      push_cast
      omega

/-- Under count consistency, `flatten` reads back exactly the stored
items. -/
theorem flatten_eq_contents :
    (∀ n : Node, ∀ bits base, nodeWF n bits base = true →
      n.flatten = n.contents) ∧
    (∀ l : List Node, ∀ bits b, childrenWF l bits b = true →
      flattenL l = contentsL l) := by
  apply node_mutual_ind
    (fun n => ∀ bits base, nodeWF n bits base = true →
      n.flatten = n.contents)
    (fun l => ∀ bits b, childrenWF l bits b = true →
      flattenL l = contentsL l)
  · intro b its nds cnt hQ bits base hwf
    cases b with
    | false => rfl
    | true =>
      simp only [Node.flatten, Node.contents]
      simp only [nodeWF, Bool.and_eq_true] at hwf
      exact hQ bits _ hwf.2
  · intro _ _ _
    rfl
  · intro c rest Pc Qrest bits b hcwf
    simp only [childrenWF, Bool.and_eq_true] at hcwf
    have hccnt := (wf_contents_and_count.1 c _ _ hcwf.1).2.2
    simp only [flattenL]
    have hrest := Qrest bits (b + 1) hcwf.2
    by_cases hpos : 0 < c.count
    · rw [if_pos hpos, Pc _ _ hcwf.1, hrest]
      rfl
    · rw [if_neg hpos, hrest]
      have hzero : c.contents = [] := by
        have : c.contents.length = 0 := by omega
        exact List.eq_nil_of_length_eq_zero this
      show [] ++ contentsL rest = contentsL (c :: rest)
      rw [List.nil_append]
      show contentsL rest = c.contents ++ contentsL rest
      rw [hzero, List.nil_append]

/-- `compactBranch` keeps the stored items and well-formedness (it turns
a branch into the equivalent leaf). -/
theorem compactBranch_wf (n : Node) (bits base : Nat)
    (h : nodeWF n bits base = true) :
    nodeWF n.compactBranch bits base = true ∧
    n.compactBranch.contents = n.contents := by
  have hflat : n.flatten = n.contents := flatten_eq_contents.1 n _ _ h
  have hinfo := wf_contents_and_count.1 n _ _ h
  constructor
  · simp only [Node.compactBranch, hflat, nodeWF, Bool.and_eq_true,
      beq_iff_eq]
    exact ⟨⟨trivial, hinfo.1⟩, (coveredBy_iff _ _ _).2 hinfo.2.1⟩
  · simp only [Node.compactBranch, hflat, Node.contents]

/-- `nodeDeleteL` is an in-place update at the index. -/
theorem nodeDeleteL_eq (cell : Nat) (data : Data) (bits : Nat)
    (cond : Option (Data → Bool)) :
    ∀ (l : List Node) (k : Nat) (hk : k < l.length),
    nodeDeleteL cell data bits cond l k
      = some (l.set k ((l.get ⟨k, hk⟩).nodeDelete cell data bits cond).1,
          ((l.get ⟨k, hk⟩).nodeDelete cell data bits cond).2) := by
  intro l
  induction l with
  | nil =>
    intro k hk
    simp at hk
  | cons c rest ih =>
    intro k hk
    cases k with
    | zero => simp [nodeDeleteL]
    | succ k =>
      simp only [nodeDeleteL]
      rw [ih k (by simpa using Nat.lt_of_succ_lt_succ hk)]
      simp [List.set]

/-- A delete that reports `deleted = false` leaves the items unchanged. -/
theorem deleteModel_not_deleted (data : Data) (cond : Option (Data → Bool))
    (cell : Nat) (l : List Item)
    (h : (deleteModel data cond cell l).2 = false) :
    (deleteModel data cond cell l).1 = l := by
  simp only [deleteModel] at h ⊢
  rcases hdm : delModel (delPred data cond) cell
      ((l.takeWhile (fun it => decide (it.cell ≤ cell))).reverse)
    with _ | pre2
  · rw [hdm]
  · rw [hdm] at h
    simp at h

/-- Go `nodeDelete`: on a well-formed node it implements the delete model
over the stored items, produces the delete-walk invocation trace, and
preserves well-formedness.  (The second conjunct merely closes the nested
induction over child lists.) -/
theorem nodeDelete_spec :
    (∀ n : Node, ∀ bits base cell (data : Data)
      (cond : Option (Data → Bool)),
      nodeWF n bits base = true →
      cell >>> (bits + numBits) = base →
      nodeWF (Node.nodeDelete cell data bits cond n).1 bits base = true ∧
      ((Node.nodeDelete cell data bits cond n).1.contents,
        (Node.nodeDelete cell data bits cond n).2.1)
        = deleteModel data cond cell n.contents ∧
      (Node.nodeDelete cell data bits cond n).2.2
        = delTraceOf data cond cell n.contents) ∧
    (∀ l : List Node, ∀ c ∈ l, ∀ bits base cell (data : Data)
      (cond : Option (Data → Bool)),
      nodeWF c bits base = true →
      cell >>> (bits + numBits) = base →
      nodeWF (Node.nodeDelete cell data bits cond c).1 bits base = true ∧
      ((Node.nodeDelete cell data bits cond c).1.contents,
        (Node.nodeDelete cell data bits cond c).2.1)
        = deleteModel data cond cell c.contents ∧
      (Node.nodeDelete cell data bits cond c).2.2
        = delTraceOf data cond cell c.contents) := by
  apply node_mutual_ind
    (fun n => ∀ bits base cell (data : Data)
      (cond : Option (Data → Bool)),
      nodeWF n bits base = true →
      cell >>> (bits + numBits) = base →
      nodeWF (Node.nodeDelete cell data bits cond n).1 bits base = true ∧
      ((Node.nodeDelete cell data bits cond n).1.contents,
        (Node.nodeDelete cell data bits cond n).2.1)
        = deleteModel data cond cell n.contents ∧
      (Node.nodeDelete cell data bits cond n).2.2
        = delTraceOf data cond cell n.contents)
    (fun l => ∀ c ∈ l, ∀ bits base cell (data : Data)
      (cond : Option (Data → Bool)),
      nodeWF c bits base = true →
      cell >>> (bits + numBits) = base →
      nodeWF (Node.nodeDelete cell data bits cond c).1 bits base = true ∧
      ((Node.nodeDelete cell data bits cond c).1.contents,
        (Node.nodeDelete cell data bits cond c).2.1)
        = deleteModel data cond cell c.contents ∧
      (Node.nodeDelete cell data bits cond c).2.2
        = delTraceOf data cond cell c.contents)
  · intro b its nds cnt hQ bits base cell data cond hwf hc
    cases b with
    | false =>
      have hwf' := hwf
      simp only [nodeWF, Bool.and_eq_true, beq_iff_eq] at hwf'
      rcases hwf' with ⟨⟨hcnt, hs⟩, hcov⟩
      have htpd : its.takeWhile (fun it => decide (it.cell ≤ cell))
          ++ its.dropWhile (fun it => decide (it.cell ≤ cell)) = its :=
        List.takeWhile_append_dropWhile _ _
      have hfind := findLeafItem_eq its cell nds cnt hs
      have hdwm := delWalk_model cell data cond
        (its.takeWhile (fun it => decide (it.cell ≤ cell)))
        (its.dropWhile (fun it => decide (it.cell ≤ cell)))
      rw [htpd] at hdwm
      have hshape := deleteModel_shape data cond cell its bits base hs hcov
      simp only [Node.nodeDelete, Node.contents]
      rw [hfind]
      rcases hdwm with ⟨hdm1, hdm2, hdm3⟩
      rcases hw : (delWalk cell data cond its
          (its.takeWhile (fun it => decide (it.cell ≤ cell))).length).1
        with _ | i
      · rw [hw]
        simp only []
        rw [hw] at hdm1
        simp only [Option.map_none'] at hdm1
        have hdel : deleteModel data cond cell its = (its, false) := by
          simp only [deleteModel, hdm1]
        refine ⟨hwf, ?_, ?_⟩
        · rw [hdel]
          rfl
        · rw [hdm2]
          cases cond <;> rfl
      · rw [hw]
        simp only []
        rw [hw] at hdm1 hdm3
        have hi : i < (its.takeWhile
            (fun it => decide (it.cell ≤ cell))).length :=
          hdm3 i (by simp)
        simp only [Option.map_some'] at hdm1
        have hdel : deleteModel data cond cell its
            = (((its.takeWhile
                  (fun it => decide (it.cell ≤ cell))).eraseIdx i).reverse.reverse
                ++ its.dropWhile (fun it => decide (it.cell ≤ cell)),
               true) := by
          simp only [deleteModel, hdm1]
        rw [List.reverse_reverse] at hdel
        have herase : its.eraseIdx i
            = (its.takeWhile (fun it => decide (it.cell ≤ cell))).eraseIdx i
              ++ its.dropWhile (fun it => decide (it.cell ≤ cell)) := by
          conv_lhs => rw [← htpd]
          exact List.eraseIdx_append_of_lt_length hi _
        have h1 := hshape.1
        have h2 := hshape.2.1
        have h3 := hshape.2.2
        rw [hdel] at h1 h2 h3
        simp only [if_true] at h3
        refine ⟨?_, ?_, ?_⟩
        · simp only [nodeWF, Bool.and_eq_true, beq_iff_eq]
          refine ⟨⟨?_, by rw [herase]; exact h1⟩, by rw [herase]; exact h2⟩
          rw [herase]
          omega
        · rw [hdel, herase]
          rfl
        · rw [hdm2]
          cases cond <;> rfl
    | true =>
      have hwf' := hwf
      simp only [nodeWF, Bool.and_eq_true, beq_iff_eq,
        decide_eq_true_eq] at hwf'
      rcases hwf' with ⟨⟨⟨hbits, hlen⟩, hcnt⟩, hcwf⟩
      have hidxlt' : cellIndex cell bits < nds.length := by
        rw [hlen]
        simp only [cellIndex]
        exact Nat.mod_lt _ (by norm_num [numNodes])
      have hchildwf : nodeWF (nds.get ⟨cellIndex cell bits, hidxlt'⟩)
          (bits - numBits) (base * numNodes + cellIndex cell bits) = true :=
        (childrenWF_iff bits nds (base * numNodes)).1 hcwf
          (cellIndex cell bits) hidxlt'
      have hsub : bits - numBits + numBits = bits := Nat.sub_add_cancel hbits
      have hcb : cell >>> bits = base * numNodes + cellIndex cell bits :=
        shiftRight_decompose cell bits base hc
      have hchspec := hQ (nds.get ⟨cellIndex cell bits, hidxlt'⟩)
        (List.get_mem nds (cellIndex cell bits) hidxlt') (bits - numBits)
        (base * numNodes + cellIndex cell bits) cell data cond hchildwf
        (by rw [hsub]; exact hcb)
      have hdecomp : contentsL nds
          = contentsL (nds.take (cellIndex cell bits))
            ++ ((nds.get ⟨cellIndex cell bits, hidxlt'⟩).contents
              ++ contentsL (nds.drop (cellIndex cell bits + 1))) := by
        conv_lhs => rw [list_decompose_at nds (cellIndex cell bits) hidxlt']
        rw [contentsL_append]
        rfl
      have h1 : ∀ x ∈ contentsL (nds.take (cellIndex cell bits)),
          x.cell < cell := by
        have hcw := childrenWF_take nds bits (base * numNodes)
          (cellIndex cell bits) hcwf
        intro x hx
        have hb := ((wf_contents_and_count.2)
          (nds.take (cellIndex cell bits))
          bits (base * numNodes) hbits hcw).2 x hx
        refine @block_lt_of_lt bits (x.cell >>> bits) (cell >>> bits)
          x.cell cell ?_ rfl rfl
        rw [hcb]
        have hlen2 : (nds.take (cellIndex cell bits)).length
            = cellIndex cell bits := by
          rw [List.length_take]
          omega
        rw [hlen2] at hb
        exact hb.2
      have h2 : ∀ x ∈ contentsL (nds.drop (cellIndex cell bits + 1)),
          cell < x.cell := by
        have hcw := childrenWF_drop nds bits (base * numNodes)
          (cellIndex cell bits + 1) hcwf
        intro x hx
        have hb := (((wf_contents_and_count.2)
          (nds.drop (cellIndex cell bits + 1)) bits
          (base * numNodes + (cellIndex cell bits + 1)) hbits hcw).2 x hx).1
        refine @block_lt_of_lt bits (cell >>> bits) (x.cell >>> bits)
          cell x.cell ?_ rfl rfl
        rw [hcb]
        simp only [numNodes] at hb ⊢
        omega
      have hmodel := deleteModel_append data cond cell
        (contentsL (nds.take (cellIndex cell bits)))
        ((nds.get ⟨cellIndex cell bits, hidxlt'⟩).contents)
        (contentsL (nds.drop (cellIndex cell bits + 1))) h1 h2
      have hlensum := congrArg List.length hdecomp
      simp only [List.length_append] at hlensum
      simp only [Node.nodeDelete, Node.contents]
      rw [nodeDeleteL_eq cell data (bits - numBits) cond nds
        (cellIndex cell bits) hidxlt']
      rcases hres : (nds.get ⟨cellIndex cell bits, hidxlt'⟩).nodeDelete
          cell data (bits - numBits) cond with ⟨child2, fl, tra⟩
      rw [hres] at hchspec
      simp only [] at hchspec
      rcases hchspec with ⟨hwfc, hpairc, htrc⟩
      have hcont_c : child2.contents
          = (deleteModel data cond cell
              (nds.get ⟨cellIndex cell bits, hidxlt'⟩).contents).1 :=
        congrArg Prod.fst hpairc
      have hflag_c : fl
          = (deleteModel data cond cell
              (nds.get ⟨cellIndex cell bits, hidxlt'⟩).contents).2 :=
        congrArg Prod.snd hpairc
      have hsetc : contentsL (nds.set (cellIndex cell bits) child2)
          = contentsL (nds.take (cellIndex cell bits))
            ++ (child2.contents
              ++ contentsL (nds.drop (cellIndex cell bits + 1))) := by
        rw [list_set_decompose nds (cellIndex cell bits) _ hidxlt',
          contentsL_append]
        rfl
      have hcwfset := childrenWF_set nds bits (base * numNodes)
        (cellIndex cell bits) child2 hcwf hwfc
      have hchinfo := wf_contents_and_count.1 _ _ _ hchildwf
      have hchshape := deleteModel_shape data cond cell
        (nds.get ⟨cellIndex cell bits, hidxlt'⟩).contents
        (bits - numBits) (base * numNodes + cellIndex cell bits)
        hchinfo.1 ((coveredBy_iff _ _ _).2 hchinfo.2.1)
      have htrace_goal : tra = delTraceOf data cond cell (contentsL nds) := by
        rw [hdecomp, hmodel.2]
        exact htrc
      cases fl with
      | false =>
        simp only []
        have hunch : child2.contents
            = (nds.get ⟨cellIndex cell bits, hidxlt'⟩).contents := by
          rw [hcont_c]
          exact deleteModel_not_deleted data cond cell _ hflag_c.symm
        have hsetsame : contentsL (nds.set (cellIndex cell bits) child2)
            = contentsL nds := by
          rw [hsetc, hunch, hdecomp]
        refine ⟨?_, ?_, htrace_goal⟩
        · simp only [nodeWF, Bool.and_eq_true, beq_iff_eq,
            decide_eq_true_eq]
          refine ⟨⟨⟨hbits, by rw [List.length_set]; exact hlen⟩, ?_⟩,
            hcwfset⟩
          rw [hsetsame]
          exact hcnt
        · show (contentsL (nds.set (cellIndex cell bits) child2), false)
            = deleteModel data cond cell (contentsL nds)
          rw [hsetsame, hdecomp, hmodel.1]
          rw [hunch] at hcont_c
          rw [← hcont_c, ← hflag_c]
          simp [List.append_assoc]
      | true =>
        simp only []
        have hdelw : deleteModel data cond cell (contentsL nds)
            = (contentsL (nds.take (cellIndex cell bits))
                ++ child2.contents
                ++ contentsL (nds.drop (cellIndex cell bits + 1)), true) := by
          rw [hdecomp, hmodel.1, ← hcont_c, ← hflag_c]
        have hchlen : (child2.contents.length : Int)
            = ((nds.get ⟨cellIndex cell bits, hidxlt'⟩).contents.length
                : Int) - 1 := by
          rw [hcont_c, hchshape.2.2, ← hflag_c]
          norm_num
        have hwfn1 : nodeWF (.mk true its
            (nds.set (cellIndex cell bits) child2) (cnt - 1)) bits base
            = true := by
          simp only [nodeWF, Bool.and_eq_true, beq_iff_eq,
            decide_eq_true_eq]
          refine ⟨⟨⟨hbits, by rw [List.length_set]; exact hlen⟩, ?_⟩,
            hcwfset⟩
          rw [hsetc]
          simp only [List.length_append]
          push_cast at hchlen hcnt ⊢
          omega
        have hcontn1 : (Node.mk true its
              (nds.set (cellIndex cell bits) child2) (cnt - 1)).contents
            = (deleteModel data cond cell (contentsL nds)).1 := by
          show contentsL (nds.set (cellIndex cell bits) child2) = _
          rw [hsetc, hdelw]
          simp [List.append_assoc]
        by_cases hcompact : cnt - 1 ≤ (minItems : Int)
        · rw [if_pos hcompact]
          rcases compactBranch_wf _ _ _ hwfn1 with ⟨hcwf2, hccont⟩
          refine ⟨hcwf2, ?_, htrace_goal⟩
          show ((Node.mk true its (nds.set (cellIndex cell bits) child2)
              (cnt - 1)).compactBranch.contents, true)
            = deleteModel data cond cell (contentsL nds)
          rw [hccont, hcontn1, hdelw]
        · rw [if_neg hcompact]
          refine ⟨hwfn1, ?_, htrace_goal⟩
          show ((Node.mk true its (nds.set (cellIndex cell bits) child2)
              (cnt - 1)).contents, true)
            = deleteModel data cond cell (contentsL nds)
          rw [hcontn1, hdelw]
  · intro c hc
    simp at hc
  · intro c rest Pc Qrest c2 hc2 bits base cell data cond hwf hc
    rcases List.mem_cons.1 hc2 with rfl | hmem
    · exact Pc bits base cell data cond hwf hc
    · exact Qrest c2 hmem bits base cell data cond hwf hc

/-- The delete model does nothing on an empty store. -/
theorem deleteModel_nil (data : Data) (cond : Option (Data → Bool))
    (cell : Nat) :
    deleteModel data cond cell [] = ([], false) ∧
    delTraceOf data cond cell [] = [] := by
  cases cond <;> simp [deleteModel, delModel, delTraceOf, delTraceModel]

/-- Tree-level `DeleteWhen`: the stored items follow the delete model,
the count tracks the deleted flag, the `cond` trace is the candidate
walk, and well-formedness is preserved. -/
theorem deleteWhen_spec (cell : Nat) (cond : Option (Data → Bool))
    (tr : Tree) (hwf : treeWF tr = true) (hcell : cell < w64) :
    treeWF (tr.DeleteWhen cell cond).1 = true ∧
    treeContents (tr.DeleteWhen cell cond).1
      = (deleteModel none cond cell (treeContents tr)).1 ∧
    (tr.DeleteWhen cell cond).1.count = tr.count
      - (if (deleteModel none cond cell (treeContents tr)).2
          then 1 else 0) ∧
    (tr.DeleteWhen cell cond).2
      = delTraceOf none cond cell (treeContents tr) := by
  rcases tr with ⟨cnt, root⟩
  cases root with
  | none =>
    have hnil := deleteModel_nil none cond cell
    simp only [Tree.DeleteWhen, treeContents]
    simp only [hnil.1]
    exact ⟨hwf, trivial, by norm_num, hnil.2.symm⟩
  | some root =>
    simp only [treeWF, Bool.and_eq_true, beq_iff_eq] at hwf
    rcases nodeDelete_spec.1 root (64 - numBits) 0 cell none cond hwf.1
        (root_block cell hcell)
      with ⟨hwfr, hpairr, htrr⟩
    have hcontr := congrArg Prod.fst hpairr
    have hflagr := congrArg Prod.snd hpairr
    simp only [] at hcontr hflagr
    have hrcount := (wf_contents_and_count.1 _ _ _ hwfr).2.2
    have hshape := deleteModel_shape none cond cell root.contents
      (64 - numBits) 0 (wf_contents_and_count.1 _ _ _ hwf.1).1
      ((coveredBy_iff _ _ _).2 (wf_contents_and_count.1 _ _ _ hwf.1).2.1)
    simp only [Tree.DeleteWhen, treeContents]
    by_cases hfl : (root.nodeDelete cell none (64 - numBits) cond).2.1 = true
    · simp only [if_pos hfl]
      have hf2 : (deleteModel none cond cell root.contents).2 = true := by
        rw [← hflagr]; exact hfl
      refine ⟨?_, hcontr, ?_, htrr⟩
      · simp only [treeWF, Bool.and_eq_true, beq_iff_eq]
        refine ⟨hwfr, ?_⟩
        rw [hrcount, hcontr]
        have h3 := hshape.2.2
        rw [hf2] at h3
        norm_num at h3
        rw [h3, hwf.2]
        have hcc := (wf_contents_and_count.1 _ _ _ hwf.1).2.2
        rw [hcc]
      · simp only [hf2]
        rw [hwf.2]
        norm_num
    · simp only [if_neg hfl]
      have hfl2 : (root.nodeDelete cell none (64 - numBits) cond).2.1
          = false := Bool.eq_false_iff.mpr hfl
      have hf2 : (deleteModel none cond cell root.contents).2 = false := by
        rw [← hflagr]; exact hfl2
      refine ⟨?_, hcontr, ?_, htrr⟩
      · simp only [treeWF, Bool.and_eq_true, beq_iff_eq]
        refine ⟨hwfr, ?_⟩
        rw [hrcount, hcontr]
        have hnc := deleteModel_not_deleted none cond cell root.contents hf2
        rw [hnc, hwf.2]
        exact (wf_contents_and_count.1 _ _ _ hwf.1).2.2
      · simp only [hf2]
        rw [hwf.2]
        norm_num
  
/-- Tree-level `Delete`: the delete model with payload matching. -/
theorem delete_spec (cell : Nat) (data : Data) (tr : Tree)
    (hwf : treeWF tr = true) (hcell : cell < w64) :
    treeWF (tr.Delete cell data) = true ∧
    treeContents (tr.Delete cell data)
      = (deleteModel data none cell (treeContents tr)).1 ∧
    (tr.Delete cell data).count = tr.count
      - (if (deleteModel data none cell (treeContents tr)).2
          then 1 else 0) := by
  rcases tr with ⟨cnt, root⟩
  cases root with
  | none =>
    have hnil := deleteModel_nil data none cell
    simp only [Tree.Delete, treeContents]
    simp only [hnil.1]
    exact ⟨hwf, trivial, by norm_num⟩
  | some root =>
    simp only [treeWF, Bool.and_eq_true, beq_iff_eq] at hwf
    rcases nodeDelete_spec.1 root (64 - numBits) 0 cell data none hwf.1
        (root_block cell hcell)
      with ⟨hwfr, hpairr, _⟩
    have hcontr := congrArg Prod.fst hpairr
    have hflagr := congrArg Prod.snd hpairr
    simp only [] at hcontr hflagr
    have hrcount := (wf_contents_and_count.1 _ _ _ hwfr).2.2
    have hshape := deleteModel_shape data none cell root.contents
      (64 - numBits) 0 (wf_contents_and_count.1 _ _ _ hwf.1).1
      ((coveredBy_iff _ _ _).2 (wf_contents_and_count.1 _ _ _ hwf.1).2.1)
    simp only [Tree.Delete, treeContents]
    by_cases hfl : (root.nodeDelete cell data (64 - numBits) none).2.1 = true
    · simp only [if_pos hfl]
      have hf2 : (deleteModel data none cell root.contents).2 = true := by
        rw [← hflagr]; exact hfl
      refine ⟨?_, hcontr, ?_⟩
      · simp only [treeWF, Bool.and_eq_true, beq_iff_eq]
        refine ⟨hwfr, ?_⟩
        rw [hrcount, hcontr]
        have h3 := hshape.2.2
        rw [hf2] at h3
        norm_num at h3
        rw [h3, hwf.2]
        have hcc := (wf_contents_and_count.1 _ _ _ hwf.1).2.2
        rw [hcc]
      · simp only [hf2]
        rw [hwf.2]
        norm_num
    · simp only [if_neg hfl]
      have hfl2 : (root.nodeDelete cell data (64 - numBits) none).2.1
          = false := Bool.eq_false_iff.mpr hfl
      have hf2 : (deleteModel data none cell root.contents).2 = false := by
        rw [← hflagr]; exact hfl2
      refine ⟨?_, hcontr, ?_⟩
      · simp only [treeWF, Bool.and_eq_true, beq_iff_eq]
        refine ⟨hwfr, ?_⟩
        rw [hrcount, hcontr]
        have hnc := deleteModel_not_deleted data none cell root.contents hf2
        rw [hnc, hwf.2]
        exact (wf_contents_and_count.1 _ _ _ hwf.1).2.2
      · simp only [hf2]
        rw [hwf.2]
        norm_num

/-- C9: `DeleteWhen(cell, cond)` examines the stored items with that cell
in reverse sorted order — the candidate walk over the reversed `≤ cell`
run, which invokes `cond` once per examined item up to and including the
first acceptance — removes exactly the first accepted item (count down by
one), and removes nothing when every candidate is declined or none
exists (count and items unchanged). -/
theorem c9_deleteWhen_reverse_order (tr : Tree) (cell : Nat)
    (f : Data → Bool) (hwf : treeWF tr = true) (hcell : cell < w64) :
    treeWF (tr.DeleteWhen cell (some f)).1 = true ∧
    treeContents (tr.DeleteWhen cell (some f)).1
      = (deleteModel none (some f) cell (treeContents tr)).1 ∧
    (tr.DeleteWhen cell (some f)).1.count = tr.count
      - (if (deleteModel none (some f) cell (treeContents tr)).2
          then 1 else 0) ∧
    (tr.DeleteWhen cell (some f)).2
      = delTraceModel (delPred none (some f)) cell
          (((treeContents tr).takeWhile
            (fun it => decide (it.cell ≤ cell))).reverse) := by
  rcases deleteWhen_spec cell (some f) tr hwf hcell with ⟨h1, h2, h3, h4⟩
  exact ⟨h1, h2, h3, h4⟩

/-- Witness for C9 at a concrete tree holding duplicates of the cell. -/
theorem c9_deleteWhen_reverse_order_witness :
    treeWF (Tree.Insert 5 (some 2) (Tree.Insert 5 (some 1) emptyTree))
      = true ∧ (5 : Nat) < w64 ∧
    (treeWF ((Tree.Insert 5 (some 2) (Tree.Insert 5 (some 1)
        emptyTree)).DeleteWhen 5 (some fun d => d == some 1)).1 = true ∧
    treeContents ((Tree.Insert 5 (some 2) (Tree.Insert 5 (some 1)
        emptyTree)).DeleteWhen 5 (some fun d => d == some 1)).1
      = (deleteModel none (some fun d => d == some 1) 5
          (treeContents (Tree.Insert 5 (some 2) (Tree.Insert 5 (some 1)
            emptyTree)))).1 ∧
    ((Tree.Insert 5 (some 2) (Tree.Insert 5 (some 1)
        emptyTree)).DeleteWhen 5 (some fun d => d == some 1)).1.count
      = (Tree.Insert 5 (some 2) (Tree.Insert 5 (some 1) emptyTree)).count
        - (if (deleteModel none (some fun d => d == some 1) 5
            (treeContents (Tree.Insert 5 (some 2) (Tree.Insert 5 (some 1)
              emptyTree)))).2 then 1 else 0) ∧
    ((Tree.Insert 5 (some 2) (Tree.Insert 5 (some 1)
        emptyTree)).DeleteWhen 5 (some fun d => d == some 1)).2
      = delTraceModel (delPred none (some fun d => d == some 1)) 5
          (((treeContents (Tree.Insert 5 (some 2) (Tree.Insert 5 (some 1)
              emptyTree))).takeWhile
            (fun it => decide (it.cell ≤ 5))).reverse)) :=
  ⟨by decide, by decide,
    c9_deleteWhen_reverse_order
      (Tree.Insert 5 (some 2) (Tree.Insert 5 (some 1) emptyTree)) 5
      (fun d => d == some 1) (by decide) (by decide)⟩

/-- Overwrite at the border between two list parts. -/
theorem set_mid {α : Type} (A B : List α) (x y : α) :
    (A ++ x :: B).set A.length y = A ++ y :: B := by
  rw [List.set_append_right _ _ (Nat.le_refl _)]
  simp [List.set]

/-- The in-place move of the `nodeRangeDelete` leaf loop, as surgery: the
current item is copied over the first vacated slot and its old slot is
voided. -/
theorem set_set_mid {α : Type} (kept jt : List α) (j0 it y : α)
    (rest : List α) :
    (((kept ++ (j0 :: jt) ++ it :: rest).set kept.length it).set
      (kept.length + (j0 :: jt).length) y)
    = (kept ++ [it]) ++ (jt ++ [y]) ++ rest := by
  have e1 : kept ++ (j0 :: jt) ++ it :: rest
      = kept ++ j0 :: (jt ++ it :: rest) := by simp
  rw [e1, set_mid]
  have e2 : kept ++ it :: (jt ++ it :: rest)
      = (kept ++ it :: jt) ++ it :: rest := by simp
  rw [e2]
  have e3 : kept.length + (j0 :: jt).length
      = (kept ++ it :: jt).length := by simp
  rw [e3, set_mid]
  simp

/-- With the stop flag down, the range-delete model keeps everything. -/
theorem rdGen_false (start endc : Nat) (iter : Option Iter2) :
    ∀ l : List Item, rdGen start endc iter l false = (l, 0, false, []) := by
  intro l
  induction l with
  | nil => rfl
  | cons it rest ih =>
    by_cases hclt : it.cell < start <;>
      simp [rdGen, hclt, ih]

/-- The leaf loop of `nodeRangeDelete` against its sequential model: the
array stays grouped as processed-kept items, vacated junk slots holding
voided payloads, and the unprocessed tail. -/
theorem rdLeafLoop_model (start endc : Nat) (iter : Option Iter2) :
    ∀ (fuel : Nat) (rest kept junk : List Item) (ok : Bool)
      (trace : List (Nat × Data)),
      rest.length ≤ fuel →
      rest.Pairwise (fun a b => a.cell ≤ b.cell) →
      (0 < junk.length → ∀ x ∈ rest, start ≤ x.cell) →
      ∃ J : List Item,
        rdLeafLoop start endc iter fuel (kept ++ junk ++ rest)
            (kept.length + junk.length) junk.length ok trace
          = ⟨kept ++ (rdGen start endc iter rest ok).1 ++ J,
             junk.length + (rdGen start endc iter rest ok).2.1,
             (rdGen start endc iter rest ok).2.2.1,
             trace ++ (rdGen start endc iter rest ok).2.2.2⟩ ∧
        J.length = junk.length + (rdGen start endc iter rest ok).2.1 := by
  intro fuel
  induction fuel with
  | zero =>
    intro rest kept junk ok trace hfuel _ _
    have hrest : rest = [] := List.eq_nil_of_length_eq_zero (by omega)
    subst hrest
    refine ⟨junk, ?_, by simp [rdGen]⟩
    simp [rdLeafLoop, rdGen]
  | succ fuel ih =>
    intro rest kept junk ok trace hfuel hsorted hge
    cases rest with
    | nil =>
      refine ⟨junk, ?_, by simp [rdGen]⟩
      simp only [rdLeafLoop]
      rw [dif_neg (by simp)]
      simp [rdGen]
    | cons it rest =>
      rcases List.pairwise_cons.1 hsorted with ⟨hhd, htl⟩
      have hlt : kept.length + junk.length
          < (kept ++ junk ++ it :: rest).length := by simp
      have hget : (kept ++ junk ++ it :: rest).get
          ⟨kept.length + junk.length, hlt⟩ = it := by
        simp [List.getElem_append_right]
      simp only [rdLeafLoop, dif_pos hlt, hget]
      by_cases hclt : it.cell < start
      · -- item below the window: kept in place
        rw [if_pos hclt]
        rcases Nat.eq_zero_or_pos junk.length with hj | hj
        · have hjunk : junk = [] := List.eq_nil_of_length_eq_zero hj
          subst hjunk
          obtain ⟨J, hJ1, hJ2⟩ := ih rest (kept ++ [it]) [] ok trace
            (by simpa using hfuel) htl (by simp)
          refine ⟨J, ?_, ?_⟩
          · have harr : (kept ++ [it]) ++ ([] : List Item) ++ rest
                = kept ++ ([] : List Item) ++ it :: rest := by simp
            have hidx : (kept ++ [it]).length + ([] : List Item).length
                = kept.length + ([] : List Item).length + 1 := by
              simp only [List.length_append, List.length_cons,
                List.length_nil]
              try omega
            rw [harr, hidx] at hJ1
            rw [hJ1]
            simp only [rdGen, if_pos hclt]
            simp [List.append_assoc]
          · rw [hJ2]
            simp only [rdGen, if_pos hclt]
        · exact absurd (hge hj it (by simp)) (by omega)
      · rw [if_neg hclt]
        have hstart : start ≤ it.cell := Nat.not_lt.1 hclt
        cases ok with
        | false =>
          simp only [Bool.false_eq_true, if_false, if_true]
          rcases Nat.eq_zero_or_pos junk.length with hj | hj
          · -- nothing deleted yet: immediate stop
            have hjunk : junk = [] := List.eq_nil_of_length_eq_zero hj
            subst hjunk
            rw [if_neg (by simp)]
            exact ⟨[], by simp [rdGen_false], by simp [rdGen_false]⟩
          · -- keep the item, moving it into the vacated slot
            rw [if_pos hj]
            rcases junk with _ | ⟨j0, jt⟩
            · simp at hj
            · have hsub : kept.length + (j0 :: jt).length - (j0 :: jt).length
                  = kept.length := by omega
              rw [hsub, set_set_mid]
              obtain ⟨J, hJ1, hJ2⟩ := ih rest (kept ++ [it])
                (jt ++ [⟨it.cell, none⟩]) false trace
                (by simpa using hfuel) htl
                (fun _ x hx => le_trans hstart (hhd x hx))
              refine ⟨J, ?_, ?_⟩
              · have hidx : (kept ++ [it]).length
                    + (jt ++ [⟨it.cell, none⟩] : List Item).length
                    = kept.length + (j0 :: jt).length + 1 := by
                  simp only [List.length_append, List.length_cons,
                    List.length_nil]
                  try omega
                have hdel : (jt ++ [⟨it.cell, none⟩] : List Item).length
                    = (j0 :: jt).length := by
                  simp only [List.length_append, List.length_cons,
                    List.length_nil]
                rw [hidx, hdel] at hJ1
                rw [hJ1]
                simp [rdGen_false, List.append_assoc]
              · rw [hJ2]
                simp [rdGen_false]
        | true =>
          simp only [if_pos rfl, if_true]
          by_cases hend : endc < it.cell
          · -- past the window: stop, keeping the item
            rw [if_pos hend]
            have hg : rdGen start endc iter (it :: rest) true
                = (it :: rest, 0, false, []) := by
              simp [rdGen, hclt, hend, rdGen_false]
            rw [hg]
            simp only [Bool.false_eq_true, if_false, if_true]
            rcases Nat.eq_zero_or_pos junk.length with hj | hj
            · have hjunk : junk = [] := List.eq_nil_of_length_eq_zero hj
              subst hjunk
              rw [if_neg (by simp)]
              exact ⟨[], by simp, by simp⟩
            · rw [if_pos hj]
              rcases junk with _ | ⟨j0, jt⟩
              · simp at hj
              · have hsub : kept.length + (j0 :: jt).length
                    - (j0 :: jt).length = kept.length := by omega
                rw [hsub, set_set_mid]
                obtain ⟨J, hJ1, hJ2⟩ := ih rest (kept ++ [it])
                  (jt ++ [⟨it.cell, none⟩]) false trace
                  (by simpa using hfuel) htl
                  (fun _ x hx => le_trans hstart (hhd x hx))
                refine ⟨J, ?_, ?_⟩
                · have hidx : (kept ++ [it]).length
                      + (jt ++ [⟨it.cell, none⟩] : List Item).length
                      = kept.length + (j0 :: jt).length + 1 := by
                    simp only [List.length_append, List.length_cons,
                      List.length_nil]
                    try omega
                  have hdel : (jt ++ [⟨it.cell, none⟩] : List Item).length
                      = (j0 :: jt).length := by
                    simp only [List.length_append, List.length_cons,
                      List.length_nil]
                  rw [hidx, hdel] at hJ1
                  rw [hJ1]
                  simp [rdGen_false, List.append_assoc]
                · rw [hJ2]
                  simp [rdGen_false]
          · rw [if_neg hend]
            cases iter with
            | none =>
              -- nil callback: unconditional delete
              simp only [if_pos rfl, if_true]
              obtain ⟨J, hJ1, hJ2⟩ := ih rest kept (junk ++ [it]) true trace
                (by simpa using hfuel) htl
                (fun _ x hx => le_trans hstart (hhd x hx))
              refine ⟨J, ?_, ?_⟩
              · have harr : kept ++ (junk ++ [it]) ++ rest
                    = kept ++ junk ++ it :: rest := by simp
                have hidx : kept.length + (junk ++ [it] : List Item).length
                    = kept.length + junk.length + 1 := by
                  simp only [List.length_append, List.length_cons,
                    List.length_nil]
                  try omega
                have hdel : (junk ++ [it] : List Item).length
                    = junk.length + 1 := by
                  simp only [List.length_append, List.length_cons,
                    List.length_nil]
                rw [harr, hidx, hdel] at hJ1
                rw [hJ1]
                have hga : (rdGen start endc none (it :: rest) true).1
                    = (rdGen start endc none rest true).1 := by
                  simp [rdGen, hclt, hend]
                have hgd : (rdGen start endc none (it :: rest) true).2.1
                    = (rdGen start endc none rest true).2.1 + 1 := by
                  simp [rdGen, hclt, hend]
                have hgo : (rdGen start endc none (it :: rest) true).2.2.1
                    = (rdGen start endc none rest true).2.2.1 := by
                  simp [rdGen, hclt, hend]
                have hgt : (rdGen start endc none (it :: rest) true).2.2.2
                    = (rdGen start endc none rest true).2.2.2 := by
                  simp [rdGen, hclt, hend]
                rw [hga, hgd, hgo, hgt, RdLeafRes.mk.injEq]
                exact ⟨rfl, by omega, rfl, rfl⟩
              · rw [hJ2]
                have hgd : (rdGen start endc none (it :: rest) true).2.1
                    = (rdGen start endc none rest true).2.1 + 1 := by
                  simp [rdGen, hclt, hend]
                rw [hgd]
                simp only [List.length_append, List.length_cons,
                  List.length_nil]
                omega
            | some f =>
              rcases hq : f it.cell it.data with ⟨q1, q2⟩
              simp only [hq]
              cases q1 with
              | true =>
                -- delete requested (honoured even when q2 stops the run)
                simp only [if_pos rfl, if_true]
                obtain ⟨J, hJ1, hJ2⟩ := ih rest kept (junk ++ [it]) q2
                  (trace ++ [(it.cell, it.data)])
                  (by simpa using hfuel) htl
                  (fun _ x hx => le_trans hstart (hhd x hx))
                refine ⟨J, ?_, ?_⟩
                · have harr : kept ++ (junk ++ [it]) ++ rest
                      = kept ++ junk ++ it :: rest := by simp
                  have hidx : kept.length + (junk ++ [it] : List Item).length
                      = kept.length + junk.length + 1 := by
                    simp only [List.length_append, List.length_cons,
                      List.length_nil]
                    try omega
                  have hdel : (junk ++ [it] : List Item).length
                      = junk.length + 1 := by
                    simp only [List.length_append, List.length_cons,
                      List.length_nil]
                  rw [harr, hidx, hdel] at hJ1
                  rw [hJ1]
                  have hga : (rdGen start endc (some f) (it :: rest) true).1
                      = (rdGen start endc (some f) rest q2).1 := by
                    simp [rdGen, hclt, hend, hq]
                  have hgd : (rdGen start endc (some f) (it :: rest) true).2.1
                      = (rdGen start endc (some f) rest q2).2.1 + 1 := by
                    simp [rdGen, hclt, hend, hq]
                  have hgo :
                      (rdGen start endc (some f) (it :: rest) true).2.2.1
                      = (rdGen start endc (some f) rest q2).2.2.1 := by
                    simp [rdGen, hclt, hend, hq]
                  have hgt :
                      (rdGen start endc (some f) (it :: rest) true).2.2.2
                      = (it.cell, it.data)
                        :: (rdGen start endc (some f) rest q2).2.2.2 := by
                    simp [rdGen, hclt, hend, hq]
                  rw [hga, hgd, hgo, hgt, RdLeafRes.mk.injEq]
                  exact ⟨rfl, by omega, rfl, by simp⟩
                · rw [hJ2]
                  have hgd : (rdGen start endc (some f) (it :: rest) true).2.1
                      = (rdGen start endc (some f) rest q2).2.1 + 1 := by
                    simp [rdGen, hclt, hend, hq]
                  rw [hgd]
                  simp only [List.length_append, List.length_cons,
                    List.length_nil]
                  omega
              | false =>
                simp only [Bool.false_eq_true, if_false, if_true]
                rcases Nat.eq_zero_or_pos junk.length with hj | hj
                · have hjunk : junk = [] := List.eq_nil_of_length_eq_zero hj
                  subst hjunk
                  rw [if_neg (by simp)]
                  cases q2 with
                  | false =>
                    rw [if_pos rfl]
                    exact ⟨[], by simp [rdGen, hclt, hend, hq, rdGen_false],
                      by simp [rdGen, hclt, hend, hq, rdGen_false]⟩
                  | true =>
                    rw [if_neg (by simp)]
                    obtain ⟨J, hJ1, hJ2⟩ := ih rest (kept ++ [it]) [] true
                      (trace ++ [(it.cell, it.data)])
                      (by simpa using hfuel) htl (by simp)
                    refine ⟨J, ?_, ?_⟩
                    · have harr : (kept ++ [it]) ++ ([] : List Item) ++ rest
                          = kept ++ ([] : List Item) ++ it :: rest := by simp
                      have hidx : (kept ++ [it]).length
                          + ([] : List Item).length
                          = kept.length + ([] : List Item).length + 1 := by
                        simp only [List.length_append, List.length_cons,
                          List.length_nil]
                        try omega
                      rw [harr, hidx] at hJ1
                      rw [hJ1]
                      simp [rdGen, hclt, hend, hq, List.append_assoc]
                    · rw [hJ2]
                      simp [rdGen, hclt, hend, hq]
                · rw [if_pos hj]
                  rcases junk with _ | ⟨j0, jt⟩
                  · simp at hj
                  · have hsub : kept.length + (j0 :: jt).length
                        - (j0 :: jt).length = kept.length := by omega
                    rw [hsub, set_set_mid]
                    obtain ⟨J, hJ1, hJ2⟩ := ih rest (kept ++ [it])
                      (jt ++ [⟨it.cell, none⟩]) q2
                      (trace ++ [(it.cell, it.data)])
                      (by simpa using hfuel) htl
                      (fun _ x hx => le_trans hstart (hhd x hx))
                    refine ⟨J, ?_, ?_⟩
                    · have hidx : (kept ++ [it]).length
                          + (jt ++ [⟨it.cell, none⟩] : List Item).length
                          = kept.length + (j0 :: jt).length + 1 := by
                        simp only [List.length_append, List.length_cons,
                          List.length_nil]
                        try omega
                      have hdel : (jt ++ [⟨it.cell, none⟩] : List Item).length
                          = (j0 :: jt).length := by
                        simp only [List.length_append, List.length_cons,
                          List.length_nil]
                      rw [hidx, hdel] at hJ1
                      rw [hJ1]
                      simp [rdGen, hclt, hend, hq, List.append_assoc]
                    · rw [hJ2]
                      have hgd :
                          (rdGen start endc (some f) (it :: rest) true).2.1
                          = (rdGen start endc (some f) rest q2).2.1 := by
                        simp [rdGen, hclt, hend, hq]
                      rw [hgd]
                      simp only [List.length_append, List.length_cons,
                        List.length_nil]
                      try omega

/-- The kept items of the range-delete model form a sublist of the run
(so sortedness and block membership carry over). -/
theorem rdGen_sublist (start endc : Nat) (iter : Option Iter2) :
    ∀ (l : List Item) (ok : Bool),
      (rdGen start endc iter l ok).1.Sublist l := by
  intro l
  induction l with
  | nil => intro ok; simp [rdGen]
  | cons it rest ih =>
    intro ok
    by_cases hclt : it.cell < start
    · simpa [rdGen, hclt] using (ih ok).cons₂ it
    · cases ok with
      | false => simpa [rdGen, hclt] using (ih false).cons₂ it
      | true =>
        by_cases hend : endc < it.cell
        · simpa [rdGen, hclt, hend] using (ih false).cons₂ it
        · cases iter with
          | none =>
            simpa [rdGen, hclt, hend] using (ih true).trans
              (List.sublist_cons_self it rest)
          | some f =>
            rcases hq : f it.cell it.data with ⟨q1, q2⟩
            cases q1 with
            | true =>
              simpa [rdGen, hclt, hend, hq] using (ih q2).trans
                (List.sublist_cons_self it rest)
            | false => simpa [rdGen, hclt, hend, hq] using (ih q2).cons₂ it

/-- Kept plus deleted accounts for every processed item. -/
theorem rdGen_shape (start endc : Nat) (iter : Option Iter2) :
    ∀ (l : List Item) (ok : Bool),
      (rdGen start endc iter l ok).1.length
        + (rdGen start endc iter l ok).2.1 = l.length := by
  intro l
  induction l with
  | nil => intro ok; simp [rdGen]
  | cons it rest ih =>
    intro ok
    by_cases hclt : it.cell < start
    · have := ih ok; simp [rdGen, hclt]; omega
    · cases ok with
      | false => have := ih false; simp [rdGen, hclt]; omega
      | true =>
        by_cases hend : endc < it.cell
        · have := ih false; simp [rdGen, hclt, hend]; omega
        · cases iter with
          | none => have := ih true; simp [rdGen, hclt, hend]; omega
          | some f =>
            rcases hq : f it.cell it.data with ⟨q1, q2⟩
            have := ih q2
            cases q1 with
            | true => simp [rdGen, hclt, hend, hq]; omega
            | false => simp [rdGen, hclt, hend, hq]; omega

/-- `rdLeafLoop` as called by `nodeRangeDelete` (index, deleted and trace
all start at zero, `ok` starts true). -/
theorem rdLeafLoop_run (start endc : Nat) (iter : Option Iter2)
    (items : List Item) (hs : cellsSorted items = true) :
    ∃ J : List Item,
      rdLeafLoop start endc iter items.length items 0 0 true []
        = ⟨(rdGen start endc iter items true).1 ++ J,
           (rdGen start endc iter items true).2.1,
           (rdGen start endc iter items true).2.2.1,
           (rdGen start endc iter items true).2.2.2⟩ ∧
      J.length = (rdGen start endc iter items true).2.1 := by
  obtain ⟨J, h1, h2⟩ := rdLeafLoop_model start endc iter items.length items
    [] [] true [] (le_refl _) ((cellsSorted_iff items).1 hs) (by simp)
  refine ⟨J, ?_, by simpa using h2⟩
  simpa using h1

/-- A fresh empty node is well-formed at every position. -/
theorem zeroNode_wf (bits base : Nat) :
    nodeWF zeroNode bits base = true := by
  simp [zeroNode, nodeWF, cellsSorted, coveredBy]

/-- `nodeRangeDelete` preserves well-formedness and accounts for every
deletion it reports, whatever window, callback and call position are used:
the node keeps a sorted, covered item sequence whose length shrank by
exactly the reported `deleted`. -/
theorem nodeRangeDelete_wf (start endc : Nat) (iter : Option Iter2) :
    (∀ n : Node, ∀ cbits cbase : Nat, ∀ hit : Bool, ∀ bits base : Nat,
      nodeWF n bits base = true →
      nodeWF (n.nodeRangeDelete start endc cbits cbase hit iter).node
          bits base = true ∧
      (n.nodeRangeDelete start endc cbits cbase hit iter).node.contents.length
        + (n.nodeRangeDelete start endc cbits cbase hit iter).deleted
        = n.contents.length) ∧
    (∀ l : List Node, ∀ cbits cbase skip index : Nat, ∀ hit : Bool,
      ∀ deleted : Nat, ∀ ok : Bool, ∀ trace : List (Nat × Data),
      ∀ bits b : Nat,
      childrenWF l bits b = true →
      ∃ dd : Nat,
        (rdChildren start endc cbits cbase iter skip index hit deleted ok
          trace l).deleted = deleted + dd ∧
        (rdChildren start endc cbits cbase iter skip index hit deleted ok
          trace l).nodes.length = l.length ∧
        childrenWF (rdChildren start endc cbits cbase iter skip index hit
          deleted ok trace l).nodes bits b = true ∧
        (contentsL (rdChildren start endc cbits cbase iter skip index hit
          deleted ok trace l).nodes).length + dd = (contentsL l).length) := by
  apply node_mutual_ind
    (fun n => ∀ cbits cbase : Nat, ∀ hit : Bool, ∀ bits base : Nat,
      nodeWF n bits base = true →
      nodeWF (n.nodeRangeDelete start endc cbits cbase hit iter).node
          bits base = true ∧
      (n.nodeRangeDelete start endc cbits cbase hit iter).node.contents.length
        + (n.nodeRangeDelete start endc cbits cbase hit iter).deleted
        = n.contents.length)
    (fun l => ∀ cbits cbase skip index : Nat, ∀ hit : Bool,
      ∀ deleted : Nat, ∀ ok : Bool, ∀ trace : List (Nat × Data),
      ∀ bits b : Nat,
      childrenWF l bits b = true →
      ∃ dd : Nat,
        (rdChildren start endc cbits cbase iter skip index hit deleted ok
          trace l).deleted = deleted + dd ∧
        (rdChildren start endc cbits cbase iter skip index hit deleted ok
          trace l).nodes.length = l.length ∧
        childrenWF (rdChildren start endc cbits cbase iter skip index hit
          deleted ok trace l).nodes bits b = true ∧
        (contentsL (rdChildren start endc cbits cbase iter skip index hit
          deleted ok trace l).nodes).length + dd = (contentsL l).length)
  · intro b its nds cnt hQ cbits cbase hit bits base hwf
    cases b with
    | false =>
      have hwf2 := hwf
      simp only [nodeWF, Bool.and_eq_true, beq_iff_eq] at hwf2
      obtain ⟨⟨hcnt, hs⟩, hcov⟩ := hwf2
      simp only [Node.nodeRangeDelete, Node.contents]
      by_cases hfast : rdFast start endc iter its = true
      · rw [if_pos hfast]
        by_cases hpos : 0 < its.length
        · rw [if_pos hpos]
          constructor
          · simp only [nodeWF, Bool.and_eq_true, beq_iff_eq]
            refine ⟨⟨?_, by simp [cellsSorted]⟩, by simp [coveredBy]⟩
            simp only [List.length_take]
            rw [hcnt]
            simp
          · simp only [Node.contents, List.length_take]
            omega
        · rw [if_neg hpos]
          have hnil : its = [] := List.eq_nil_of_length_eq_zero (by omega)
          subst hnil
          exact ⟨hwf, by simp [Node.contents]⟩
      · rw [if_neg hfast]
        obtain ⟨J, hJ1, hJ2⟩ := rdLeafLoop_run start endc iter its hs
        rw [hJ1]
        have hshape := rdGen_shape start endc iter its true
        have hsub := rdGen_sublist start endc iter its true
        have hsort : cellsSorted (rdGen start endc iter its true).1 = true :=
          (cellsSorted_iff _).2
            (((cellsSorted_iff its).1 hs).sublist hsub)
        have hcov2 : coveredBy bits base
            (rdGen start endc iter its true).1 = true :=
          (coveredBy_iff _ _ _).2 fun it hit2 =>
            (coveredBy_iff _ _ _).1 hcov it (hsub.subset hit2)
        by_cases hpos : 0 < (rdGen start endc iter its true).2.1
        · rw [if_pos hpos]
          have htake : ((rdGen start endc iter its true).1 ++ J).take
              (((rdGen start endc iter its true).1 ++ J).length
                - (rdGen start endc iter its true).2.1)
              = (rdGen start endc iter its true).1 := by
            have hl : ((rdGen start endc iter its true).1 ++ J).length
                - (rdGen start endc iter its true).2.1
                = (rdGen start endc iter its true).1.length := by
              simp only [List.length_append]
              omega
            rw [hl]
            exact List.take_left _ _
          rw [htake]
          constructor
          · simp only [nodeWF, Bool.and_eq_true, beq_iff_eq]
            refine ⟨⟨?_, hsort⟩, hcov2⟩
            rw [hcnt]
            omega
          · simp only [Node.contents]
            omega
        · rw [if_neg hpos]
          have hJnil : J = [] :=
            List.eq_nil_of_length_eq_zero (by omega)
          subst hJnil
          constructor
          · simp only [nodeWF, Bool.and_eq_true, beq_iff_eq, List.append_nil]
            refine ⟨⟨?_, hsort⟩, hcov2⟩
            rw [hcnt]
            omega
          · simp only [Node.contents, List.append_nil]
            omega
    | true =>
      have hwf2 := hwf
      simp only [nodeWF, Bool.and_eq_true, beq_iff_eq,
        decide_eq_true_eq] at hwf2
      obtain ⟨⟨⟨hbits, hlen⟩, hcnt⟩, hch⟩ := hwf2
      simp only [Node.nodeRangeDelete, Node.contents]
      obtain ⟨dd, hdd, hdlen, hdwf, hdcnt⟩ := hQ cbits cbase
        (if hit then 0 else cellIndex start cbits) 0 hit 0 false []
        bits (base * numNodes) hch
      rw [hdd]
      by_cases hpos : 0 < 0 + dd
      · rw [if_pos hpos]
        have hn2 : nodeWF (Node.mk true its
            (rdChildren start endc cbits cbase iter
              (if hit then 0 else cellIndex start cbits) 0 hit 0 false []
              nds).nodes (cnt - ((0 + dd : Nat) : Int))) bits base = true := by
          simp only [nodeWF, Bool.and_eq_true, beq_iff_eq,
            decide_eq_true_eq]
          refine ⟨⟨⟨hbits, by rw [hdlen, hlen]⟩, ?_⟩, hdwf⟩
          rw [hcnt]
          omega
        by_cases hmin : cnt - ((0 + dd : Nat) : Int) ≤ (minItems : Int)
        · rw [if_pos hmin]
          obtain ⟨hcwf, hccont⟩ := compactBranch_wf _ bits base hn2
          refine ⟨hcwf, ?_⟩
          rw [hccont]
          simp only [Node.contents]
          omega
        · rw [if_neg hmin]
          refine ⟨hn2, ?_⟩
          simp only [Node.contents]
          omega
      · rw [if_neg hpos]
        have hdd0 : dd = 0 := by omega
        subst hdd0
        constructor
        · simp only [nodeWF, Bool.and_eq_true, beq_iff_eq,
            decide_eq_true_eq]
          refine ⟨⟨⟨hbits, by rw [hdlen, hlen]⟩, ?_⟩, hdwf⟩
          rw [hcnt]
          omega
        · simp only [Node.contents]
          omega
  · intro cbits cbase skip index hit deleted ok trace bits b _
    refine ⟨0, ?_, ?_, ?_, ?_⟩ <;> simp [rdChildren, childrenWF, contentsL]
  · intro c rest hP hQ cbits cbase skip index hit deleted ok trace bits b hwf
    simp only [childrenWF, Bool.and_eq_true] at hwf
    obtain ⟨hcwf, hrwf⟩ := hwf
    cases skip with
    | succ skip =>
      simp only [rdChildren]
      obtain ⟨dd, hdd, hlen, hwf2, hcnt⟩ := hQ cbits cbase skip (index + 1)
        hit deleted ok trace bits (b + 1) hrwf
      refine ⟨dd, hdd, by simp [hlen], ?_, ?_⟩
      · simp only [childrenWF, Bool.and_eq_true]
        exact ⟨hcwf, hwf2⟩
      · simp only [contentsL, List.length_append]
        omega
    | zero =>
      simp only [rdChildren]
      by_cases hzero : c.count == 0
      · rw [if_pos hzero]
        obtain ⟨dd, hdd, hlen, hwf2, hcnt⟩ := hQ cbits cbase 0 (index + 1)
          true deleted ok trace bits (b + 1) hrwf
        refine ⟨dd, hdd, by simp [hlen], ?_, ?_⟩
        · simp only [childrenWF, Bool.and_eq_true]
          exact ⟨hcwf, hwf2⟩
        · simp only [contentsL, List.length_append]
          omega
      · rw [if_neg hzero]
        by_cases hdrop : (hit && iter.isNone
            && decide (start ≤ cellStartCode cbase index cbits)
            && decide (cellEndCode cbase index cbits ≤ endc)) = true
        · rw [if_pos hdrop]
          obtain ⟨dd, hdd, hlen, hwf2, hcnt⟩ := hQ cbits cbase 0 (index + 1)
            hit (deleted + c.count.toNat) ok trace bits (b + 1) hrwf
          have hccount : c.count = (c.contents.length : Int) :=
            (wf_contents_and_count.1 c _ _ hcwf).2.2
          refine ⟨c.contents.length + dd, ?_, by simp [hlen], ?_, ?_⟩
          · rw [hdd, hccount]
            simp only [Int.toNat_natCast]
            omega
          · simp only [childrenWF, Bool.and_eq_true]
            exact ⟨zeroNode_wf _ _, hwf2⟩
          · simp only [contentsL, List.length_append, zeroNode,
              Node.contents, List.length_nil]
            omega
        · rw [if_neg hdrop]
          obtain ⟨hqwf, hqlen⟩ := hP (cbits - numBits)
            (((cbase <<< numBits) + index) % w64) hit (bits - numBits) b hcwf
          by_cases hok : (c.nodeRangeDelete start endc (cbits - numBits)
              (((cbase <<< numBits) + index) % w64) hit iter).ok = true
          · rw [if_pos hok]
            obtain ⟨dd, hdd, hlen, hwf2, hcnt⟩ := hQ cbits cbase 0 (index + 1)
              (c.nodeRangeDelete start endc (cbits - numBits)
                (((cbase <<< numBits) + index) % w64) hit iter).hit
              (deleted + (c.nodeRangeDelete start endc (cbits - numBits)
                (((cbase <<< numBits) + index) % w64) hit iter).deleted)
              (c.nodeRangeDelete start endc (cbits - numBits)
                (((cbase <<< numBits) + index) % w64) hit iter).ok
              (trace ++ (c.nodeRangeDelete start endc (cbits - numBits)
                (((cbase <<< numBits) + index) % w64) hit iter).trace)
              bits (b + 1) hrwf
            refine ⟨(c.nodeRangeDelete start endc (cbits - numBits)
                (((cbase <<< numBits) + index) % w64) hit iter).deleted + dd,
              ?_, by simp [hlen], ?_, ?_⟩
            · rw [hdd]
              omega
            · simp only [childrenWF, Bool.and_eq_true]
              exact ⟨hqwf, hwf2⟩
            · simp only [contentsL, List.length_append]
              omega
          · rw [if_neg hok]
            refine ⟨(c.nodeRangeDelete start endc (cbits - numBits)
                (((cbase <<< numBits) + index) % w64) hit iter).deleted,
              rfl, by simp, ?_, ?_⟩
            · simp only [childrenWF, Bool.and_eq_true]
              exact ⟨hqwf, hrwf⟩
            · simp only [contentsL, List.length_append]
              omega

/-- `RangeDelete` preserves tree well-formedness, for every window and
every callback (nil included). -/
theorem rangeDelete_wf (start endc : Nat) (iter : Option Iter2) (tr : Tree)
    (hwf : treeWF tr = true) :
    treeWF (tr.RangeDelete start endc iter).1 = true := by
  rcases tr with ⟨cnt, root⟩
  cases root with
  | none => simpa [Tree.RangeDelete] using hwf
  | some root =>
    simp only [treeWF, Bool.and_eq_true, beq_iff_eq] at hwf
    obtain ⟨hrwf, hcnt⟩ := hwf
    obtain ⟨hnwf, hnlen⟩ := (nodeRangeDelete_wf start endc iter).1 root
      (64 - numBits) 0 false (64 - numBits) 0 hrwf
    simp only [Tree.RangeDelete, treeWF, Bool.and_eq_true, beq_iff_eq]
    refine ⟨hnwf, ?_⟩
    have h1 : root.count = (root.contents.length : Int) :=
      (wf_contents_and_count.1 root _ _ hrwf).2.2
    have h2 := (wf_contents_and_count.1 _ _ _ hnwf).2.2
    rw [hcnt, h1, h2]
    omega

/-- Consistent cached counts follow from well-formedness. -/
theorem treeWF_countOk (tr : Tree) (h : treeWF tr = true) :
    treeCountOk tr = true := by
  rcases tr with ⟨cnt, root⟩
  cases root with
  | none => simpa [treeWF, treeCountOk] using h
  | some root =>
    simp only [treeWF, Bool.and_eq_true, beq_iff_eq] at h
    simp only [treeCountOk, Bool.and_eq_true, beq_iff_eq]
    exact ⟨wf_countOk.1 root _ _ h.1, h.2⟩

/-- Every public mutating operation preserves tree well-formedness (cells
handed to point operations fit in a `uint64`, as Go's types force). -/
theorem applyOp_wf (tr : Tree) (op : Op) (hwf : treeWF tr = true)
    (hv : opValid op = true) : treeWF (applyOp tr op) = true := by
  cases op with
  | insert c d =>
    simp only [opValid, decide_eq_true_eq] at hv
    exact (insertOrReplace_spec c d none tr hwf hv).1
  | insertOrReplace c d f =>
    simp only [opValid, decide_eq_true_eq] at hv
    exact (insertOrReplace_spec c d f tr hwf hv).1
  | delete c d =>
    simp only [opValid, decide_eq_true_eq] at hv
    exact (delete_spec c d tr hwf hv).1
  | deleteWhen c f =>
    simp only [opValid, decide_eq_true_eq] at hv
    exact (deleteWhen_spec c f tr hwf hv).1
  | rangeDelete s e it => exact rangeDelete_wf s e it tr hwf

/-- C7: after any sequence of valid public operations starting from the
empty tree, every node's cached count equals the number of items beneath
it, and the tree count matches the root count (0 when the root is
absent). -/
theorem c7_count_consistency (ops : List Op)
    (hv : ops.all opValid = true) :
    treeCountOk (applyOps ops) = true := by
  have key : ∀ (l : List Op) (tr : Tree), treeWF tr = true →
      l.all opValid = true → treeWF (l.foldl applyOp tr) = true := by
    intro l
    induction l with
    | nil => intro tr h _; simpa using h
    | cons op rest ih =>
      intro tr h hv2
      simp only [List.all_cons, Bool.and_eq_true] at hv2
      exact ih (applyOp tr op) (applyOp_wf tr op h hv2.1) hv2.2
  exact treeWF_countOk _ (key ops emptyTree (by decide) hv)

/-- C7 at a concrete operation sequence exercising all five operations. -/
theorem c7_count_consistency_witness :
    ([Op.insert 5 none, Op.insert 3 (some 1), Op.insert 5 (some 2),
      Op.insertOrReplace 5 (some 3) (some fun d => (d, d == some 2)),
      Op.deleteWhen 3 (some fun d => d == some 1),
      Op.rangeDelete 4 6 (some fun _ d => (d == some 3, true)),
      Op.delete 5 none].all opValid = true) ∧
    treeCountOk (applyOps
      [Op.insert 5 none, Op.insert 3 (some 1), Op.insert 5 (some 2),
       Op.insertOrReplace 5 (some 3) (some fun d => (d, d == some 2)),
       Op.deleteWhen 3 (some fun d => d == some 1),
       Op.rangeDelete 4 6 (some fun _ d => (d == some 3, true)),
       Op.delete 5 none]) = true :=
  ⟨by decide, c7_count_consistency _ (by decide)⟩

/-- With the stop flag down, the range-delete model keeps everything. -/
theorem rdModel_false (start endc : Nat) (f : Iter2) :
    ∀ l : List Item, rdModel start endc f l false = (l, 0, false, []) := by
  intro l
  induction l with
  | nil => rfl
  | cons it rest ih =>
    by_cases hclt : it.cell < start <;>
      simp [rdModel, hclt, ih]

/-- On a callback, the generic range-delete model is `rdModel`. -/
theorem rdGen_some (start endc : Nat) (f : Iter2) :
    ∀ (l : List Item) (ok : Bool),
      rdGen start endc (some f) l ok = rdModel start endc f l ok := by
  intro l
  induction l with
  | nil => intro ok; rfl
  | cons it rest ih =>
    intro ok
    by_cases hclt : it.cell < start
    · simp [rdGen, rdModel, hclt, ih]
    · cases ok with
      | false => simp [rdGen, rdModel, hclt, ih]
      | true =>
        by_cases hend : endc < it.cell
        · simp [rdGen, rdModel, hclt, hend, ih]
        · rcases hq : f it.cell it.data with ⟨q1, q2⟩
          cases q1 <;> simp [rdGen, rdModel, hclt, hend, hq, ih]

/-- The range-delete model composes over concatenation, threading the
stop flag. -/
theorem rdModel_append (start endc : Nat) (f : Iter2) :
    ∀ (l1 l2 : List Item) (ok : Bool),
      rdModel start endc f (l1 ++ l2) ok
        = ((rdModel start endc f l1 ok).1
            ++ (rdModel start endc f l2
                (rdModel start endc f l1 ok).2.2.1).1,
           (rdModel start endc f l1 ok).2.1
            + (rdModel start endc f l2
                (rdModel start endc f l1 ok).2.2.1).2.1,
           (rdModel start endc f l2
                (rdModel start endc f l1 ok).2.2.1).2.2.1,
           (rdModel start endc f l1 ok).2.2.2
            ++ (rdModel start endc f l2
                (rdModel start endc f l1 ok).2.2.1).2.2.2) := by
  intro l1
  induction l1 with
  | nil => intro l2 ok; simp [rdModel]
  | cons it rest ih =>
    intro l2 ok
    by_cases hclt : it.cell < start
    · simp [rdModel, hclt, ih]
    · cases ok with
      | false => simp [rdModel, hclt, ih]
      | true =>
        by_cases hend : endc < it.cell
        · simp [rdModel, hclt, hend, ih]
        · rcases hq : f it.cell it.data with ⟨q1, q2⟩
          cases q1 with
          | true =>
            simp [rdModel, hclt, hend, hq, ih]
            omega
          | false => simp [rdModel, hclt, hend, hq, ih]

/-- With a (non-nil) callback, `rdFast` never fires. -/
theorem rdFast_some (start endc : Nat) (f : Iter2) (items : List Item) :
    rdFast start endc (some f) items = false := by
  simp [rdFast]

/-- Items strictly below `start` are kept by the model without being
visited and without touching the stop flag. -/
theorem rdModel_lt_start (start endc : Nat) (f : Iter2) :
    ∀ (l : List Item), (∀ it ∈ l, it.cell < start) →
      ∀ ok : Bool, rdModel start endc f l ok = (l, 0, ok, []) := by
  intro l
  induction l with
  | nil => intro _ ok; rfl
  | cons it rest ih =>
    intro h ok
    have hlt : it.cell < start := h it (by simp)
    simp [rdModel, hlt, ih (fun x hx => h x (by simp [hx])) ok]

/-- `nodeRangeDelete` with a callback on a well-formed node (sitting, when
no leaf was reached yet, on the seek path of `start`): either the call
agrees with the sequential model `rdModel` on contents, deleted count and
invocation trace (the reported stop flag agreeing whenever the subtree is
non-empty), or — possible only while `hit` is still false, i.e. before
any leaf and hence before any invocation — the call is a no-op that
reports `ok = false` from the zero value of the named return: contents
untouched, nothing deleted, nothing invoked.  The hit flag always comes
back true. -/
theorem nodeRangeDelete_model (start endc : Nat) (f : Iter2) :
    (∀ n : Node, ∀ bits base cb : Nat, ∀ hit : Bool,
      nodeWF n bits base = true →
      (hit = false → start >>> (bits + numBits) = base) →
      (n.nodeRangeDelete start endc bits cb hit (some f)).hit = true ∧
      (((n.nodeRangeDelete start endc bits cb hit (some f)).node.contents
          = (rdModel start endc f n.contents true).1 ∧
        (n.nodeRangeDelete start endc bits cb hit (some f)).deleted
          = (rdModel start endc f n.contents true).2.1 ∧
        (n.nodeRangeDelete start endc bits cb hit (some f)).trace
          = (rdModel start endc f n.contents true).2.2.2 ∧
        (n.contents ≠ [] →
          (n.nodeRangeDelete start endc bits cb hit (some f)).ok
            = (rdModel start endc f n.contents true).2.2.1))
       ∨ (hit = false ∧
        (n.nodeRangeDelete start endc bits cb hit (some f)).node.contents
          = n.contents ∧
        (n.nodeRangeDelete start endc bits cb hit (some f)).deleted = 0 ∧
        (n.nodeRangeDelete start endc bits cb hit (some f)).trace = [] ∧
        (n.nodeRangeDelete start endc bits cb hit (some f)).ok
          = false))) ∧
    (∀ l : List Node, ∀ cbits b cb skip index : Nat, ∀ hit ok : Bool,
      ∀ deleted : Nat, ∀ trace : List (Nat × Data),
      childrenWF l cbits b = true →
      numBits ≤ cbits →
      (if hit then skip = 0 else start >>> cbits = b + skip) →
      ((hit = true →
        (rdChildren start endc cbits cb (some f) skip index hit
          deleted ok trace l).hit = true) ∧
       (skip < l.length →
        (rdChildren start endc cbits cb (some f) skip index hit
          deleted ok trace l).hit = true)) ∧
      ((contentsL (rdChildren start endc cbits cb (some f) skip index hit
          deleted ok trace l).nodes
          = (rdModel start endc f (contentsL l) true).1 ∧
        (rdChildren start endc cbits cb (some f) skip index hit
          deleted ok trace l).deleted
          = deleted + (rdModel start endc f (contentsL l) true).2.1 ∧
        (rdChildren start endc cbits cb (some f) skip index hit
          deleted ok trace l).trace
          = trace ++ (rdModel start endc f (contentsL l) true).2.2.2 ∧
        (contentsL l ≠ [] →
          (rdChildren start endc cbits cb (some f) skip index hit
            deleted ok trace l).ok
            = (rdModel start endc f (contentsL l) true).2.2.1) ∧
        (contentsL l = [] →
          (rdChildren start endc cbits cb (some f) skip index hit
            deleted ok trace l).ok = ok))
       ∨ (hit = false ∧
        contentsL (rdChildren start endc cbits cb (some f) skip index hit
          deleted ok trace l).nodes = contentsL l ∧
        (rdChildren start endc cbits cb (some f) skip index hit
          deleted ok trace l).deleted = deleted ∧
        (rdChildren start endc cbits cb (some f) skip index hit
          deleted ok trace l).trace = trace ∧
        ((rdChildren start endc cbits cb (some f) skip index hit
          deleted ok trace l).ok = ok ∨
         (rdChildren start endc cbits cb (some f) skip index hit
          deleted ok trace l).ok = false)))) := by
  apply node_mutual_ind
    (fun n => ∀ bits base cb : Nat, ∀ hit : Bool,
      nodeWF n bits base = true →
      (hit = false → start >>> (bits + numBits) = base) →
      (n.nodeRangeDelete start endc bits cb hit (some f)).hit = true ∧
      (((n.nodeRangeDelete start endc bits cb hit (some f)).node.contents
          = (rdModel start endc f n.contents true).1 ∧
        (n.nodeRangeDelete start endc bits cb hit (some f)).deleted
          = (rdModel start endc f n.contents true).2.1 ∧
        (n.nodeRangeDelete start endc bits cb hit (some f)).trace
          = (rdModel start endc f n.contents true).2.2.2 ∧
        (n.contents ≠ [] →
          (n.nodeRangeDelete start endc bits cb hit (some f)).ok
            = (rdModel start endc f n.contents true).2.2.1))
       ∨ (hit = false ∧
        (n.nodeRangeDelete start endc bits cb hit (some f)).node.contents
          = n.contents ∧
        (n.nodeRangeDelete start endc bits cb hit (some f)).deleted = 0 ∧
        (n.nodeRangeDelete start endc bits cb hit (some f)).trace = [] ∧
        (n.nodeRangeDelete start endc bits cb hit (some f)).ok
          = false)))
    (fun l => ∀ cbits b cb skip index : Nat, ∀ hit ok : Bool,
      ∀ deleted : Nat, ∀ trace : List (Nat × Data),
      childrenWF l cbits b = true →
      numBits ≤ cbits →
      (if hit then skip = 0 else start >>> cbits = b + skip) →
      ((hit = true →
        (rdChildren start endc cbits cb (some f) skip index hit
          deleted ok trace l).hit = true) ∧
       (skip < l.length →
        (rdChildren start endc cbits cb (some f) skip index hit
          deleted ok trace l).hit = true)) ∧
      ((contentsL (rdChildren start endc cbits cb (some f) skip index hit
          deleted ok trace l).nodes
          = (rdModel start endc f (contentsL l) true).1 ∧
        (rdChildren start endc cbits cb (some f) skip index hit
          deleted ok trace l).deleted
          = deleted + (rdModel start endc f (contentsL l) true).2.1 ∧
        (rdChildren start endc cbits cb (some f) skip index hit
          deleted ok trace l).trace
          = trace ++ (rdModel start endc f (contentsL l) true).2.2.2 ∧
        (contentsL l ≠ [] →
          (rdChildren start endc cbits cb (some f) skip index hit
            deleted ok trace l).ok
            = (rdModel start endc f (contentsL l) true).2.2.1) ∧
        (contentsL l = [] →
          (rdChildren start endc cbits cb (some f) skip index hit
            deleted ok trace l).ok = ok))
       ∨ (hit = false ∧
        contentsL (rdChildren start endc cbits cb (some f) skip index hit
          deleted ok trace l).nodes = contentsL l ∧
        (rdChildren start endc cbits cb (some f) skip index hit
          deleted ok trace l).deleted = deleted ∧
        (rdChildren start endc cbits cb (some f) skip index hit
          deleted ok trace l).trace = trace ∧
        ((rdChildren start endc cbits cb (some f) skip index hit
          deleted ok trace l).ok = ok ∨
         (rdChildren start endc cbits cb (some f) skip index hit
          deleted ok trace l).ok = false))))
  · intro bb its nds cnt hQ bits base cb hit hwf hseek
    cases bb with
    | false =>
      have hwf2 := hwf
      simp only [nodeWF, Bool.and_eq_true, beq_iff_eq] at hwf2
      obtain ⟨⟨hcnt, hs⟩, hcov⟩ := hwf2
      simp only [Node.nodeRangeDelete, Node.contents]
      have hnf : ¬(rdFast start endc (some f) its = true) := by
        simp [rdFast_some]
      rw [if_neg hnf]
      obtain ⟨J, hJ1, hJ2⟩ := rdLeafLoop_run start endc (some f) its hs
      rw [hJ1]
      rw [rdGen_some] at hJ2
      simp only [rdGen_some]
      have hshape := rdGen_shape start endc (some f) its true
      rw [rdGen_some] at hshape
      try dsimp only
      by_cases hpos : 0 < (rdModel start endc f its true).2.1
      · rw [if_pos hpos]
        try dsimp only
        have htake : ((rdModel start endc f its true).1 ++ J).take
            (((rdModel start endc f its true).1 ++ J).length
              - (rdModel start endc f its true).2.1)
            = (rdModel start endc f its true).1 := by
          have hl : ((rdModel start endc f its true).1 ++ J).length
              - (rdModel start endc f its true).2.1
              = (rdModel start endc f its true).1.length := by
            simp only [List.length_append]
            omega
          rw [hl]
          exact List.take_left _ _
        rw [htake]
        exact ⟨rfl, Or.inl ⟨rfl, rfl, rfl, fun _ => rfl⟩⟩
      · rw [if_neg hpos]
        try dsimp only
        have hJnil : J = [] := List.eq_nil_of_length_eq_zero (by omega)
        subst hJnil
        exact ⟨rfl, Or.inl ⟨by simp [Node.contents], by omega, rfl,
          fun _ => rfl⟩⟩
    | true =>
      have hwf2 := hwf
      simp only [nodeWF, Bool.and_eq_true, beq_iff_eq,
        decide_eq_true_eq] at hwf2
      obtain ⟨⟨⟨hbits, hlen⟩, hcnt⟩, hch⟩ := hwf2
      simp only [Node.nodeRangeDelete, Node.contents]
      have hmode : if hit then (if hit then 0 else cellIndex start bits) = 0
          else start >>> bits
            = base * numNodes
              + (if hit then 0 else cellIndex start bits) := by
        cases hit with
        | true => simp
        | false =>
          simp only [Bool.false_eq_true, if_false]
          exact shiftRight_decompose start bits base (hseek rfl)
      obtain ⟨⟨hqh1, hqh2⟩, hqdich⟩ := hQ bits
        (base * numNodes) cb (if hit then 0 else cellIndex start bits) 0
        hit false 0 [] hch hbits hmode
      have hhit : (rdChildren start endc bits cb (some f)
          (if hit then 0 else cellIndex start bits) 0 hit 0 false []
          nds).hit = true := by
        apply hqh2
        rw [hlen]
        cases hit with
        | true => simp [numNodes]
        | false =>
          simp only [Bool.false_eq_true, if_false]
          exact Nat.mod_lt _ (by norm_num [numNodes])
      rcases hqdich with ⟨hqc, hqd, hqt, hqok, hqe⟩
        | ⟨hhitf, hqc, hqd, hqt, hqokd⟩
      · obtain ⟨dd, hdd, hdlen, hdwf, hdcnt⟩ :=
          (nodeRangeDelete_wf start endc (some f)).2 nds bits cb
          (if hit then 0 else cellIndex start bits) 0 hit 0 false []
          bits (base * numNodes) hch
        rw [hqd]
        try dsimp only
        by_cases hpos :
            0 < 0 + (rdModel start endc f (contentsL nds) true).2.1
        · rw [if_pos hpos]
          try dsimp only
          have hddm : dd
              = (rdModel start endc f (contentsL nds) true).2.1 := by
            omega
          have hn2 : nodeWF (Node.mk true its
              (rdChildren start endc bits cb (some f)
                (if hit then 0 else cellIndex start bits) 0 hit 0 false []
                nds).nodes
              (cnt - ((0 + (rdModel start endc f (contentsL nds) true).2.1 :
                Nat) : Int))) bits base = true := by
            simp only [nodeWF, Bool.and_eq_true, beq_iff_eq,
              decide_eq_true_eq]
            refine ⟨⟨⟨hbits, by rw [hdlen, hlen]⟩, ?_⟩, hdwf⟩
            have hlen2 : (contentsL (rdChildren start endc bits cb (some f)
                (if hit then 0 else cellIndex start bits) 0 hit 0 false []
                nds).nodes).length
                = (rdModel start endc f (contentsL nds) true).1.length := by
              rw [hqc]
            rw [hcnt]
            omega
          by_cases hmin : cnt - ((0 + (rdModel start endc f (contentsL nds)
              true).2.1 : Nat) : Int) ≤ (minItems : Int)
          · rw [if_pos hmin]
            try dsimp only
            obtain ⟨hcwf2, hccont⟩ := compactBranch_wf _ bits base hn2
            refine ⟨hhit, Or.inl ⟨?_, by omega, hqt, hqok⟩⟩
            rw [hccont]
            simpa only [Node.contents] using hqc
          · rw [if_neg hmin]
            try dsimp only
            exact ⟨hhit, Or.inl ⟨by simpa only [Node.contents] using hqc,
              by omega, hqt, hqok⟩⟩
        · rw [if_neg hpos]
          try dsimp only
          exact ⟨hhit, Or.inl ⟨by simpa only [Node.contents] using hqc,
            by omega, hqt, hqok⟩⟩
      · rw [hqd]
        rw [if_neg (by omega)]
        try dsimp only
        refine ⟨hhit, Or.inr ⟨hhitf,
          by simpa only [Node.contents] using hqc, rfl, hqt, ?_⟩⟩
        rcases hqokd with h | h <;> exact h
  · intro cbits b cb skip index hit ok deleted trace _ _ _
    refine ⟨⟨?_, ?_⟩, Or.inl ?_⟩ <;> simp [rdChildren, contentsL, rdModel]
  · intro c rest hP hQ cbits b cb skip index hit ok deleted trace hwf hnb
      hmode
    simp only [childrenWF, Bool.and_eq_true] at hwf
    obtain ⟨hcwf, hrwf⟩ := hwf
    cases skip with
    | succ skip =>
      have hhitf : hit = false := by
        cases hit with
        | false => rfl
        | true => simp at hmode
      subst hhitf
      simp only [Bool.false_eq_true, if_false] at hmode
      -- the skipped child sits in a block strictly below that of `start`
      have hclt : ∀ it ∈ c.contents, it.cell < start := by
        intro it hmem
        have hblock := (wf_contents_and_count.1 c _ _ hcwf).2.1 it hmem
        rw [Nat.sub_add_cancel hnb] at hblock
        exact block_lt_of_lt (by omega) hblock hmode
      have hm1 : rdModel start endc f c.contents true
          = (c.contents, 0, true, []) :=
        rdModel_lt_start start endc f c.contents hclt true
      have hma : rdModel start endc f (c.contents ++ contentsL rest) true
          = (c.contents ++ (rdModel start endc f (contentsL rest) true).1,
             (rdModel start endc f (contentsL rest) true).2.1,
             (rdModel start endc f (contentsL rest) true).2.2.1,
             (rdModel start endc f (contentsL rest) true).2.2.2) := by
        rw [rdModel_append, hm1]
        try rfl
        try simp
      simp only [rdChildren]
      try dsimp only
      obtain ⟨⟨h6, h7⟩, ihd⟩ := hQ cbits (b + 1) cb skip (index + 1) false
        ok deleted trace hrwf hnb
        (by simp only [Bool.false_eq_true, if_false]; omega)
      refine ⟨⟨fun h => absurd h (by simp), ?_⟩, ?_⟩
      · intro h
        exact h7 (by simp only [List.length_cons] at h; omega)
      · simp only [contentsL]
        have hma1 : (rdModel start endc f (c.contents ++ contentsL rest)
            true).1
            = c.contents
              ++ (rdModel start endc f (contentsL rest) true).1 := by
          rw [hma]
        have hma2 : (rdModel start endc f (c.contents ++ contentsL rest)
            true).2.1
            = (rdModel start endc f (contentsL rest) true).2.1 := by
          rw [hma]
        have hma3 : (rdModel start endc f (c.contents ++ contentsL rest)
            true).2.2.1
            = (rdModel start endc f (contentsL rest) true).2.2.1 := by
          rw [hma]
        have hma4 : (rdModel start endc f (c.contents ++ contentsL rest)
            true).2.2.2
            = (rdModel start endc f (contentsL rest) true).2.2.2 := by
          rw [hma]
        rcases ihd with ⟨h1, h2, h3, h4, h5⟩ | ⟨_, h1, h2, h3, h4o⟩
        · by_cases hrc : contentsL rest = []
          · by_cases hcc : c.contents = []
            · refine Or.inl ⟨?_, ?_, ?_, ?_, fun _ => h5 hrc⟩
              · rw [hma1, h1]
              · rw [hma2, h2]
              · rw [hma4, h3]
              · intro h
                exact absurd h (by simp [hcc, hrc])
            · refine Or.inr ⟨trivial, ?_, ?_, ?_, Or.inl (h5 hrc)⟩
              · rw [h1, hrc]
                simp [rdModel]
              · rw [h2, hrc]
                simp [rdModel]
              · rw [h3, hrc]
                simp [rdModel]
          · refine Or.inl ⟨?_, ?_, ?_, ?_, ?_⟩
            · rw [hma1, h1]
            · rw [hma2, h2]
            · rw [hma4, h3]
            · intro _
              rw [hma3]
              exact h4 hrc
            · intro h
              exact absurd (List.append_eq_nil.1 h).2 hrc
        · refine Or.inr ⟨trivial, ?_, h2, h3, h4o⟩
          rw [h1]
    | zero =>
      simp only [rdChildren]
      by_cases hzero : (c.count == 0) = true
      · rw [if_pos hzero]
        try dsimp only
        have hcempty : c.contents = [] := by
          have hcc := (wf_contents_and_count.1 c _ _ hcwf).2.2
          simp only [beq_iff_eq] at hzero
          rw [hzero] at hcc
          refine List.eq_nil_of_length_eq_zero ?_
          omega
        obtain ⟨⟨h6, h7⟩, ihd⟩ := hQ cbits (b + 1) cb 0 (index + 1) true
          ok deleted trace hrwf hnb (by simp)
        refine ⟨⟨fun _ => h6 rfl, fun _ => h6 rfl⟩, ?_⟩
        simp only [contentsL, hcempty, List.nil_append]
        rcases ihd with ⟨h1, h2, h3, h4, h5⟩ | ⟨hf2, _⟩
        · exact Or.inl ⟨h1, h2, h3, h4, h5⟩
        · exact absurd hf2 (by simp)
      · rw [if_neg hzero]
        rw [if_neg (by simp)]
        have hcne : c.contents ≠ [] := by
          have hcc := (wf_contents_and_count.1 c _ _ hcwf).2.2
          intro h
          rw [h] at hcc
          simp only [List.length_nil, Nat.cast_zero] at hcc
          rw [hcc] at hzero
          simp at hzero
        have hseekc : hit = false →
            start >>> ((cbits - numBits) + numBits) = b := by
          intro h
          rw [Nat.sub_add_cancel hnb]
          have h2 := hmode
          rw [h] at h2
          simp only [Bool.false_eq_true, if_false] at h2
          omega
        obtain ⟨hq5, pdich⟩ := hP (cbits - numBits) b
          (((cb <<< numBits) + index) % w64) hit hcwf hseekc
        simp only [contentsL]
        rw [rdModel_append]
        by_cases hok : (c.nodeRangeDelete start endc (cbits - numBits)
            (((cb <<< numBits) + index) % w64) hit (some f)).ok = true
        · rcases pdich with ⟨hq1, hq2, hq3, hq4⟩ | ⟨_, _, _, _, pokf⟩
          swap
          · rw [pokf] at hok
            exact absurd hok (by simp)
          rw [if_pos hok]
          try dsimp only
          have hqok := hq4 hcne
          have hmok : (rdModel start endc f c.contents true).2.2.1
              = true := by rw [← hqok]; exact hok
          obtain ⟨⟨h6, h7⟩, ihd⟩ := hQ cbits (b + 1) cb 0
            (index + 1)
            (c.nodeRangeDelete start endc (cbits - numBits)
              (((cb <<< numBits) + index) % w64) hit (some f)).hit
            (c.nodeRangeDelete start endc (cbits - numBits)
              (((cb <<< numBits) + index) % w64) hit (some f)).ok
            (deleted + (c.nodeRangeDelete start endc (cbits - numBits)
              (((cb <<< numBits) + index) % w64) hit (some f)).deleted)
            (trace ++ (c.nodeRangeDelete start endc (cbits - numBits)
              (((cb <<< numBits) + index) % w64) hit (some f)).trace)
            hrwf hnb (by rw [hq5]; simp)
          rcases ihd with ⟨h1, h2, h3, h4, h5⟩ | ⟨hf2, _⟩
          swap
          · rw [hq5] at hf2
            exact absurd hf2 (by simp)
          rw [hmok]
          refine ⟨⟨fun _ => h6 hq5, fun _ => h6 hq5⟩,
            Or.inl ⟨?_, ?_, ?_, ?_, ?_⟩⟩
          · simp only [contentsL]
            rw [hq1, h1]
          · rw [h2, hq2]
            omega
          · rw [h3, hq3]
            simp [List.append_assoc]
          · intro _
            rcases hrc : contentsL rest with _ | ⟨x, xs⟩
            · rw [h5 hrc]
              simp only [rdModel]
              exact hok
            · rw [hrc] at h4
              exact h4 (by simp)
          · intro h
            exact absurd (List.append_eq_nil.1 h).1 hcne
        · rw [if_neg hok]
          try dsimp only
          have hokf : (c.nodeRangeDelete start endc (cbits - numBits)
              (((cb <<< numBits) + index) % w64) hit (some f)).ok
              = false := by
            cases hv : (c.nodeRangeDelete start endc (cbits - numBits)
                (((cb <<< numBits) + index) % w64) hit (some f)).ok
            · rfl
            · exact absurd hv hok
          rcases pdich with ⟨hq1, hq2, hq3, hq4⟩
            | ⟨hfse, pc1, pc2, pc3, _⟩
          · have hqok := hq4 hcne
            have hmokf : (rdModel start endc f c.contents true).2.2.1
                = false := by rw [← hqok]; exact hokf
            rw [hmokf, rdModel_false]
            refine ⟨⟨fun _ => hq5, fun _ => hq5⟩,
              Or.inl ⟨?_, ?_, ?_, ?_, ?_⟩⟩
            · simp only [contentsL]
              rw [hq1]
              try simp
            · rw [hq2]
              simp
            · rw [hq3]
              simp
            · intro _
              exact hokf
            · intro h
              exact absurd (List.append_eq_nil.1 h).1 hcne
          · refine ⟨⟨fun _ => hq5, fun _ => hq5⟩,
              Or.inr ⟨hfse, ?_, ?_, ?_, Or.inr hokf⟩⟩
            · simp only [contentsL]
              rw [pc1]
            · rw [pc2]
              omega
            · rw [pc3]
              simp

/-- C2 (amended): with a non-null callback, on any well-formed tree
(`start` a `uint64`), `RangeDelete(start, end, iter)` either follows the
sequential early-stop model `rdModel` exactly — items visited in
ascending order while within the window, every requested deletion applied
including on the stopping invocation itself (so when the k-th invocation
returns `(should_delete = true, ok = false)` the k-th item IS deleted),
no item visited or deleted after an invocation returns `ok = false` or an
item past `end` is reached, count dropping by the number of deletions —
or performs no invocation at all and leaves contents and count untouched
(the traversal can stop before any visit because the `ok` named return
starts at Go's zero value `false`, so a seek-path branch whose examined
candidate children are all empty reports a stop).  Either way, whenever a
k-th invocation returns `ok = false`, exactly the deletions requested by
the first k invocations are applied and nothing later is visited or
deleted. -/
theorem c2_rangeDelete_early_stop_amended (start endc : Nat) (f : Iter2)
    (tr : Tree) (hwf : treeWF tr = true) (hstart : start < w64) :
    (treeContents (tr.RangeDelete start endc (some f)).1
        = (rdModel start endc f (treeContents tr) true).1 ∧
      (tr.RangeDelete start endc (some f)).1.count
        = tr.count
          - ((rdModel start endc f (treeContents tr) true).2.1 : Int) ∧
      (tr.RangeDelete start endc (some f)).2.1
        = (rdModel start endc f (treeContents tr) true).2.2.2)
    ∨ ((tr.RangeDelete start endc (some f)).2.1 = [] ∧
      treeContents (tr.RangeDelete start endc (some f)).1
        = treeContents tr ∧
      (tr.RangeDelete start endc (some f)).1.count = tr.count) := by
  rcases tr with ⟨cnt, root⟩
  cases root with
  | none =>
    left
    simp [Tree.RangeDelete, treeContents, rdModel]
  | some root =>
    simp only [treeWF, Bool.and_eq_true, beq_iff_eq] at hwf
    obtain ⟨hrwf, hcnt⟩ := hwf
    obtain ⟨_, pdich⟩ := (nodeRangeDelete_model start endc f).1
      root (64 - numBits) 0 0 false hrwf
      (fun _ => root_block start hstart)
    rcases pdich with ⟨h1, h2, h3, _⟩ | ⟨_, h1, h2, h3, _⟩
    · left
      simp only [Tree.RangeDelete, treeContents]
      refine ⟨h1, ?_, h3⟩
      show cnt - ((root.nodeRangeDelete start endc (64 - numBits) 0 false
          (some f)).deleted : Int) = _
      rw [h2]
    · right
      simp only [Tree.RangeDelete, treeContents]
      refine ⟨h3, h1, ?_⟩
      show cnt - ((root.nodeRangeDelete start endc (64 - numBits) 0 false
          (some f)).deleted : Int) = cnt
      rw [h2]
      simp

/-- C2 (amended) at a concrete input: items 5, 7 and 9 with a callback
that deletes cell 5 and stops (without deleting) at cell 7 — the run
follows the model: items 5 and 7 are visited, 5 is deleted, and 9 is
neither visited nor deleted. -/
theorem c2_rangeDelete_early_stop_amended_witness :
    (treeWF (((emptyTree.Insert 5 (some 1)).Insert 7 (some 2)).Insert
        9 none) = true ∧
      1 < w64) ∧
    ((treeContents ((((emptyTree.Insert 5 (some 1)).Insert 7
            (some 2)).Insert 9 none).RangeDelete 1 8
            (some fun c _ => (decide (c = 5), decide (c ≠ 7)))).1
          = (rdModel 1 8 (fun c _ => (decide (c = 5), decide (c ≠ 7)))
              (treeContents (((emptyTree.Insert 5 (some 1)).Insert 7
                (some 2)).Insert 9 none)) true).1 ∧
        ((((emptyTree.Insert 5 (some 1)).Insert 7 (some 2)).Insert 9
            none).RangeDelete 1 8
            (some fun c _ => (decide (c = 5), decide (c ≠ 7)))).1.count
          = (((emptyTree.Insert 5 (some 1)).Insert 7 (some 2)).Insert 9
              none).count
            - ((rdModel 1 8 (fun c _ => (decide (c = 5), decide (c ≠ 7)))
                (treeContents (((emptyTree.Insert 5 (some 1)).Insert 7
                  (some 2)).Insert 9 none)) true).2.1 : Int) ∧
        ((((emptyTree.Insert 5 (some 1)).Insert 7 (some 2)).Insert 9
            none).RangeDelete 1 8
            (some fun c _ => (decide (c = 5), decide (c ≠ 7)))).2.1
          = (rdModel 1 8 (fun c _ => (decide (c = 5), decide (c ≠ 7)))
              (treeContents (((emptyTree.Insert 5 (some 1)).Insert 7
                (some 2)).Insert 9 none)) true).2.2.2)
      ∨ (((((emptyTree.Insert 5 (some 1)).Insert 7 (some 2)).Insert 9
            none).RangeDelete 1 8
            (some fun c _ => (decide (c = 5), decide (c ≠ 7)))).2.1 = [] ∧
        treeContents ((((emptyTree.Insert 5 (some 1)).Insert 7
            (some 2)).Insert 9 none).RangeDelete 1 8
            (some fun c _ => (decide (c = 5), decide (c ≠ 7)))).1
          = treeContents (((emptyTree.Insert 5 (some 1)).Insert 7
            (some 2)).Insert 9 none) ∧
        ((((emptyTree.Insert 5 (some 1)).Insert 7 (some 2)).Insert 9
            none).RangeDelete 1 8
            (some fun c _ => (decide (c = 5), decide (c ≠ 7)))).1.count
          = (((emptyTree.Insert 5 (some 1)).Insert 7 (some 2)).Insert 9
              none).count)) :=
  ⟨⟨by decide, by decide⟩,
    c2_rangeDelete_early_stop_amended 1 8
      (fun c _ => (decide (c = 5), decide (c ≠ 7)))
      (((emptyTree.Insert 5 (some 1)).Insert 7 (some 2)).Insert 9 none)
      (by decide) (by decide)⟩

end Celltree
